import Mathlib

/-!
Shallow embedding of the chess rules engine (board.js, position.js, pieces.js,
constants.js) of the repository, together with proofs about the claims of its
specification.  JavaScript strings are modelled as `List Char`, JavaScript
numbers (always integral here) as `Int`, nullable values as `Option`, and the
in-place mutation of the Board and Game objects as explicit state passing: each
mutating method returns its result value together with the new state.  Object
identity of pieces inside the `pieces` array is modelled by list indices.
-/

/-- Piece colors, COLORS.WHITE / COLORS.BLACK of constants.js. -/
inductive Color where
  | white
  | black
deriving DecidableEq, Repr

/-- Piece variants, the six subclasses of Piece in pieces.js. -/
inductive PieceKind where
  | pawn
  | knight
  | bishop
  | rook
  | queen
  | king
deriving DecidableEq, Repr

/-- Position class of position.js: a row/column pair (row 0 is the top row). -/
structure Pos where
  row : Int
  col : Int
deriving DecidableEq, Repr

/-- Board files a..h (constants.js FILES). -/
def FILES : List Char := ['a', 'b', 'c', 'd', 'e', 'f', 'g', 'h']

/-- Board ranks 1..8 (constants.js RANKS). -/
def RANKS : List Char := ['1', '2', '3', '4', '5', '6', '7', '8']

/-- List indexing by a JavaScript (integer) index, with a default character for
the out-of-range accesses that JavaScript answers with undefined.  The engine
only evaluates these on in-range indices. -/
def listGetI (l : List Char) (i : Int) (dflt : Char) : Char :=
  if 0 ≤ i then l.getD i.toNat dflt else dflt

/-- Position.isValid of position.js. -/
def Pos.isValid (p : Pos) : Bool :=
  decide (0 ≤ p.row ∧ p.row < 8 ∧ 0 ≤ p.col ∧ p.col < 8)

/-- Position.equals of position.js. -/
def Pos.equals (p other : Pos) : Bool :=
  p.row == other.row && p.col == other.col

/-- Position.toAlgebraic of position.js: FILES[col] + RANKS[7 - row]. -/
def Pos.toAlgebraic (p : Pos) : List Char :=
  [listGetI FILES p.col '?', listGetI RANKS (7 - p.row) '?']

/-- Position.fromAlgebraic of position.js; `none` models the thrown error. -/
def Pos.fromAlgebraic (s : List Char) : Option Pos :=
  if s.length != 2 then none
  else
    let file := (s.getD 0 ' ').toLower
    let rank := s.getD 1 ' '
    if !(FILES.contains file) || !(RANKS.contains rank) then none
    else some ⟨8 - ((rank.toNat : Int) - 48), (FILES.indexOf file : Int)⟩

/-- Piece of pieces.js: variant, color, current position and move flag. -/
structure Piece where
  kind : PieceKind
  color : Color
  pos : Pos
  hasMoved : Bool
deriving DecidableEq, Repr

instance : Inhabited Piece := ⟨⟨.pawn, .white, ⟨0, 0⟩, false⟩⟩

/-- FEN symbol of a piece (the per-variant symbol getters of pieces.js). -/
def Piece.symbol (p : Piece) : Char :=
  match p.kind, p.color with
  | .pawn, .white => 'P'
  | .pawn, .black => 'p'
  | .knight, .white => 'N'
  | .knight, .black => 'n'
  | .bishop, .white => 'B'
  | .bishop, .black => 'b'
  | .rook, .white => 'R'
  | .rook, .black => 'r'
  | .queen, .white => 'Q'
  | .queen, .black => 'q'
  | .king, .white => 'K'
  | .king, .black => 'k'

/-- Abbreviation used in algebraic moves (the abbreviation getters). -/
def Piece.abbreviation (p : Piece) : List Char :=
  match p.kind with
  | .pawn => []
  | .knight => ['N']
  | .bishop => ['B']
  | .rook => ['R']
  | .queen => ['Q']
  | .king => ['K']

/-- Board of board.js: the live pieces, the en passant target and the captured
pieces list. -/
structure Board where
  pieces : List Piece
  enPassantTarget : Option Pos
  capturedPieces : List Piece
deriving DecidableEq, Repr

/-- Board.getPieceAt: first piece of the array whose position matches. -/
def Board.getPieceAt (b : Board) (position : Pos) : Option Piece :=
  b.pieces.find? (fun piece =>
    piece.pos.row == position.row && piece.pos.col == position.col)

/-- Index of the first piece at a square; this models the object identity of
the value Board.getPieceAt returns inside the pieces array. -/
def idxAtSquare (ps : List Piece) (position : Pos) : Option Nat :=
  ps.findIdx? (fun piece =>
    piece.pos.row == position.row && piece.pos.col == position.col)

/-- Board.getPiecesByColor. -/
def Board.getPiecesByColor (b : Board) (color : Color) : List Piece :=
  b.pieces.filter (fun piece => piece.color == color)

/-- Board.getKing: first piece that is a king of the given color. -/
def Board.getKing (b : Board) (color : Color) : Option Piece :=
  b.pieces.find? (fun piece => piece.kind == .king && piece.color == color)

/-- Board.getEnPassantTarget. -/
def Board.getEnPassantTarget (b : Board) : Option Pos :=
  b.enPassantTarget

/-- Piece.isPathClear of pieces.js.  The JavaScript while-loop walks from the
piece one sign-step at a time and stops at the target; it is only called by
bishop/rook/queen moves, where source and target are aligned, so the squares it
visits are exactly the squares strictly between them, and their number is the
maximum coordinate distance. -/
def Piece.isPathClear (p : Piece) (b : Board) (target : Pos) : Bool :=
  let rowStep := (target.row - p.pos.row).sign
  let colStep := (target.col - p.pos.col).sign
  let steps := max (target.row - p.pos.row).natAbs (target.col - p.pos.col).natAbs
  (List.range steps).all (fun i =>
    i == 0 ||
      (b.getPieceAt ⟨p.pos.row + (i : Int) * rowStep, p.pos.col + (i : Int) * colStep⟩).isNone)

/-- Piece.canMoveTo: the per-variant movement predicate of pieces.js. -/
def Piece.canMoveTo (p : Piece) (b : Board) (target : Pos) : Bool :=
  match p.kind with
  | .pawn =>
    let rowDirection : Int := if p.color == .white then -1 else 1
    let startingRank : Int := if p.color == .white then 6 else 1
    let rowDiff := target.row - p.pos.row
    let colDiff := target.col - p.pos.col
    if colDiff == 0 && rowDiff == rowDirection then
      (b.getPieceAt target).isNone
    else if colDiff == 0 && rowDiff == 2 * rowDirection && p.pos.row == startingRank then
      (b.getPieceAt ⟨p.pos.row + rowDirection, p.pos.col⟩).isNone && (b.getPieceAt target).isNone
    else if colDiff.natAbs == 1 && rowDiff == rowDirection then
      (match b.getPieceAt target with
       | some targetPiece => targetPiece.color != p.color
       | none => false) ||
      (match b.getEnPassantTarget with
       | some enPassantTarget => target.equals enPassantTarget
       | none => false)
    else false
  | .knight =>
    let rowDiff := (target.row - p.pos.row).natAbs
    let colDiff := (target.col - p.pos.col).natAbs
    (rowDiff == 2 && colDiff == 1) || (rowDiff == 1 && colDiff == 2)
  | .bishop =>
    let rowDiff := (target.row - p.pos.row).natAbs
    let colDiff := (target.col - p.pos.col).natAbs
    if rowDiff == colDiff then p.isPathClear b target else false
  | .rook =>
    if p.pos.row == target.row || p.pos.col == target.col then p.isPathClear b target
    else false
  | .queen =>
    let rowDiff := (target.row - p.pos.row).natAbs
    let colDiff := (target.col - p.pos.col).natAbs
    if rowDiff == colDiff then p.isPathClear b target
    else if p.pos.row == target.row || p.pos.col == target.col then p.isPathClear b target
    else false
  | .king =>
    let rowDiff := (target.row - p.pos.row).natAbs
    let colDiff := (target.col - p.pos.col).natAbs
    if rowDiff ≤ 1 && colDiff ≤ 1 then true
    else if !p.hasMoved && rowDiff == 0 && colDiff == 2 then
      let isKingside := p.pos.col < target.col
      let rookCol : Int := if isKingside then 7 else 0
      let rookPosition : Pos := ⟨p.pos.row, rookCol⟩
      match b.getPieceAt rookPosition with
      | none => false
      | some rook =>
        if rook.symbol.toLower != 'r' || rook.color != p.color || rook.hasMoved then false
        else
          let colStart := min p.pos.col rookCol
          let colEnd := max p.pos.col rookCol
          (List.range (colEnd - colStart - 1).toNat).all (fun i =>
            (b.getPieceAt ⟨p.pos.row, colStart + 1 + (i : Int)⟩).isNone)
    else false

/-- Piece.isValidMove of pieces.js: the generic wrapper around canMoveTo. -/
def Piece.isValidMove (p : Piece) (b : Board) (target : Pos) : Bool :=
  if !target.isValid then false
  else if p.pos.equals target then false
  else
    match b.getPieceAt target with
    | some targetPiece => if targetPiece.color == p.color then false else p.canMoveTo b target
    | none => p.canMoveTo b target

/-- Error outcomes of the engine; the JavaScript code reports these as error
strings inside result objects. -/
inductive MoveError where
  | noPieceAtSource
  | invalidMove
  | wrongTurn
  | selfCheck
deriving DecidableEq, Repr

/-- Result object of Board.movePiece.  The field piece snapshots the mover as
it was before the move (the later readers only use its kind and color), and
moverIdx records the index of that object in the updated pieces array, which
is how the embedding tracks JavaScript object identity; it is none when the
mover is no longer in the array (promotion, or self-removal through a
degenerate en passant capture). -/
structure MoveResult where
  success : Bool
  error : Option MoveError
  piece : Option Piece
  moverIdx : Option Nat
  fromPos : Pos
  toPos : Pos
  capturedPiece : Option Piece
  isPromotion : Bool
  promotedTo : Option Piece
  isCastling : Bool
  isEnPassant : Bool
  newEnPassantTarget : Option Pos
  rookMove : Option (Pos × Pos)
deriving DecidableEq, Repr

/-- Failure result of Board.movePiece. -/
def MoveResult.fail (e : MoveError) (fromPos toPos : Pos) : MoveResult :=
  { success := false, error := some e, piece := none, moverIdx := none,
    fromPos := fromPos, toPos := toPos, capturedPiece := none,
    isPromotion := false, promotedTo := none, isCastling := false,
    isEnPassant := false, newEnPassantTarget := none, rookMove := none }

/-- Adjustment of a tracked object index when the entry at index j is removed
from the array: the object vanishes when it was the removed entry, and shifts
down when it sat behind it. -/
def shiftAfterErase (j : Nat) (mi : Option Nat) : Option Nat :=
  match mi with
  | none => none
  | some k => if k == j then none else if j < k then some (k - 1) else some k

/-- Promotion constructor lookup of Board.movePiece:
pieceConstructors[promotionPiece] with Queen as the fallback default. -/
def promoKindOf (promotionPiece : Option (List Char)) : PieceKind :=
  match promotionPiece with
  | some ['Q'] => .queen
  | some ['R'] => .rook
  | some ['B'] => .bishop
  | some ['N'] => .knight
  | _ => .queen

/-- Running state of the mutation steps of Board.movePiece: the pieces array,
the captured list, and the tracked index of the mover object. -/
structure MoveMid where
  pieces : List Piece
  capturedPieces : List Piece
  moverIdx : Option Nat
deriving DecidableEq, Repr

/-- Removal of the first piece at a square, as both the normal capture and the
en passant capture of Board.movePiece perform it: the found object is removed
from the array and pushed onto the captured list. -/
def captureAt (square : Pos) (st : MoveMid) : Option Piece × MoveMid :=
  match idxAtSquare st.pieces square with
  | some j =>
    let cp := st.pieces.getD j default
    (some cp,
     { pieces := st.pieces.eraseIdx j, capturedPieces := st.capturedPieces ++ [cp],
       moverIdx := shiftAfterErase j st.moverIdx })
  | none => (none, st)

/-- Promotion-or-relocation step of Board.movePiece: when a pawn reaches the
opposite back rank the pawn object is removed and a piece of the chosen kind
is pushed with hasMoved set; otherwise the mover object is relocated in place
(a mover already removed from the array is mutated without board effect,
matching the JavaScript object mutation). -/
def promoteOrRelocate (piece : Piece) (toPos : Pos) (promotionPiece : Option (List Char))
    (st : MoveMid) : Bool × Option Piece × MoveMid :=
  if piece.kind == .pawn &&
      ((piece.color == .white && toPos.row == 0) ||
       (piece.color == .black && toPos.row == 7)) then
    let newPiece : Piece :=
      { kind := promoKindOf promotionPiece, color := piece.color,
        pos := toPos, hasMoved := true }
    (true, some newPiece,
     { pieces := (match st.moverIdx with
        | some k => st.pieces.eraseIdx k
        | none => st.pieces) ++ [newPiece],
       capturedPieces := st.capturedPieces, moverIdx := none })
  else
    (false, none,
     { pieces := (match st.moverIdx with
        | some k => st.pieces.set k { piece with pos := toPos, hasMoved := true }
        | none => st.pieces),
       capturedPieces := st.capturedPieces, moverIdx := st.moverIdx })

/-- Castling rook relocation of Board.movePiece: the first piece on the rook
home square of the castling side (if any) is moved next to the king. -/
def castleRook (fromPos toPos : Pos) (ps : List Piece) : Option (Pos × Pos) × List Piece :=
  let isKingside := fromPos.col < toPos.col
  let rookCol : Int := if isKingside then 7 else 0
  let rookPosition : Pos := ⟨fromPos.row, rookCol⟩
  match idxAtSquare ps rookPosition with
  | some j =>
    let rook := ps.getD j default
    let newRookCol := if isKingside then toPos.col - 1 else toPos.col + 1
    let newRookPosition : Pos := ⟨fromPos.row, newRookCol⟩
    (some (rookPosition, newRookPosition),
     ps.set j { rook with pos := newRookPosition, hasMoved := true })
  | none => (none, ps)

/-- En passant capture step of Board.movePiece: when the mover is a pawn and
the destination equals the en passant target, the first piece one row behind
the destination (if any) is captured and becomes the recorded capture. -/
def enPassantStep (piece : Piece) (b : Board) (toPos : Pos)
    (capturedPiece : Option Piece) (st : MoveMid) : Option Piece × Bool × MoveMid :=
  if piece.kind == .pawn &&
      (match b.enPassantTarget with
       | some enPassantTarget => toPos.equals enPassantTarget
       | none => false) then
    let captureRow := if piece.color == .white then toPos.row + 1 else toPos.row - 1
    let epCap := captureAt ⟨captureRow, toPos.col⟩ st
    match epCap.1 with
    | some cp => (some cp, true, epCap.2)
    | none => (capturedPiece, false, st)
  else (capturedPiece, false, st)

/-- Body of Board.movePiece after the source and validity checks, with the
mutation steps in source order: capture at the destination, en passant
capture, promotion or relocation, castling rook relocation, en passant target
update. -/
def movePieceRun (b : Board) (piece : Piece) (i0 : Nat) (fromPos toPos : Pos)
    (promotionPiece : Option (List Char)) : MoveResult × Board :=
  let st0 : MoveMid :=
    { pieces := b.pieces, capturedPieces := b.capturedPieces, moverIdx := some i0 }
  -- check for capture at the destination
  let cap := captureAt toPos st0
  let capturedPiece := cap.1
  let st1 := cap.2
  -- handle en passant capture
  let epRes := enPassantStep piece b toPos capturedPiece st1
  let resultCaptured := epRes.1
  let isEnPassant := epRes.2.1
  let st2 := epRes.2.2
  -- handle pawn promotion, otherwise relocate the mover
  let promo := promoteOrRelocate piece toPos promotionPiece st2
  let isPromotion := promo.1
  let promotedTo := promo.2.1
  let st3 := promo.2.2
  -- handle castling: relocate the rook next to the king
  let castleHit := piece.kind == .king && (toPos.col - fromPos.col).natAbs == 2
  let castleRes :=
    if castleHit then
      let rk := castleRook fromPos toPos st3.pieces
      (true, rk.1, rk.2)
    else (false, none, st3.pieces)
  let isCastling := castleRes.1
  let rookMove := castleRes.2.1
  let pieces4 := castleRes.2.2
  -- handle pawn double move and set the en passant target
  let newEnPassantTarget : Option Pos :=
    if piece.kind == .pawn && (toPos.row - fromPos.row).natAbs == 2 then
      some ⟨if piece.color == .white then fromPos.row - 1 else fromPos.row + 1, fromPos.col⟩
    else none
  ({ success := true, error := none, piece := some piece, moverIdx := st3.moverIdx,
     fromPos := fromPos, toPos := toPos, capturedPiece := resultCaptured,
     isPromotion := isPromotion, promotedTo := promotedTo,
     isCastling := isCastling, isEnPassant := isEnPassant,
     newEnPassantTarget := newEnPassantTarget, rookMove := rookMove },
   { pieces := pieces4, enPassantTarget := newEnPassantTarget,
     capturedPieces := st2.capturedPieces })

/-- Board.movePiece of board.js.  The promotionPiece argument models the
JavaScript string-or-null parameter (the callers default it to the one-letter
string Q). -/
def Board.movePiece (b : Board) (fromPos toPos : Pos)
    (promotionPiece : Option (List Char)) : MoveResult × Board :=
  match idxAtSquare b.pieces fromPos with
  | none => (MoveResult.fail .noPieceAtSource fromPos toPos, b)
  | some i0 =>
    let piece := b.pieces.getD i0 default
    if !(piece.isValidMove b toPos) then (MoveResult.fail .invalidMove fromPos toPos, b)
    else movePieceRun b piece i0 fromPos toPos promotionPiece

/-- Board.isSquareAttacked of board.js: kings attack by adjacency only, pawns
by their capture pattern only, every other piece by its normal move rule. -/
def Board.isSquareAttacked (b : Board) (position : Pos) (attackerColor : Color) : Bool :=
  (b.getPiecesByColor attackerColor).any (fun attacker =>
    match attacker.kind with
    | .king =>
      (position.row - attacker.pos.row).natAbs ≤ 1 &&
      (position.col - attacker.pos.col).natAbs ≤ 1
    | .pawn =>
      let rowDirection : Int := if attackerColor == .white then -1 else 1
      let attackRow := attacker.pos.row + rowDirection
      let leftCol := attacker.pos.col - 1
      let rightCol := attacker.pos.col + 1
      attackRow == position.row && (leftCol == position.col || rightCol == position.col)
    | _ => attacker.isValidMove b position)

/-- Board.isKingInCheck. -/
def Board.isKingInCheck (b : Board) (kingColor : Color) : Bool :=
  match b.getKing kingColor with
  | none => false
  | some king =>
    let opponentColor := if kingColor == .white then Color.black else Color.white
    b.isSquareAttacked king.pos opponentColor

/-- Board.clone produces a deep copy; on the immutable values of the embedding
this is the identity. -/
def Board.clone (b : Board) : Board := b

/-- Board.getLegalMovesForPiece: every square, filtered by the move rule and
by simulating the move on a cloned board and rejecting it when the own king
would be in check afterwards. -/
def Board.getLegalMovesForPiece (b : Board) (piece : Piece) : List Pos :=
  (List.range 8).flatMap (fun row =>
    (List.range 8).filterMap (fun col =>
      let targetPos : Pos := ⟨(row : Int), (col : Int)⟩
      if piece.pos.equals targetPos then none
      else if piece.isValidMove b targetPos then
        let tempBoard := b.clone
        let moved := tempBoard.movePiece piece.pos targetPos (some ['Q'])
        if !(moved.2.isKingInCheck piece.color) then some targetPos else none
      else none))

/-- Board.hasLegalMoves. -/
def Board.hasLegalMoves (b : Board) (color : Color) : Bool :=
  (b.getPiecesByColor color).any (fun piece =>
    0 < (b.getLegalMovesForPiece piece).length)

/-- Board.isCheckmate. -/
def Board.isCheckmate (b : Board) (color : Color) : Bool :=
  if !(b.isKingInCheck color) then false
  else !(b.hasLegalMoves color)

/-- Board.isStalemate. -/
def Board.isStalemate (b : Board) (color : Color) : Bool :=
  if b.isKingInCheck color then false
  else !(b.hasLegalMoves color)

/-- Board.isInsufficientMaterial. -/
def Board.isInsufficientMaterial (b : Board) : Bool :=
  let pieces := b.pieces
  if pieces.length == 2 then true
  else if pieces.length == 3 then
    let bishops := (pieces.filter (fun p => p.kind == .bishop)).length
    let knights := (pieces.filter (fun p => p.kind == .knight)).length
    bishops == 1 || knights == 1
  else if pieces.length == 4 then
    let bishops := pieces.filter (fun p => p.kind == .bishop)
    if bishops.length == 2 then
      let bishop1 := bishops.getD 0 default
      let bishop2 := bishops.getD 1 default
      if bishop1.color != bishop2.color then
        let isOdd1 := (bishop1.pos.row + bishop1.pos.col) % 2 == 1
        let isOdd2 := (bishop2.pos.row + bishop2.pos.col) % 2 == 1
        isOdd1 == isOdd2
      else false
    else false
  else false

/-- Comparator of Board.getPositionSignature as a boolean order: by symbol
(localeCompare on the twelve one-letter ASCII symbols, embedded as code point
order, which is some fixed total order as required), then row, then column. -/
def pieceSortLE (a b : Piece) : Bool :=
  if a.symbol != b.symbol then decide (a.symbol ≤ b.symbol)
  else if a.pos.row != b.pos.row then decide (a.pos.row ≤ b.pos.row)
  else decide (a.pos.col ≤ b.pos.col)

/-- Comparator of Board.getPositionSignature as a proposition, for sorting. -/
def pieceLE (a b : Piece) : Prop := pieceSortLE a b = true

instance : DecidableRel pieceLE := fun a b => by
  unfold pieceLE
  infer_instance

/-- Board.getPositionSignature: sorted symbol+square pairs followed by the en
passant marker.  The JavaScript Array.sort is a stable sort by the comparator,
which insertion sort implements. -/
def Board.getPositionSignature (b : Board) : List Char :=
  let sortedPieces := List.insertionSort pieceLE b.pieces
  (sortedPieces.map (fun piece => piece.symbol :: piece.pos.toAlgebraic)).flatten
    ++ [';', 'e', 'p', ':']
    ++ (match b.enPassantTarget with
        | some enPassantTarget => enPassantTarget.toAlgebraic
        | none => ['-'])

/-- Single decimal digit as a character. -/
def digitChar (n : Nat) : Char := Char.ofNat (48 + n)

/-- Run-length encoding of one rank of symbols with a pending count of empty
squares, the body of the row loop of Board.toFEN. -/
def rleEncode : List (Option Char) → Nat → List Char
  | [], emptyCount => if emptyCount > 0 then [digitChar emptyCount] else []
  | none :: rest, emptyCount => rleEncode rest (emptyCount + 1)
  | some c :: rest, emptyCount =>
    (if emptyCount > 0 then [digitChar emptyCount] else []) ++ c :: rleEncode rest 0

/-- Symbols of one board row in column order. -/
def Board.rowSyms (b : Board) (row : Int) : List (Option Char) :=
  (List.range 8).map (fun col => (b.getPieceAt ⟨row, (col : Int)⟩).map Piece.symbol)

/-- Piece placement field of Board.toFEN: run-length encoded rows joined by
slashes. -/
def Board.toFEN (b : Board) : List Char :=
  List.intercalate ['/'] ((List.range 8).map (fun row => rleEncode (b.rowSyms (row : Int)) 0))

/-- Recognized FEN piece letters (the prnbqkPRNBQK character class and the
switch of Board.loadFEN). -/
def charToPieceKC (c : Char) : Option (PieceKind × Color) :=
  match c with
  | 'P' => some (.pawn, .white)
  | 'p' => some (.pawn, .black)
  | 'R' => some (.rook, .white)
  | 'r' => some (.rook, .black)
  | 'N' => some (.knight, .white)
  | 'n' => some (.knight, .black)
  | 'B' => some (.bishop, .white)
  | 'b' => some (.bishop, .black)
  | 'Q' => some (.queen, .white)
  | 'q' => some (.queen, .black)
  | 'K' => some (.king, .white)
  | 'k' => some (.king, .black)
  | _ => none

/-- Character loop of one row of Board.loadFEN; returns the success flag, the
final column and the accumulated pieces (which Board.loadFEN keeps even on
failure, since the JavaScript code mutates this.pieces as it goes). -/
def parseFENRow (row : Int) : Int → List Char → List Piece → Bool × Int × List Piece
  | col, [], acc => (true, col, acc)
  | col, c :: rest, acc =>
    if decide ('1' ≤ c ∧ c ≤ '8') then
      parseFENRow row (col + ((c.toNat : Int) - 48)) rest acc
    else
      match charToPieceKC c with
      | some kc =>
        parseFENRow row (col + 1) rest
          (acc ++ [{ kind := kc.1, color := kc.2, pos := ⟨row, col⟩, hasMoved := false }])
      | none => (false, col, acc)

/-- Row loop of Board.loadFEN. -/
def parseFENRows : List (List Char) → Int → List Piece → Bool × List Piece
  | [], _, acc => (true, acc)
  | r :: rest, rowIdx, acc =>
    let step := parseFENRow rowIdx 0 r acc
    if !step.1 then (false, step.2.2)
    else if step.2.1 != 8 then (false, step.2.2)
    else parseFENRows rest (rowIdx + 1) step.2.2

/-- Character splitting, the behaviour of the JavaScript String.split with a
single-character separator (consecutive separators yield empty fragments). -/
def splitOnChar (sep : Char) : List Char → List (List Char)
  | [] => [[]]
  | c :: rest =>
    match splitOnChar sep rest with
    | [] => if c == sep then [[], []] else [[c]]
    | cur :: others => if c == sep then [] :: cur :: others else (c :: cur) :: others

/-- Board.loadFEN of board.js.  The board is cleared before parsing, so a
failed load leaves the cleared (possibly partially refilled) state behind;
the incoming board state is discarded either way. -/
def Board.loadFEN (_b : Board) (fen : List Char) : Bool × Board :=
  let rows := splitOnChar '/' fen
  if rows.length != 8 then
    (false, { pieces := [], enPassantTarget := none, capturedPieces := [] })
  else
    let parsed := parseFENRows rows 0 []
    (parsed.1, { pieces := parsed.2, enPassantTarget := none, capturedPieces := [] })

/-- Initial piece array of Board.setupInitialPosition, in construction order. -/
def setupInitialPieces : List Piece :=
  ((List.range 8).flatMap (fun col =>
    [⟨.pawn, .black, ⟨1, (col : Int)⟩, false⟩, ⟨.pawn, .white, ⟨6, (col : Int)⟩, false⟩]))
  ++ [⟨.rook, .black, ⟨0, 0⟩, false⟩, ⟨.rook, .black, ⟨0, 7⟩, false⟩,
      ⟨.rook, .white, ⟨7, 0⟩, false⟩, ⟨.rook, .white, ⟨7, 7⟩, false⟩,
      ⟨.knight, .black, ⟨0, 1⟩, false⟩, ⟨.knight, .black, ⟨0, 6⟩, false⟩,
      ⟨.knight, .white, ⟨7, 1⟩, false⟩, ⟨.knight, .white, ⟨7, 6⟩, false⟩,
      ⟨.bishop, .black, ⟨0, 2⟩, false⟩, ⟨.bishop, .black, ⟨0, 5⟩, false⟩,
      ⟨.bishop, .white, ⟨7, 2⟩, false⟩, ⟨.bishop, .white, ⟨7, 5⟩, false⟩,
      ⟨.queen, .black, ⟨0, 3⟩, false⟩, ⟨.queen, .white, ⟨7, 3⟩, false⟩,
      ⟨.king, .black, ⟨0, 4⟩, false⟩, ⟨.king, .white, ⟨7, 4⟩, false⟩]

/-- Board constructor: the standard initial position. -/
def Board.new : Board :=
  { pieces := setupInitialPieces, enPassantTarget := none, capturedPieces := [] }

/-- Game status values, GAME_STATUS of constants.js. -/
inductive GameStatus where
  | active
  | check
  | checkmateWhite
  | checkmateBlack
  | drawStalemate
  | drawInsufficient
  | drawRepetition
  | drawFiftyMove
deriving DecidableEq, Repr

/-- Move record appended to Game.moveHistory by Game.makeMove.  The piece
field snapshots the mover fetched before the move (replay and bookkeeping read
only its kind), from and to are stored as algebraic strings. -/
structure MoveRec where
  piece : Piece
  fromAlg : List Char
  toAlg : List Char
  capturedPiece : Option Piece
  isPromotion : Bool
  promotedTo : Option Piece
  isCastling : Bool
  isEnPassant : Bool
  notationText : List Char
deriving DecidableEq, Repr

/-- Game of position.js (the chess game manager). -/
structure Game where
  board : Board
  currentTurn : Color
  moveHistory : List MoveRec
  positionHistory : List (List Char)
  halfMoveClock : Int
  fullMoveNumber : Int
  gameStatus : GameStatus
deriving DecidableEq, Repr

/-- Game constructor. -/
def Game.new : Game :=
  { board := Board.new, currentTurn := .white, moveHistory := [],
    positionHistory := [Board.new.getPositionSignature],
    halfMoveClock := 0, fullMoveNumber := 1, gameStatus := .active }

/-- Number of occurrences of the current position signature in the position
history, the counting loop of Game.updateGameStatus. -/
def Game.repetitionCount (g : Game) : Nat :=
  g.positionHistory.countP (fun position => position == g.board.getPositionSignature)

/-- Game.updateGameStatus: the status cascade, evaluated in source order. -/
def Game.updateGameStatus (g : Game) : GameStatus :=
  let opponentColor := g.currentTurn
  if g.board.isCheckmate opponentColor then
    if opponentColor == .white then .checkmateBlack else .checkmateWhite
  else if g.board.isStalemate opponentColor then .drawStalemate
  else if g.board.isInsufficientMaterial then .drawInsufficient
  else if 3 ≤ g.repetitionCount then .drawRepetition
  else if 100 ≤ g.halfMoveClock then .drawFiftyMove
  else if g.board.isKingInCheck opponentColor then .check
  else .active

/-- Game.generateMoveNotation, evaluated with the board already updated and
the turn still showing the mover.  The comparison p !== piece of the
disambiguation filter is object identity, modelled by the mover index the
move result carries. -/
def Game.generateMoveNotationOf (g : Game) (moveResult : MoveResult) : List Char :=
  if moveResult.isCastling then
    if moveResult.fromPos.col < moveResult.toPos.col then ['O', '-', 'O']
    else ['O', '-', 'O', '-', 'O']
  else
    let piece := moveResult.piece.getD default
    let notaStep1 : List Char :=
      if !(piece.kind == .pawn) then
        let otherPieces := (g.board.pieces.enum.filter (fun pi =>
          !(some pi.1 == moveResult.moverIdx) &&
          pi.2.kind == piece.kind &&
          pi.2.color == piece.color &&
          pi.2.isValidMove g.board moveResult.toPos)).map (fun pi => pi.2)
        if 0 < otherPieces.length then
          let sameFile := otherPieces.any (fun p => p.pos.col == moveResult.fromPos.col)
          let sameRank := otherPieces.any (fun p => p.pos.row == moveResult.fromPos.row)
          if !sameFile then piece.abbreviation ++ [moveResult.fromPos.toAlgebraic.getD 0 '?']
          else if !sameRank then piece.abbreviation ++ [moveResult.fromPos.toAlgebraic.getD 1 '?']
          else piece.abbreviation ++ moveResult.fromPos.toAlgebraic
        else piece.abbreviation
      else if moveResult.capturedPiece.isSome || moveResult.isEnPassant then
        [moveResult.fromPos.toAlgebraic.getD 0 '?']
      else []
    let notaStep2 :=
      if moveResult.capturedPiece.isSome || moveResult.isEnPassant then notaStep1 ++ ['x']
      else notaStep1
    let notaStep3 := notaStep2 ++ moveResult.toPos.toAlgebraic
    let notaStep4 :=
      match moveResult.promotedTo with
      | some promotedTo =>
        if moveResult.isPromotion then notaStep3 ++ '=' :: promotedTo.abbreviation else notaStep3
      | none => notaStep3
    let opponentColor := if g.currentTurn == .white then Color.black else Color.white
    if g.board.isCheckmate opponentColor then notaStep4 ++ ['#']
    else if g.board.isKingInCheck opponentColor then notaStep4 ++ ['+']
    else notaStep4

/-- Result object of Game.makeMove. -/
structure MakeMoveResult where
  success : Bool
  error : Option MoveError
  move : Option MoveRec
  gameStatus : Option GameStatus
deriving DecidableEq, Repr

/-- Game.makeMove of position.js: turn check, clone-and-simulate legality
check, commit, bookkeeping, notation, status update. -/
def Game.makeMove (g : Game) (fromPos toPos : Pos)
    (promotionPiece : Option (List Char)) : MakeMoveResult × Game :=
  match g.board.getPieceAt fromPos with
  | none =>
    ({ success := false, error := some .wrongTurn, move := none, gameStatus := none }, g)
  | some piece =>
    if piece.color != g.currentTurn then
      ({ success := false, error := some .wrongTurn, move := none, gameStatus := none }, g)
    else
      let tempBoard := g.board.clone
      let simulated := tempBoard.movePiece fromPos toPos promotionPiece
      if !simulated.1.success then
        ({ success := false, error := simulated.1.error, move := none, gameStatus := none }, g)
      else if simulated.2.isKingInCheck g.currentTurn then
        ({ success := false, error := some .selfCheck, move := none, gameStatus := none }, g)
      else
        let committed := g.board.movePiece fromPos toPos promotionPiece
        let result := committed.1
        let board2 := committed.2
        let halfMoveClock :=
          if piece.kind == .pawn || result.capturedPiece.isSome then 0
          else g.halfMoveClock + 1
        let positionHistory := g.positionHistory ++ [board2.getPositionSignature]
        let g1 : Game :=
          { g with board := board2, halfMoveClock := halfMoveClock,
                   positionHistory := positionHistory }
        let move : MoveRec :=
          { piece := piece, fromAlg := fromPos.toAlgebraic, toAlg := toPos.toAlgebraic,
            capturedPiece := result.capturedPiece, isPromotion := result.isPromotion,
            promotedTo := result.promotedTo, isCastling := result.isCastling,
            isEnPassant := result.isEnPassant,
            notationText := g1.generateMoveNotationOf result }
        let moveHistory := g.moveHistory ++ [move]
        let fullMoveNumber :=
          if g.currentTurn == .black then g.fullMoveNumber + 1 else g.fullMoveNumber
        let currentTurn := if g.currentTurn == .white then Color.black else Color.white
        let g2 : Game :=
          { g1 with moveHistory := moveHistory, fullMoveNumber := fullMoveNumber,
                    currentTurn := currentTurn }
        let status := g2.updateGameStatus
        ({ success := true, error := none, move := some move, gameStatus := some status },
         { g2 with gameStatus := status })

/-- Decimal digits of a natural number, most significant first, by fuelled
division (the fuel argument only guarantees termination). -/
def natToDecimalAux : Nat → Nat → List Char
  | 0, _ => []
  | fuel + 1, n => if n == 0 then [] else natToDecimalAux fuel (n / 10) ++ [digitChar (n % 10)]

/-- Decimal representation of a natural number, as JavaScript number-to-string
conversion produces for the (small, integral) values of this engine. -/
def natToDecimal (n : Nat) : List Char :=
  if n == 0 then ['0'] else natToDecimalAux (n + 1) n

/-- Decimal representation of an integer. -/
def intToDecimal (n : Int) : List Char :=
  if n < 0 then '-' :: natToDecimal n.natAbs else natToDecimal n.natAbs

/-- JavaScript parseInt(s, 10) on the already-trimmed inputs of this engine:
an optional sign, then the leading run of decimal digits (trailing characters
are ignored); none models NaN. -/
def parseIntJS (s : List Char) : Option Int :=
  let signed : Bool × List Char :=
    match s with
    | '-' :: r => (true, r)
    | '+' :: r => (false, r)
    | r => (false, r)
  let digits := signed.2.takeWhile (fun c => decide ('0' ≤ c ∧ c ≤ '9'))
  if digits.length == 0 then none
  else
    let v : Nat := digits.foldl (fun v c => v * 10 + (c.toNat - 48)) 0
    some (if signed.1 then -(v : Int) else (v : Int))

/-- JavaScript String.trim, for the whitespace-free-at-the-ends inputs of this
engine. -/
def trimWS (s : List Char) : List Char :=
  (((s.dropWhile Char.isWhitespace).reverse).dropWhile Char.isWhitespace).reverse

/-- Helper of Game.getFEN and Game.loadFEN: the rook, if any, of the given
color sitting on its home square in the given column. -/
def Game.findRookAt (g : Game) (color : Color) (col : Int) : Option Piece :=
  let row : Int := if color == .white then 7 else 0
  match g.board.getPieceAt ⟨row, col⟩ with
  | some piece => if piece.kind == .rook && piece.color == color then some piece else none
  | none => none

/-- Game.getFEN: placement, active color, derived castling rights, en passant
target, half-move clock and full-move number, space separated. -/
def Game.getFEN (g : Game) : List Char :=
  let placement := g.board.toFEN
  let active := if g.currentTurn == .white then ['w'] else ['b']
  let whiteKing := g.board.getKing .white
  let blackKing := g.board.getKing .black
  let unmoved : Option Piece → Bool := fun po =>
    match po with
    | some p => !p.hasMoved
    | none => false
  let castling :=
    (if unmoved whiteKing && unmoved (g.findRookAt .white 7) then ['K'] else [])
    ++ (if unmoved whiteKing && unmoved (g.findRookAt .white 0) then ['Q'] else [])
    ++ (if unmoved blackKing && unmoved (g.findRookAt .black 7) then ['k'] else [])
    ++ (if unmoved blackKing && unmoved (g.findRookAt .black 0) then ['q'] else [])
  let castling := if castling == [] then ['-'] else castling
  let enPassant :=
    match g.board.getEnPassantTarget with
    | some enPassantTarget => enPassantTarget.toAlgebraic
    | none => ['-']
  placement ++ ' ' :: active ++ ' ' :: castling ++ ' ' :: enPassant
    ++ ' ' :: intToDecimal g.halfMoveClock ++ ' ' :: intToDecimal g.fullMoveNumber

/-- Replacement of the first piece satisfying a predicate (mutation of the
object Array.prototype.find returns). -/
def updateFirst (pred : Piece → Bool) (f : Piece → Piece) : List Piece → List Piece
  | [] => []
  | p :: rest => if pred p then f p :: rest else p :: updateFirst pred f rest

/-- Clearing of the hasMoved flag of the rook (if any) on the home square of
the given column, the findRook helper of Game.loadFEN. -/
def clearRookFlagAt (color : Color) (col : Int) (ps : List Piece) : List Piece :=
  let row : Int := if color == .white then 7 else 0
  match idxAtSquare ps ⟨row, col⟩ with
  | some j =>
    let piece := ps.getD j default
    if piece.kind == .rook && piece.color == color then
      ps.set j { piece with hasMoved := false }
    else ps
  | none => ps

/-- Clearing of the hasMoved flag of the first king of a color, the getKing
based flag update of Game.loadFEN. -/
def clearKingFlag (color : Color) (ps : List Piece) : List Piece :=
  updateFirst (fun p => p.kind == .king && p.color == color)
    (fun p => { p with hasMoved := false }) ps

/-- Game.loadFEN of position.js, with its mutations applied in source order;
on the failure paths the state mutated so far is returned (the field-count
check alone fails before any mutation).  On the non-numeric half-move-clock
path JavaScript has already stored NaN in the clock; no later engine code
reads the clock of such a failed load, and the embedding leaves the previous
clock in place there. -/
def Game.loadFEN (g : Game) (fen : List Char) : Bool × Game :=
  let parts := splitOnChar ' ' (trimWS fen)
  if parts.length != 6 then (false, g)
  else
    let loaded := g.board.loadFEN (parts.getD 0 [])
    if !loaded.1 then (false, { g with board := loaded.2 })
    else
      let b1 := loaded.2
      let currentTurn := if parts.getD 1 [] == ['w'] then Color.white else Color.black
      let castling := parts.getD 2 []
      let ps := b1.pieces.map (fun p =>
        if p.kind == .king || p.kind == .rook then { p with hasMoved := true } else p)
      let ps :=
        if castling != ['-'] then
          let ps := if castling.contains 'K' || castling.contains 'Q' then
            clearKingFlag .white ps else ps
          let ps := if castling.contains 'k' || castling.contains 'q' then
            clearKingFlag .black ps else ps
          let ps := if castling.contains 'K' then clearRookFlagAt .white 7 ps else ps
          let ps := if castling.contains 'Q' then clearRookFlagAt .white 0 ps else ps
          let ps := if castling.contains 'k' then clearRookFlagAt .black 7 ps else ps
          let ps := if castling.contains 'q' then clearRookFlagAt .black 0 ps else ps
          ps
        else ps
      let b2 := { b1 with pieces := ps }
      let epParsed : Option (Option Pos) :=
        if parts.getD 3 [] != ['-'] then (Pos.fromAlgebraic (parts.getD 3 [])).map some
        else some none
      match epParsed with
      | none => (false, { g with board := b2, currentTurn := currentTurn })
      | some epv =>
        let b3 := { b2 with enPassantTarget := epv }
        match parseIntJS (parts.getD 4 []) with
        | none => (false, { g with board := b3, currentTurn := currentTurn })
        | some halfMoveClock =>
          match parseIntJS (parts.getD 5 []) with
          | none =>
            (false, { g with board := b3, currentTurn := currentTurn,
                             halfMoveClock := halfMoveClock })
          | some fullMoveNumber =>
            let g5 : Game :=
              { g with board := b3, currentTurn := currentTurn,
                       halfMoveClock := halfMoveClock, fullMoveNumber := fullMoveNumber,
                       moveHistory := [], positionHistory := [b3.getPositionSignature] }
            (true, { g5 with gameStatus := g5.updateGameStatus })

/-- The promotion argument Game.undoLastMove passes to movePiece when
replaying a recorded move: the abbreviation of the promoted piece for a
promotion record, null otherwise. -/
def replayPromoArg (move : MoveRec) : Option (List Char) :=
  if move.isPromotion then
    match move.promotedTo with
    | some promotedTo => some promotedTo.abbreviation
    | none => none
  else none

/-- Replay state of Game.undoLastMove: board, turn, half-move clock and
full-move number. -/
def replayStep (st : Board × Color × Int × Int) (move : MoveRec) :
    Option (Board × Color × Int × Int) :=
  match Pos.fromAlgebraic move.fromAlg, Pos.fromAlgebraic move.toAlg with
  | some fromPos, some toPos =>
    let promotionPiece : Option (List Char) := replayPromoArg move
    let moved := st.1.movePiece fromPos toPos promotionPiece
    let currentTurn := if st.2.1 == .white then Color.black else Color.white
    let halfMoveClock :=
      if move.piece.kind == .pawn || move.capturedPiece.isSome then 0 else st.2.2.1 + 1
    let fullMoveNumber := if currentTurn == .white then st.2.2.2 + 1 else st.2.2.2
    some (moved.2, currentTurn, halfMoveClock, fullMoveNumber)
  | _, _ => none

/-- Replay loop of Game.undoLastMove over the remaining history. -/
def replayAll : List MoveRec → (Board × Color × Int × Int) → Option (Board × Color × Int × Int)
  | [], st => some st
  | move :: rest, st =>
    match replayStep st move with
    | some st1 => replayAll rest st1
    | none => none

/-- Game.undoLastMove of position.js: pop the last move and signature, then
rebuild board, turn and counters by replaying the remaining moves from the
initial position; none models the JavaScript exception thrown when a stored
square fails to parse (unreachable for histories built by makeMove). -/
def Game.undoLastMove (g : Game) : Option (Bool × Game) :=
  if g.moveHistory.length == 0 then some (false, g)
  else
    let moveHistory := g.moveHistory.dropLast
    let positionHistory := g.positionHistory.dropLast
    match replayAll moveHistory (Board.new, Color.white, 0, 1) with
    | none => none
    | some st =>
      let g1 : Game :=
        { g with board := st.1, currentTurn := st.2.1, halfMoveClock := st.2.2.1,
                 fullMoveNumber := st.2.2.2, moveHistory := moveHistory,
                 positionHistory := positionHistory }
      some (true, { g1 with gameStatus := g1.updateGameStatus })

/-- Well-formedness of a board: no two pieces share a square, every piece is
on the board, and the en passant target (if any) is a board square.  This is
the placement invariant of the specification data model. -/
def Board.WF (b : Board) : Prop :=
  (b.pieces.map Piece.pos).Nodup ∧
  (∀ p ∈ b.pieces, p.pos.isValid = true) ∧
  (∀ t, b.enPassantTarget = some t → t.isValid = true)

/-- Game states reachable from the standard initial position by successful
makeMove calls. -/
inductive Reachable : Game → Prop where
  | base : Reachable Game.new
  | step (g : Game) (fromPos toPos : Pos) (pc : Option (List Char)) :
      Reachable g → (g.makeMove fromPos toPos pc).1.success = true →
      Reachable (g.makeMove fromPos toPos pc).2

/-- Sequential application of makeMove requests, defined only when every one
of them succeeds. -/
def playSeq : Game → List (Pos × Pos × Option (List Char)) → Option Game
  | g, [] => some g
  | g, mv :: rest =>
    let r := g.makeMove mv.1 mv.2.1 mv.2.2
    if r.1.success then playSeq r.2 rest else none

/-- Sort key of the position signature comparator: symbol, row, column. -/
def Piece.sigKey (p : Piece) : Char × Int × Int := (p.symbol, p.pos.row, p.pos.col)

/-- Lexicographic order on signature sort keys. -/
def sigKeyLE (a b : Char × Int × Int) : Prop :=
  a.1 < b.1 ∨ (a.1 = b.1 ∧ (a.2.1 < b.2.1 ∨ (a.2.1 = b.2.1 ∧ a.2.2 ≤ b.2.2)))

/-- Contribution of one signature entry, as a function of the sort key. -/
def sigKeyStr (k : Char × Int × Int) : List Char :=
  k.1 :: Pos.toAlgebraic ⟨k.2.1, k.2.2⟩

/-- Pieces created by one row of Board.loadFEN from the symbols of the row,
starting at the given column. -/
def mkRowPieces (row : Int) : List (Option Char) → Int → List Piece
  | [], _ => []
  | none :: rest, col => mkRowPieces row rest (col + 1)
  | some c :: rest, col =>
    (match charToPieceKC c with
     | some kc => [⟨kc.1, kc.2, ⟨row, col⟩, false⟩]
     | none => []) ++ mkRowPieces row rest (col + 1)

/-- Tracking invariant of the mover object through the mutation steps: when
the mover index is set it points at the mover inside the pieces array, and
when it is cleared the mover (the unique piece of the source square) is no
longer on the board. -/
def moverInv (mover : Piece) (fromPos : Pos) (st : MoveMid) : Prop :=
  (∀ k, st.moverIdx = some k → k < st.pieces.length ∧ st.pieces.getD k default = mover) ∧
  (st.moverIdx = none → ∀ q ∈ st.pieces, q.pos ≠ fromPos)

/-- The pieces a load of a full placement string accumulates, row by row in
row-major order. -/
def loadedPieces (b : Board) : List Piece :=
  mkRowPieces 0 (b.rowSyms 0) 0 ++ (mkRowPieces 1 (b.rowSyms 1) 0 ++
    (mkRowPieces 2 (b.rowSyms 2) 0 ++ (mkRowPieces 3 (b.rowSyms 3) 0 ++
      (mkRowPieces 4 (b.rowSyms 4) 0 ++ (mkRowPieces 5 (b.rowSyms 5) 0 ++
        (mkRowPieces 6 (b.rowSyms 6) 0 ++ mkRowPieces 7 (b.rowSyms 7) 0))))))

/-- The unmoved test Game.getFEN applies to king and rook lookups. -/
def unmovedOpt (po : Option Piece) : Bool :=
  match po with
  | some p => !p.hasMoved
  | none => false

/-- The castling-rights field of Game.getFEN. -/
def castlingStr (g : Game) : List Char :=
  let castling :=
    (if unmovedOpt (g.board.getKing .white) && unmovedOpt (g.findRookAt .white 7) then
      ['K'] else [])
    ++ (if unmovedOpt (g.board.getKing .white) && unmovedOpt (g.findRookAt .white 0) then
      ['Q'] else [])
    ++ (if unmovedOpt (g.board.getKing .black) && unmovedOpt (g.findRookAt .black 7) then
      ['k'] else [])
    ++ (if unmovedOpt (g.board.getKing .black) && unmovedOpt (g.findRookAt .black 0) then
      ['q'] else [])
  if castling == [] then ['-'] else castling

/-- The en passant field of Game.getFEN. -/
def epStr (b : Board) : List Char :=
  match b.getEnPassantTarget with
  | some enPassantTarget => enPassantTarget.toAlgebraic
  | none => ['-']

/-! Theorems.  First the claims that follow directly from the definitions and
from concrete evaluations, then the invariant and round-trip developments. -/

/-- C1: for every piece on a Board and every destination returned by
Board.getLegalMovesForPiece, executing that move (with the default promotion
choice the query itself simulates) on a clone of the Board — which is the
board itself, since boards are immutable values here — never leaves the moving
piece's own king in check afterward. -/
theorem legalMoves_never_leave_own_king_in_check
    (b : Board) (piece : Piece) (target : Pos)
    (h : target ∈ b.getLegalMovesForPiece piece) :
    (b.movePiece piece.pos target (some ['Q'])).2.isKingInCheck piece.color = false := by
  unfold Board.getLegalMovesForPiece at h
  simp only [List.mem_flatMap, List.mem_filterMap, List.mem_range, Board.clone] at h
  obtain ⟨row, -, col, -, hcond⟩ := h
  split at hcond
  · exact absurd hcond (by simp)
  · split at hcond
    · split at hcond
      next hcheck =>
        obtain rfl : (⟨(row : Int), (col : Int)⟩ : Pos) = target := by
          simpa using hcond
        simpa using hcheck
      · exact absurd hcond (by simp)
    · exact absurd hcond (by simp)

/-- Witness for the theorem of C1: from the initial position, e4 is a legal
destination of the e2 pawn and executing it leaves the white king out of
check. -/
theorem legalMoves_never_leave_own_king_in_check_witness :
    ((⟨4, 4⟩ : Pos) ∈ Board.new.getLegalMovesForPiece ⟨.pawn, .white, ⟨6, 4⟩, false⟩) ∧
    (Board.new.movePiece (⟨6, 4⟩ : Pos) ⟨4, 4⟩ (some ['Q'])).2.isKingInCheck .white = false :=
  ⟨by decide,
   legalMoves_never_leave_own_king_in_check Board.new ⟨.pawn, .white, ⟨6, 4⟩, false⟩ ⟨4, 4⟩
     (by decide)⟩

/-- C2 (amended): Game.loadFEN leaves the Game unchanged when it fails on the
wrong field count, the only failure detected before any mutation. -/
theorem loadFEN_wrong_field_count_leaves_game_unchanged
    (g : Game) (fen : List Char)
    (h : (splitOnChar ' ' (trimWS fen)).length ≠ 6) :
    g.loadFEN fen = (false, g) := by
  unfold Game.loadFEN
  rw [if_pos]
  simpa using h

/-- Witness for the amended theorem of C2: a two-field input. -/
theorem loadFEN_wrong_field_count_leaves_game_unchanged_witness :
    (splitOnChar ' ' (trimWS ['1', ' ', '2'])).length ≠ 6 ∧
    Game.new.loadFEN ['1', ' ', '2'] = (false, Game.new) :=
  ⟨by decide, loadFEN_wrong_field_count_leaves_game_unchanged Game.new ['1', ' ', '2'] (by decide)⟩

/-- Counterexample to C2 as stated: on a malformed placement field the load
fails but the piece set has been cleared rather than left as it was
(Board.loadFEN clears this.pieces before parsing). -/
theorem loadFEN_failure_can_clear_the_position :
    (Game.new.loadFEN ['x', ' ', 'w', ' ', '-', ' ', '-', ' ', '0', ' ', '1']).1 = false ∧
    (Game.new.loadFEN ['x', ' ', 'w', ' ', '-', ' ', '-', ' ', '0', ' ', '1']).2.board.pieces = [] ∧
    Game.new.board.pieces ≠ [] := by
  decide

/-- C3: the legality pipeline accepts a castling move whose traversed square
is attacked by the opponent.  White king e1 and rook h1 are unmoved, a black
rook on f8 attacks the traversed square f1, yet g1 is listed as a legal king
destination and Game.makeMove commits the castling move. -/
theorem castling_through_attacked_square_is_accepted :
    ((⟨7, 6⟩ : Pos) ∈ Board.getLegalMovesForPiece
      { pieces := [⟨.king, .white, ⟨7, 4⟩, false⟩, ⟨.rook, .white, ⟨7, 7⟩, false⟩,
                   ⟨.rook, .black, ⟨0, 5⟩, false⟩],
        enPassantTarget := none, capturedPieces := [] }
      ⟨.king, .white, ⟨7, 4⟩, false⟩) ∧
    (Game.makeMove
      { board := { pieces := [⟨.king, .white, ⟨7, 4⟩, false⟩, ⟨.rook, .white, ⟨7, 7⟩, false⟩,
                              ⟨.rook, .black, ⟨0, 5⟩, false⟩],
                   enPassantTarget := none, capturedPieces := [] },
        currentTurn := .white, moveHistory := [], positionHistory := [],
        halfMoveClock := 0, fullMoveNumber := 1, gameStatus := .active }
      ⟨7, 4⟩ ⟨7, 6⟩ (some ['Q'])).1.success = true ∧
    Board.isSquareAttacked
      { pieces := [⟨.king, .white, ⟨7, 4⟩, false⟩, ⟨.rook, .white, ⟨7, 7⟩, false⟩,
                   ⟨.rook, .black, ⟨0, 5⟩, false⟩],
        enPassantTarget := none, capturedPieces := [] }
      ⟨7, 5⟩ .black = true := by
  decide

/-- C4: with white knights on b1 and f1 (and nothing else), the f1 knight can
also legally reach d2 on the pre-move board, yet the notation generated for
Nb1-d2 is the undisambiguated Nd2: the ambiguity scan runs on the post-move
board, where d2 already holds the mover, so its isValidMove test rejects every
candidate and no disambiguation is ever produced. -/
theorem ambiguous_knight_move_gets_no_disambiguation :
    ((Game.makeMove
      { board := { pieces := [⟨.knight, .white, ⟨7, 1⟩, false⟩, ⟨.knight, .white, ⟨7, 5⟩, false⟩],
                   enPassantTarget := none, capturedPieces := [] },
        currentTurn := .white, moveHistory := [], positionHistory := [],
        halfMoveClock := 0, fullMoveNumber := 1, gameStatus := .active }
      ⟨7, 1⟩ ⟨6, 3⟩ (some ['Q'])).1.success = true) ∧
    ((Game.makeMove
      { board := { pieces := [⟨.knight, .white, ⟨7, 1⟩, false⟩, ⟨.knight, .white, ⟨7, 5⟩, false⟩],
                   enPassantTarget := none, capturedPieces := [] },
        currentTurn := .white, moveHistory := [], positionHistory := [],
        halfMoveClock := 0, fullMoveNumber := 1, gameStatus := .active }
      ⟨7, 1⟩ ⟨6, 3⟩ (some ['Q'])).1.move.map MoveRec.notationText = some ['N', 'd', '2']) ∧
    Piece.isValidMove ⟨.knight, .white, ⟨7, 5⟩, false⟩
      { pieces := [⟨.knight, .white, ⟨7, 1⟩, false⟩, ⟨.knight, .white, ⟨7, 5⟩, false⟩],
        enPassantTarget := none, capturedPieces := [] }
      ⟨6, 3⟩ = true := by
  decide

/-- C5: Game.updateGameStatus tests its conditions in the exact precedence
order checkmate, stalemate, insufficient material, threefold repetition
(current signature at least 3 times in the history), fifty-move rule
(half-move clock at least 100), plain check, else Active; whenever an earlier
condition holds, no later condition determines the status. -/
theorem updateGameStatus_precedence (g : Game) :
    (g.board.isCheckmate g.currentTurn = true →
      g.updateGameStatus =
        (if g.currentTurn == .white then .checkmateBlack else .checkmateWhite)) ∧
    (g.board.isCheckmate g.currentTurn = false →
      g.board.isStalemate g.currentTurn = true →
      g.updateGameStatus = .drawStalemate) ∧
    (g.board.isCheckmate g.currentTurn = false →
      g.board.isStalemate g.currentTurn = false →
      g.board.isInsufficientMaterial = true →
      g.updateGameStatus = .drawInsufficient) ∧
    (g.board.isCheckmate g.currentTurn = false →
      g.board.isStalemate g.currentTurn = false →
      g.board.isInsufficientMaterial = false →
      3 ≤ g.repetitionCount →
      g.updateGameStatus = .drawRepetition) ∧
    (g.board.isCheckmate g.currentTurn = false →
      g.board.isStalemate g.currentTurn = false →
      g.board.isInsufficientMaterial = false →
      ¬(3 ≤ g.repetitionCount) →
      100 ≤ g.halfMoveClock →
      g.updateGameStatus = .drawFiftyMove) ∧
    (g.board.isCheckmate g.currentTurn = false →
      g.board.isStalemate g.currentTurn = false →
      g.board.isInsufficientMaterial = false →
      ¬(3 ≤ g.repetitionCount) →
      ¬(100 ≤ g.halfMoveClock) →
      g.board.isKingInCheck g.currentTurn = true →
      g.updateGameStatus = .check) ∧
    (g.board.isCheckmate g.currentTurn = false →
      g.board.isStalemate g.currentTurn = false →
      g.board.isInsufficientMaterial = false →
      ¬(3 ≤ g.repetitionCount) →
      ¬(100 ≤ g.halfMoveClock) →
      g.board.isKingInCheck g.currentTurn = false →
      g.updateGameStatus = .active) := by
  refine ⟨?_, ?_, ?_, ?_, ?_, ?_, ?_⟩ <;>
    intros <;> simp [Game.updateGameStatus, *]

/-- Witness for the theorem of C5: from the initial position no condition of
the cascade holds and the status is Active. -/
theorem updateGameStatus_precedence_witness :
    Game.new.updateGameStatus = .active :=
  (updateGameStatus_precedence Game.new).2.2.2.2.2.2
    (by decide) (by decide) (by decide) (by decide) (by decide) (by decide)

/-- C6: Game.makeMove fails with WrongTurn when the source square is empty or
holds a piece of the other color, fails with SelfCheck when the simulated
move (on the cloned board, which equals the board value) leaves the own king
in check, and on every failure — these and the pass-through board errors —
the Game is returned exactly as it was. -/
theorem makeMove_failure_conditions_and_state
    (g : Game) (fromPos toPos : Pos) (pc : Option (List Char)) :
    ((g.board.getPieceAt fromPos = none ∨
      (∃ piece, g.board.getPieceAt fromPos = some piece ∧ piece.color ≠ g.currentTurn)) →
      (g.makeMove fromPos toPos pc).1.success = false ∧
      (g.makeMove fromPos toPos pc).1.error = some .wrongTurn ∧
      (g.makeMove fromPos toPos pc).2 = g) ∧
    (∀ piece, g.board.getPieceAt fromPos = some piece → piece.color = g.currentTurn →
      (g.board.movePiece fromPos toPos pc).1.success = true →
      (g.board.movePiece fromPos toPos pc).2.isKingInCheck g.currentTurn = true →
      (g.makeMove fromPos toPos pc).1.success = false ∧
      (g.makeMove fromPos toPos pc).1.error = some .selfCheck ∧
      (g.makeMove fromPos toPos pc).2 = g) ∧
    ((g.makeMove fromPos toPos pc).1.success = false → (g.makeMove fromPos toPos pc).2 = g) := by
  refine ⟨?_, ?_, ?_⟩
  · rintro (hnone | ⟨piece, hsome, hcolor⟩)
    · simp [Game.makeMove, hnone]
    · have : (piece.color != g.currentTurn) = true := by simpa using hcolor
      simp [Game.makeMove, hsome, this]
  · intro piece hsome hcolor hsucc hcheck
    have hc : (piece.color != g.currentTurn) = false := by simp [hcolor]
    simp [Game.makeMove, hsome, hc, Board.clone, hsucc, hcheck]
  · intro hfail
    unfold Game.makeMove at hfail ⊢
    rcases hsome : g.board.getPieceAt fromPos with _ | piece <;> simp only [hsome] at hfail ⊢
    split_ifs at hfail ⊢ <;> first | rfl | simp at hfail

/-- Witness for the theorem of C6: from the initial position, moving from the
empty square e4 fails with WrongTurn and leaves the game unchanged; in a
position with white Ke1, Re2 and black Re8, the rook move e2-a2 opens the
file, is rejected as SelfCheck and leaves the game unchanged. -/
theorem makeMove_failure_conditions_and_state_witness :
    ((Game.new.makeMove ⟨4, 4⟩ ⟨3, 4⟩ (some ['Q'])).1.error = some .wrongTurn ∧
     (Game.new.makeMove ⟨4, 4⟩ ⟨3, 4⟩ (some ['Q'])).2 = Game.new) ∧
    ((Game.makeMove
        { board := { pieces := [⟨.king, .white, ⟨7, 4⟩, false⟩, ⟨.rook, .white, ⟨6, 4⟩, false⟩,
                                ⟨.rook, .black, ⟨0, 4⟩, false⟩],
                     enPassantTarget := none, capturedPieces := [] },
          currentTurn := .white, moveHistory := [], positionHistory := [],
          halfMoveClock := 0, fullMoveNumber := 1, gameStatus := .active }
        ⟨6, 4⟩ ⟨6, 0⟩ (some ['Q'])).1.error = some .selfCheck ∧
     (Game.makeMove
        { board := { pieces := [⟨.king, .white, ⟨7, 4⟩, false⟩, ⟨.rook, .white, ⟨6, 4⟩, false⟩,
                                ⟨.rook, .black, ⟨0, 4⟩, false⟩],
                     enPassantTarget := none, capturedPieces := [] },
          currentTurn := .white, moveHistory := [], positionHistory := [],
          halfMoveClock := 0, fullMoveNumber := 1, gameStatus := .active }
        ⟨6, 4⟩ ⟨6, 0⟩ (some ['Q'])).2 =
      { board := { pieces := [⟨.king, .white, ⟨7, 4⟩, false⟩, ⟨.rook, .white, ⟨6, 4⟩, false⟩,
                              ⟨.rook, .black, ⟨0, 4⟩, false⟩],
                   enPassantTarget := none, capturedPieces := [] },
        currentTurn := .white, moveHistory := [], positionHistory := [],
        halfMoveClock := 0, fullMoveNumber := 1, gameStatus := .active }) :=
  ⟨⟨((makeMove_failure_conditions_and_state Game.new ⟨4, 4⟩ ⟨3, 4⟩ (some ['Q'])).1
      (Or.inl (by decide))).2.1,
    ((makeMove_failure_conditions_and_state Game.new ⟨4, 4⟩ ⟨3, 4⟩ (some ['Q'])).1
      (Or.inl (by decide))).2.2⟩,
   ⟨((makeMove_failure_conditions_and_state _ ⟨6, 4⟩ ⟨6, 0⟩ (some ['Q'])).2.1
      ⟨.rook, .white, ⟨6, 4⟩, false⟩ (by decide) (by decide) (by decide) (by decide)).2.1,
    ((makeMove_failure_conditions_and_state _ ⟨6, 4⟩ ⟨6, 0⟩ (some ['Q'])).2.1
      ⟨.rook, .white, ⟨6, 4⟩, false⟩ (by decide) (by decide) (by decide) (by decide)).2.2⟩⟩

/-- Matching predicate of getPieceAt and idxAtSquare characterized as a
position equality. -/
theorem squarePred_iff (q : Piece) (pos : Pos) :
    ((q.pos.row == pos.row && q.pos.col == pos.col) = true) ↔ q.pos = pos := by
  cases hq : q.pos with
  | mk r c =>
    cases pos with
    | mk r2 c2 => simp [Pos.mk.injEq]

/-- Empty square characterization of getPieceAt. -/
theorem getPieceAt_none_iff (b : Board) (pos : Pos) :
    b.getPieceAt pos = none ↔ ∀ q ∈ b.pieces, q.pos ≠ pos := by
  unfold Board.getPieceAt
  rw [List.find?_eq_none]
  constructor
  · intro h q hq
    have := h q hq
    exact fun hEq => this ((squarePred_iff q pos).2 hEq)
  · intro h q hq
    have := h q hq
    exact fun hb => this ((squarePred_iff q pos).1 hb)

/-- Occupied square: the piece found is a member sitting on that square. -/
theorem getPieceAt_mem (b : Board) (pos : Pos) (p : Piece)
    (h : b.getPieceAt pos = some p) : p ∈ b.pieces ∧ p.pos = pos := by
  refine ⟨List.mem_of_find?_eq_some h, ?_⟩
  have := List.find?_some h
  rwa [squarePred_iff] at this

/-- Specification of findIdx? on success, with getD access. -/
theorem findIdx?_spec (p : Piece → Bool) (ps : List Piece) (i : Nat)
    (h : ps.findIdx? p = some i) : i < ps.length ∧ p (ps.getD i default) = true := by
  induction ps generalizing i with
  | nil => simp [List.findIdx?] at h
  | cons a l ih =>
    rw [List.findIdx?_cons] at h
    by_cases hp : p a
    · simp only [hp, if_true] at h
      obtain rfl : (0 : Nat) = i := by simpa using h
      simpa using hp
    · simp only [hp, if_false, List.findIdx?_succ] at h
      cases hfi : l.findIdx? p with
      | none => rw [hfi] at h; simp at h
      | some k =>
        rw [hfi] at h
        obtain rfl : k + 1 = i := by simpa using h
        obtain ⟨h1, h2⟩ := ih k hfi
        exact ⟨by simpa using Nat.succ_lt_succ h1, by simpa using h2⟩

/-- find? realized through findIdx? and indexing, connecting getPieceAt with
the object-identity index idxAtSquare. -/
theorem find?_eq_findIdx?_getD (p : Piece → Bool) (ps : List Piece) :
    ps.find? p = (ps.findIdx? p).map (fun i => ps.getD i default) := by
  induction ps with
  | nil => rfl
  | cons a l ih =>
    rw [List.find?_cons, List.findIdx?_cons]
    by_cases hp : p a
    · simp [hp]
    · simp only [hp, if_false, List.findIdx?_succ, ih, Option.map_map]
      cases l.findIdx? p <;> simp

/-- getPieceAt expressed through idxAtSquare. -/
theorem getPieceAt_eq_idx (b : Board) (pos : Pos) :
    b.getPieceAt pos = (idxAtSquare b.pieces pos).map (fun i => b.pieces.getD i default) :=
  find?_eq_findIdx?_getD _ _

/-- Empty square characterization of idxAtSquare. -/
theorem idxAtSquare_none_iff (ps : List Piece) (pos : Pos) :
    idxAtSquare ps pos = none ↔ ∀ q ∈ ps, q.pos ≠ pos := by
  unfold idxAtSquare
  rw [List.findIdx?_eq_none_iff]
  constructor
  · intro h q hq
    have := h q hq
    intro hEq
    rw [(squarePred_iff q pos).2 hEq] at this
    exact absurd this (by simp)
  · intro h q hq
    have := h q hq
    exact Bool.eq_false_iff.2 (fun hb => this ((squarePred_iff q pos).1 hb))

/-- Specification of idxAtSquare on success. -/
theorem idxAtSquare_spec (ps : List Piece) (pos : Pos) (i : Nat)
    (h : idxAtSquare ps pos = some i) :
    i < ps.length ∧ (ps.getD i default).pos = pos := by
  obtain ⟨h1, h2⟩ := findIdx?_spec _ ps i h
  exact ⟨h1, (squarePred_iff _ _).1 h2⟩

/-- Mapping commutes with set. -/
theorem map_set_comm {α β : Type} (f : α → β) (l : List α) (k : Nat) (a : α) :
    (l.set k a).map f = (l.map f).set k (f a) := by
  induction l generalizing k with
  | nil => rfl
  | cons x xs ih =>
    cases k with
    | zero => rfl
    | succ n => simp [List.set, ih]

/-- Mapping commutes with eraseIdx. -/
theorem map_eraseIdx_comm {α β : Type} (f : α → β) (l : List α) (k : Nat) :
    (l.eraseIdx k).map f = (l.map f).eraseIdx k := by
  induction l generalizing k with
  | nil => rfl
  | cons x xs ih =>
    cases k with
    | zero => rfl
    | succ n => simp [List.eraseIdx, ih]

/-- Setting an element that does not occur in a duplicate-free list keeps it
duplicate-free. -/
theorem nodup_set_of_not_mem {α : Type} {l : List α} {a : α}
    (h : l.Nodup) (ha : a ∉ l) : ∀ k, (l.set k a).Nodup := by
  induction l with
  | nil => intro k; simp
  | cons x xs ih =>
    intro k
    cases k with
    | zero =>
      simp only [List.set]
      rw [List.nodup_cons] at h ⊢
      exact ⟨fun hmem => ha (List.mem_cons_of_mem x hmem), h.2⟩
    | succ n =>
      simp only [List.set]
      rw [List.nodup_cons] at h ⊢
      refine ⟨?_, ih h.2 (fun hmem => ha (List.mem_cons_of_mem x hmem)) n⟩
      intro hmem
      rcases List.mem_or_eq_of_mem_set hmem with hx | rfl
      · exact h.1 hx
      · exact ha (List.mem_cons_self _ _)

/-- In a list whose positions are duplicate-free, erasing the entry of a
square leaves no piece on that square. -/
theorem erase_unique_square (ps : List Piece) (pos : Pos)
    (hN : (ps.map Piece.pos).Nodup) (j : Nat)
    (hj : j < ps.length) (hpos : (ps.getD j default).pos = pos) :
    ∀ q ∈ ps.eraseIdx j, q.pos ≠ pos := by
  intro q hq hqpos
  rw [List.mem_eraseIdx_iff_getElem] at hq
  obtain ⟨i, hi, hij, hiq⟩ := hq
  have hi2 : i < (ps.map Piece.pos).length := by simpa using hi
  have hj2 : j < (ps.map Piece.pos).length := by simpa using hj
  have hmap : (ps.map Piece.pos)[i] = (ps.map Piece.pos)[j] := by
    rw [List.getElem_map, List.getElem_map, hiq, hqpos]
    rw [List.getD_eq_getElem ps default hj] at hpos
    exact hpos.symm
  exact hij (hN.getElem_inj_iff.1 hmap)

/-- Membership in the getD position of a list. -/
theorem getD_mem (ps : List Piece) (i : Nat) (h : i < ps.length) :
    ps.getD i default ∈ ps := by
  rw [List.getD_eq_getElem ps default h]
  exact List.getElem_mem h

/-- Position.equals decides equality. -/
theorem posEquals_iff (p q : Pos) : p.equals q = true ↔ p = q := by
  cases p with
  | mk r c =>
    cases q with
    | mk r2 c2 => simp [Pos.equals, Pos.mk.injEq]

/-- Facts provided by a successful generic move validity check. -/
theorem isValidMove_facts (p : Piece) (b : Board) (target : Pos)
    (h : p.isValidMove b target = true) :
    target.isValid = true ∧ p.pos ≠ target ∧ p.canMoveTo b target = true ∧
      ∀ q, b.getPieceAt target = some q → q.color ≠ p.color := by
  unfold Piece.isValidMove at h
  rcases hq : b.getPieceAt target with _ | q
  · simp only [hq] at h
    by_cases h1 : target.isValid
    · by_cases h2 : p.pos.equals target
      · rw [h1, h2] at h; simp at h
      · rw [h1, Bool.eq_false_iff.2 h2] at h
        simp only [Bool.not_true, Bool.false_eq_true, if_false] at h
        exact ⟨h1, fun hEq => h2 ((posEquals_iff _ _).2 hEq), h,
          fun q hq2 => by simp at hq2⟩
    · rw [Bool.eq_false_iff.2 h1] at h; simp at h
  · simp only [hq] at h
    by_cases h1 : target.isValid
    · by_cases h2 : p.pos.equals target
      · rw [h1, h2] at h; simp at h
      · rw [h1, Bool.eq_false_iff.2 h2] at h
        simp only [Bool.not_true, Bool.false_eq_true, if_false] at h
        by_cases hcol : q.color == p.color
        · rw [hcol] at h; simp at h
        · rw [Bool.eq_false_iff.2 hcol] at h
          simp only [Bool.false_eq_true, if_false] at h
          refine ⟨h1, fun hEq => h2 ((posEquals_iff _ _).2 hEq), h, ?_⟩
          intro q2 hq2
          obtain rfl : q = q2 := by simpa using hq2
          exact fun hEq => hcol (by simp [hEq])
    · rw [Bool.eq_false_iff.2 h1] at h; simp at h

/-- A pawn whose move changes the row by two squares is on its starting rank
(the double-step branch of the pawn rule). -/
theorem pawn_double_step_facts (p : Piece) (b : Board) (target : Pos)
    (hk : p.kind = .pawn) (hc : p.canMoveTo b target = true)
    (h2 : (target.row - p.pos.row).natAbs = 2) :
    (p.color = .white ∧ p.pos.row = 6) ∨ (p.color = .black ∧ p.pos.row = 1) := by
  unfold Piece.canMoveTo at hc
  rw [hk] at hc
  cases hcol : p.color
  · rw [hcol] at hc
    simp only [beq_self_eq_true, reduceIte, beq_iff_eq, Bool.and_eq_true,
      Int.natAbs_eq_iff] at hc
    split_ifs at hc with a bb cc
    · exact absurd a (by omega)
    · exact Or.inl ⟨rfl, by omega⟩
    · exact absurd cc (by omega)
  · rw [hcol] at hc
    simp only [show (Color.black == Color.white) = false from rfl, Bool.false_eq_true,
      reduceIte, beq_iff_eq, Bool.and_eq_true, Int.natAbs_eq_iff] at hc
    split_ifs at hc with a bb cc
    · exact absurd a (by omega)
    · exact Or.inr ⟨rfl, by omega⟩
    · exact absurd cc (by omega)

/-- A king whose move changes the column by two squares took the castling
branch: the move stays on its row and every square strictly between the king
column and the corresponding rook column is empty. -/
theorem king_castle_facts (p : Piece) (b : Board) (target : Pos)
    (hk : p.kind = .king) (hc : p.canMoveTo b target = true)
    (h2 : (target.col - p.pos.col).natAbs = 2) :
    target.row = p.pos.row ∧
    ∀ c : Int, min p.pos.col (if p.pos.col < target.col then (7 : Int) else 0) < c →
      c < max p.pos.col (if p.pos.col < target.col then (7 : Int) else 0) →
      b.getPieceAt ⟨p.pos.row, c⟩ = none := by
  unfold Piece.canMoveTo at hc
  rw [hk] at hc
  simp only at hc
  split_ifs at hc with a bcond hks
  · exact absurd a (by simp only [Bool.and_eq_true, decide_eq_true_eq]; omega)
  · simp only [Bool.and_eq_true, beq_iff_eq] at bcond
    have hrow : target.row = p.pos.row := by
      have := bcond.1.2
      omega
    rw [if_pos hks]
    refine ⟨hrow, ?_⟩
    cases hrook : b.getPieceAt ⟨p.pos.row, (7 : Int)⟩ with
    | none => rw [hrook] at hc; cases hc
    | some rook =>
      rw [hrook] at hc
      simp only [] at hc
      split_ifs at hc with hbad
      intro c hlo hhi
      rw [List.all_eq_true] at hc
      have hi : ((c - min p.pos.col (7 : Int) - 1).toNat) ∈
          List.range (max p.pos.col (7 : Int) - min p.pos.col (7 : Int) - 1).toNat := by
        rw [List.mem_range]
        omega
      have hiGet := hc _ hi
      simp only [Option.isNone_iff_eq_none] at hiGet
      have hcEq : min p.pos.col (7 : Int) + 1 + ((c - min p.pos.col (7 : Int) - 1).toNat : Int) = c := by
        omega
      rw [hcEq] at hiGet
      exact hiGet
  · simp only [Bool.and_eq_true, beq_iff_eq] at bcond
    have hrow : target.row = p.pos.row := by
      have := bcond.1.2
      omega
    rw [if_neg hks]
    refine ⟨hrow, ?_⟩
    cases hrook : b.getPieceAt ⟨p.pos.row, (0 : Int)⟩ with
    | none => rw [hrook] at hc; cases hc
    | some rook =>
      rw [hrook] at hc
      simp only [] at hc
      split_ifs at hc with hbad
      intro c hlo hhi
      rw [List.all_eq_true] at hc
      have hi : ((c - min p.pos.col (0 : Int) - 1).toNat) ∈
          List.range (max p.pos.col (0 : Int) - min p.pos.col (0 : Int) - 1).toNat := by
        rw [List.mem_range]
        omega
      have hiGet := hc _ hi
      simp only [Option.isNone_iff_eq_none] at hiGet
      have hcEq : min p.pos.col (0 : Int) + 1 + ((c - min p.pos.col (0 : Int) - 1).toNat : Int) = c := by
        omega
      rw [hcEq] at hiGet
      exact hiGet

/-- The capture step keeps positions duplicate-free, only removes pieces, and
leaves no piece on the captured square. -/
theorem captureAt_facts (square : Pos) (st : MoveMid)
    (hN : (st.pieces.map Piece.pos).Nodup) :
    (((captureAt square st).2.pieces.map Piece.pos).Nodup) ∧
    (∀ q ∈ (captureAt square st).2.pieces, q ∈ st.pieces) ∧
    (∀ q ∈ (captureAt square st).2.pieces, q.pos ≠ square) := by
  unfold captureAt
  cases hI : idxAtSquare st.pieces square with
  | none =>
    exact ⟨hN, fun q hq => hq, (idxAtSquare_none_iff _ _).1 hI⟩
  | some j =>
    obtain ⟨hj, hpos⟩ := idxAtSquare_spec _ _ _ hI
    refine ⟨?_, ?_, ?_⟩
    · rw [map_eraseIdx_comm]
      exact (List.eraseIdx_sublist _ _).nodup hN
    · exact fun q hq => (List.eraseIdx_sublist _ _).mem hq
    · exact erase_unique_square st.pieces square hN j hj hpos

/-- The promotion-or-relocation step keeps positions duplicate-free when the
destination square is free, and every resulting piece is an old piece or sits
on the destination. -/
theorem promoteOrRelocate_facts (piece : Piece) (toPos : Pos) (pc : Option (List Char))
    (st : MoveMid)
    (hN : (st.pieces.map Piece.pos).Nodup)
    (hfresh : ∀ q ∈ st.pieces, q.pos ≠ toPos) :
    (((promoteOrRelocate piece toPos pc st).2.2.pieces.map Piece.pos).Nodup) ∧
    (∀ q ∈ (promoteOrRelocate piece toPos pc st).2.2.pieces, q ∈ st.pieces ∨ q.pos = toPos) := by
  have hNotMem : toPos ∉ st.pieces.map Piece.pos := by
    intro hmem
    obtain ⟨q, hq, hqe⟩ := List.mem_map.1 hmem
    exact hfresh q hq hqe
  unfold promoteOrRelocate
  split_ifs with hp
  · cases hm : st.moverIdx with
    | none =>
      refine ⟨?_, ?_⟩
      · rw [List.map_append, List.nodup_append]
        refine ⟨hN, by simp, ?_⟩
        intro x hx hx2
        simp only [List.map_cons, List.map_nil, List.mem_singleton] at hx2
        rw [hx2] at hx
        exact hNotMem hx
      · intro q hq
        rcases List.mem_append.1 hq with hq1 | hq2
        · exact Or.inl hq1
        · right
          obtain rfl : q = _ := by simpa using hq2
          rfl
    | some k =>
      refine ⟨?_, ?_⟩
      · rw [List.map_append, List.nodup_append]
        refine ⟨?_, by simp, ?_⟩
        · rw [map_eraseIdx_comm]
          exact (List.eraseIdx_sublist _ _).nodup hN
        · intro x hx hx2
          simp only [List.map_cons, List.map_nil, List.mem_singleton] at hx2
          rw [hx2] at hx
          rw [map_eraseIdx_comm] at hx
          exact hNotMem ((List.eraseIdx_sublist _ _).mem hx)
      · intro q hq
        rcases List.mem_append.1 hq with hq1 | hq2
        · exact Or.inl ((List.eraseIdx_sublist _ _).mem hq1)
        · right
          obtain rfl : q = _ := by simpa using hq2
          rfl
  · cases hm : st.moverIdx with
    | none => exact ⟨hN, fun q hq => Or.inl hq⟩
    | some k =>
      refine ⟨?_, ?_⟩
      · rw [map_set_comm]
        exact nodup_set_of_not_mem hN hNotMem k
      · intro q hq
        rcases List.mem_or_eq_of_mem_set hq with hq1 | rfl
        · exact Or.inl hq1
        · exact Or.inr rfl

/-- The castling step keeps positions duplicate-free when the rook target
square is free, and every resulting piece is an old piece or sits on the rook
target square. -/
theorem castleRook_facts (fromPos toPos : Pos) (ps : List Piece)
    (hN : (ps.map Piece.pos).Nodup)
    (hfresh : ∀ q ∈ ps,
      q.pos ≠ ⟨fromPos.row, if fromPos.col < toPos.col then toPos.col - 1 else toPos.col + 1⟩) :
    (((castleRook fromPos toPos ps).2.map Piece.pos).Nodup) ∧
    (∀ q ∈ (castleRook fromPos toPos ps).2, q ∈ ps ∨
      q.pos = ⟨fromPos.row, if fromPos.col < toPos.col then toPos.col - 1 else toPos.col + 1⟩) := by
  have hNotMem : (⟨fromPos.row, if fromPos.col < toPos.col then toPos.col - 1 else toPos.col + 1⟩ : Pos)
      ∉ ps.map Piece.pos := by
    intro hmem
    obtain ⟨q, hq, hqe⟩ := List.mem_map.1 hmem
    exact hfresh q hq hqe
  unfold castleRook
  by_cases hks : fromPos.col < toPos.col
  · simp only [hks, if_true]
    cases hI : idxAtSquare ps ⟨fromPos.row, (7 : Int)⟩ with
    | none => exact ⟨hN, fun q hq => Or.inl hq⟩
    | some j =>
      rw [if_pos hks] at hNotMem
      refine ⟨?_, ?_⟩
      · rw [map_set_comm]
        exact nodup_set_of_not_mem hN hNotMem j
      · intro q hq
        rcases List.mem_or_eq_of_mem_set hq with hq1 | rfl
        · exact Or.inl hq1
        · exact Or.inr rfl
  · simp only [hks, if_false]
    cases hI : idxAtSquare ps ⟨fromPos.row, (0 : Int)⟩ with
    | none => exact ⟨hN, fun q hq => Or.inl hq⟩
    | some j =>
      rw [if_neg hks] at hNotMem
      refine ⟨?_, ?_⟩
      · rw [map_set_comm]
        exact nodup_set_of_not_mem hN hNotMem j
      · intro q hq
        rcases List.mem_or_eq_of_mem_set hq with hq1 | rfl
        · exact Or.inl hq1
        · exact Or.inr rfl

/-- The en passant step keeps positions duplicate-free and only removes
pieces. -/
theorem enPassantStep_facts (piece : Piece) (b : Board) (toPos : Pos)
    (capturedPiece : Option Piece) (st : MoveMid)
    (hN : (st.pieces.map Piece.pos).Nodup) :
    (((enPassantStep piece b toPos capturedPiece st).2.2.pieces.map Piece.pos).Nodup) ∧
    (∀ q ∈ (enPassantStep piece b toPos capturedPiece st).2.2.pieces, q ∈ st.pieces) := by
  unfold enPassantStep
  by_cases hEp : (piece.kind == .pawn &&
      (match b.enPassantTarget with
       | some enPassantTarget => toPos.equals enPassantTarget
       | none => false)) = true
  · rw [if_pos hEp]
    have hcap := captureAt_facts
      ⟨if piece.color == .white then toPos.row + 1 else toPos.row - 1, toPos.col⟩ st hN
    cases hc : (captureAt
        ⟨if piece.color == .white then toPos.row + 1 else toPos.row - 1, toPos.col⟩ st).1 with
    | some cp =>
      simp only [hc]
      exact ⟨hcap.1, hcap.2.1⟩
    | none =>
      simp only [hc]
      exact ⟨hN, fun q hq => hq⟩
  · rw [if_neg hEp]
    exact ⟨hN, fun q hq => hq⟩

/-- Preservation of the placement invariants by the body of a successful
Board.movePiece: positions stay duplicate-free, and when all pieces were on
the board so are all resulting pieces and the new en passant target. -/
theorem movePieceRun_WF (b : Board) (piece : Piece) (i0 : Nat) (fromPos toPos : Pos)
    (pc : Option (List Char))
    (hN : (b.pieces.map Piece.pos).Nodup)
    (hpieceEq : b.pieces.getD i0 default = piece)
    (hI : idxAtSquare b.pieces fromPos = some i0)
    (hV : piece.isValidMove b toPos = true) :
    (((movePieceRun b piece i0 fromPos toPos pc).2.pieces.map Piece.pos).Nodup) ∧
    ((∀ p ∈ b.pieces, p.pos.isValid = true) →
      (∀ p ∈ (movePieceRun b piece i0 fromPos toPos pc).2.pieces, p.pos.isValid = true) ∧
      (∀ u, (movePieceRun b piece i0 fromPos toPos pc).2.enPassantTarget = some u →
        u.isValid = true)) := by
  obtain ⟨hvalidT, hneq, hcan, hcolorT⟩ := isValidMove_facts piece b toPos hV
  have hppos : piece.pos = fromPos := by
    rw [← hpieceEq]
    exact (idxAtSquare_spec _ _ _ hI).2
  have hpmem : piece ∈ b.pieces := by
    rw [← hpieceEq]
    exact getD_mem _ _ (idxAtSquare_spec _ _ _ hI).1
  have hTbounds : 0 ≤ toPos.row ∧ toPos.row < 8 ∧ 0 ≤ toPos.col ∧ toPos.col < 8 := by
    have := hvalidT
    unfold Pos.isValid at this
    simpa using this
  have h1 := captureAt_facts toPos ⟨b.pieces, b.capturedPieces, some i0⟩ hN
  have h2 := enPassantStep_facts piece b toPos
    (captureAt toPos ⟨b.pieces, b.capturedPieces, some i0⟩).1
    (captureAt toPos ⟨b.pieces, b.capturedPieces, some i0⟩).2 h1.1
  set st2 := (enPassantStep piece b toPos
    (captureAt toPos ⟨b.pieces, b.capturedPieces, some i0⟩).1
    (captureAt toPos ⟨b.pieces, b.capturedPieces, some i0⟩).2).2.2 with hst2
  have h2mem : ∀ q ∈ st2.pieces, q ∈ b.pieces := fun q hq => h1.2.1 q (h2.2 q hq)
  have h2fresh : ∀ q ∈ st2.pieces, q.pos ≠ toPos := fun q hq => h1.2.2 q (h2.2 q hq)
  have h3 := promoteOrRelocate_facts piece toPos pc st2 h2.1 h2fresh
  set st3 := (promoteOrRelocate piece toPos pc st2).2.2 with hst3
  have h3mem : ∀ q ∈ st3.pieces, q ∈ b.pieces ∨ q.pos = toPos := by
    intro q hq
    rcases h3.2 q hq with hq1 | hq2
    · exact Or.inl (h2mem q hq1)
    · exact Or.inr hq2
  -- the final piece array and the new en passant target
  have hpieces4 : (movePieceRun b piece i0 fromPos toPos pc).2.pieces =
      (if piece.kind == .king && (toPos.col - fromPos.col).natAbs == 2 then
        (castleRook fromPos toPos st3.pieces).2
      else st3.pieces) := by
    rw [hst3, hst2]
    unfold movePieceRun
    by_cases hch : (piece.kind == .king && (toPos.col - fromPos.col).natAbs == 2) = true
    · simp only [hch, if_true]
    · simp only [Bool.eq_false_iff.2 hch, Bool.false_eq_true, if_false]
  have hep4 : (movePieceRun b piece i0 fromPos toPos pc).2.enPassantTarget =
      (if piece.kind == .pawn && (toPos.row - fromPos.row).natAbs == 2 then
        some ⟨if piece.color == .white then fromPos.row - 1 else fromPos.row + 1, fromPos.col⟩
      else none) := by
    unfold movePieceRun
    rfl
  -- castling-case facts
  have hcastle : (piece.kind == .king && (toPos.col - fromPos.col).natAbs == 2) = true →
      (((castleRook fromPos toPos st3.pieces).2.map Piece.pos).Nodup ∧
       ∀ q ∈ (castleRook fromPos toPos st3.pieces).2, q ∈ st3.pieces ∨
        q.pos = ⟨fromPos.row, if fromPos.col < toPos.col then toPos.col - 1 else toPos.col + 1⟩) := by
    intro hch
    simp only [Bool.and_eq_true, beq_iff_eq] at hch
    have hkf := king_castle_facts piece b toPos hch.1 hcan (by rw [hppos]; exact hch.2)
    rw [hppos] at hkf
    have hfresh3 : ∀ q ∈ st3.pieces,
        q.pos ≠ ⟨fromPos.row, if fromPos.col < toPos.col then toPos.col - 1 else toPos.col + 1⟩ := by
      intro q hq hqe
      have hnone : b.getPieceAt
          ⟨fromPos.row, if fromPos.col < toPos.col then toPos.col - 1 else toPos.col + 1⟩ = none := by
        by_cases hks : fromPos.col < toPos.col
        · rw [if_pos hks]
          have := hkf.2 (toPos.col - 1)
          rw [if_pos hks] at this
          exact this (by omega) (by omega)
        · rw [if_neg hks]
          have := hkf.2 (toPos.col + 1)
          rw [if_neg hks] at this
          exact this (by omega) (by omega)
      rcases h3mem q hq with hq1 | hq2
      · exact (getPieceAt_none_iff b _).1 hnone q hq1 hqe
      · rw [hq2] at hqe
        by_cases hks : fromPos.col < toPos.col
        · rw [if_pos hks] at hqe
          have : toPos.col = toPos.col - 1 := congrArg Pos.col hqe
          omega
        · rw [if_neg hks] at hqe
          have : toPos.col = toPos.col + 1 := congrArg Pos.col hqe
          omega
    exact castleRook_facts fromPos toPos st3.pieces h3.1 hfresh3
  constructor
  · rw [hpieces4]
    by_cases hch : (piece.kind == .king && (toPos.col - fromPos.col).natAbs == 2) = true
    · rw [if_pos hch]
      exact (hcastle hch).1
    · rw [if_neg hch]
      exact h3.1
  · intro hval
    have hpv : piece.pos.isValid = true := hval piece hpmem
    have hFbounds : 0 ≤ fromPos.row ∧ fromPos.row < 8 ∧ 0 ≤ fromPos.col ∧ fromPos.col < 8 := by
      rw [← hppos]
      unfold Pos.isValid at hpv
      simpa using hpv
    constructor
    · intro p hp
      rw [hpieces4] at hp
      by_cases hch : (piece.kind == .king && (toPos.col - fromPos.col).natAbs == 2) = true
      · rw [if_pos hch] at hp
        rcases (hcastle hch).2 p hp with hp1 | hp2
        · rcases h3mem p hp1 with hp3 | hp4
          · exact hval p hp3
          · rw [hp4]
            exact hvalidT
        · have hch2 := hch
          simp only [Bool.and_eq_true, beq_iff_eq] at hch2
          rw [hp2]
          unfold Pos.isValid
          simp only [decide_eq_true_eq]
          by_cases hks : fromPos.col < toPos.col
          · rw [if_pos hks]
            refine ⟨by omega, by omega, by omega, by omega⟩
          · rw [if_neg hks]
            refine ⟨by omega, by omega, by omega, by omega⟩
      · rw [if_neg hch] at hp
        rcases h3mem p hp with hp3 | hp4
        · exact hval p hp3
        · rw [hp4]
          exact hvalidT
    · intro u hu
      rw [hep4] at hu
      by_cases hpd : (piece.kind == .pawn && (toPos.row - fromPos.row).natAbs == 2) = true
      · rw [if_pos hpd] at hu
        have hpd2 := hpd
        simp only [Bool.and_eq_true, beq_iff_eq] at hpd2
        have hds := pawn_double_step_facts piece b toPos hpd2.1 hcan (by rw [hppos]; exact hpd2.2)
        rw [hppos] at hds
        obtain rfl : (⟨if piece.color == .white then fromPos.row - 1 else fromPos.row + 1,
            fromPos.col⟩ : Pos) = u := by simpa using hu
        unfold Pos.isValid
        simp only [decide_eq_true_eq]
        rcases hds with ⟨hw, hr⟩ | ⟨hbk, hr⟩
        · rw [hw]
          simp only [beq_self_eq_true, if_true]
          refine ⟨by omega, by omega, by omega, by omega⟩
        · rw [hbk]
          simp only [show (Color.black == Color.white) = false from rfl, Bool.false_eq_true,
            if_false]
          refine ⟨by omega, by omega, by omega, by omega⟩
      · rw [if_neg hpd] at hu
        cases hu

/-- A successful Board.movePiece preserves the placement invariants: no two
pieces share a square afterwards, and on a board whose pieces are all on
valid squares all resulting pieces and the new en passant target are valid. -/
theorem movePiece_preserves_WF (b : Board) (fromPos toPos : Pos) (pc : Option (List Char))
    (hN : (b.pieces.map Piece.pos).Nodup)
    (hs : (b.movePiece fromPos toPos pc).1.success = true) :
    (((b.movePiece fromPos toPos pc).2.pieces.map Piece.pos).Nodup) ∧
    ((∀ p ∈ b.pieces, p.pos.isValid = true) →
      (∀ p ∈ (b.movePiece fromPos toPos pc).2.pieces, p.pos.isValid = true) ∧
      (∀ u, (b.movePiece fromPos toPos pc).2.enPassantTarget = some u → u.isValid = true)) := by
  unfold Board.movePiece at hs ⊢
  cases hI : idxAtSquare b.pieces fromPos with
  | none =>
    rw [hI] at hs
    simp [MoveResult.fail] at hs
  | some i0 =>
    simp only [hI] at hs ⊢
    by_cases hV : (b.pieces.getD i0 default).isValidMove b toPos = true
    · simp only [hV, Bool.not_true, Bool.false_eq_true, if_false] at hs ⊢
      exact movePieceRun_WF b _ i0 fromPos toPos pc hN rfl hI hV
    · rw [Bool.eq_false_iff.2 hV] at hs
      simp [MoveResult.fail] at hs

/-- Row parsing of Board.loadFEN: the column only grows, positions stay
duplicate-free, and every new piece sits on this row between the start and
the final column. -/
theorem parseFENRow_WF (row : Int) (cs : List Char) : ∀ (col : Int) (acc : List Piece),
    (acc.map Piece.pos).Nodup →
    (∀ q ∈ acc, q.pos.row ≠ row ∨ q.pos.col < col) →
    col ≤ (parseFENRow row col cs acc).2.1 ∧
    ((parseFENRow row col cs acc).2.2.map Piece.pos).Nodup ∧
    (∀ q ∈ (parseFENRow row col cs acc).2.2, q ∈ acc ∨
      (q.pos.row = row ∧ col ≤ q.pos.col ∧ q.pos.col < (parseFENRow row col cs acc).2.1)) := by
  induction cs with
  | nil =>
    intro col acc hN hlt
    exact ⟨le_refl _, hN, fun q hq => Or.inl hq⟩
  | cons c rest ih =>
    intro col acc hN hlt
    by_cases hdig : decide ('1' ≤ c ∧ c ≤ '8') = true
    · have hd : 49 ≤ c.toNat ∧ c.toNat ≤ 56 := by
        have hcc := of_decide_eq_true hdig
        constructor
        · have h1 := hcc.1
          simp [Char.le_def] at h1
          exact h1
        · have h2 := hcc.2
          simp [Char.le_def] at h2
          exact h2
      have heq : parseFENRow row col (c :: rest) acc =
          parseFENRow row (col + ((c.toNat : Int) - 48)) rest acc := by
        conv_lhs => unfold parseFENRow
        rw [if_pos hdig]
      rw [heq]
      have hstep := ih (col + ((c.toNat : Int) - 48)) acc hN
        (fun q hq => (hlt q hq).elim Or.inl (fun h => Or.inr (by omega)))
      refine ⟨by omega, hstep.2.1, ?_⟩
      intro q hq
      rcases hstep.2.2 q hq with h | h
      · exact Or.inl h
      · exact Or.inr ⟨h.1, by omega, h.2.2⟩
    · cases hkc : charToPieceKC c with
      | none =>
        have heq : parseFENRow row col (c :: rest) acc = (false, col, acc) := by
          conv_lhs => unfold parseFENRow
          rw [Bool.eq_false_iff.2 hdig, hkc]
          rfl
        rw [heq]
        exact ⟨le_refl _, hN, fun q hq => Or.inl hq⟩
      | some kc =>
        have heq : parseFENRow row col (c :: rest) acc =
            parseFENRow row (col + 1) rest
              (acc ++ [(⟨kc.1, kc.2, ⟨row, col⟩, false⟩ : Piece)]) := by
          conv_lhs => unfold parseFENRow
          rw [Bool.eq_false_iff.2 hdig, hkc]
          rfl
        rw [heq]
        have hN2 : ((acc ++ [(⟨kc.1, kc.2, ⟨row, col⟩, false⟩ : Piece)]).map Piece.pos).Nodup := by
          rw [List.map_append, List.nodup_append]
          refine ⟨hN, by simp, ?_⟩
          intro x hx hx2
          simp only [List.map_cons, List.map_nil, List.mem_singleton] at hx2
          obtain ⟨q, hq, hqe⟩ := List.mem_map.1 hx
          rcases hlt q hq with h | h
          · rw [hx2] at hqe
            exact h (congrArg Pos.row hqe)
          · rw [hx2] at hqe
            have hcol := congrArg Pos.col hqe
            simp at hcol
            omega
        have hlt2 : ∀ q ∈ acc ++ [(⟨kc.1, kc.2, ⟨row, col⟩, false⟩ : Piece)],
            q.pos.row ≠ row ∨ q.pos.col < col + 1 := by
          intro q hq
          rcases List.mem_append.1 hq with hq1 | hq2
          · exact (hlt q hq1).elim Or.inl (fun h => Or.inr (by omega))
          · obtain rfl : q = _ := by simpa using hq2
            exact Or.inr (by simp)
        have hstep := ih (col + 1) _ hN2 hlt2
        refine ⟨by omega, hstep.2.1, ?_⟩
        intro q hq
        rcases hstep.2.2 q hq with h | h
        · rcases List.mem_append.1 h with hq1 | hq2
          · exact Or.inl hq1
          · obtain rfl : q = _ := by simpa using hq2
            refine Or.inr ⟨rfl, by simp, ?_⟩
            have hmono := hstep.1
            simp only
            omega
        · exact Or.inr ⟨h.1, by omega, h.2.2⟩

/-- Row loop of Board.loadFEN: on success positions stay duplicate-free and
every piece sits on a parsed row with a column inside the board. -/
theorem parseFENRows_WF (rows : List (List Char)) : ∀ (rowIdx : Int) (acc : List Piece),
    (parseFENRows rows rowIdx acc).1 = true →
    (acc.map Piece.pos).Nodup →
    (∀ q ∈ acc, q.pos.row < rowIdx) →
    (∀ q ∈ acc, 0 ≤ q.pos.col ∧ q.pos.col < 8) →
    ((parseFENRows rows rowIdx acc).2.map Piece.pos).Nodup ∧
    (∀ q ∈ (parseFENRows rows rowIdx acc).2, q.pos.row < rowIdx + rows.length) ∧
    (∀ q ∈ (parseFENRows rows rowIdx acc).2, rowIdx ≤ q.pos.row ∨ q ∈ acc) ∧
    (∀ q ∈ (parseFENRows rows rowIdx acc).2, 0 ≤ q.pos.col ∧ q.pos.col < 8) := by
  induction rows with
  | nil =>
    intro rowIdx acc hs hN hrow hcol
    exact ⟨hN, fun q hq => by have := hrow q hq; simpa using by omega,
      fun q hq => Or.inr hq, hcol⟩
  | cons r rest ih =>
    intro rowIdx acc hs hN hrow hcol
    have hrWF := parseFENRow_WF rowIdx r 0 acc hN
      (fun q hq => Or.inl (by have := hrow q hq; omega))
    by_cases h1 : (parseFENRow rowIdx 0 r acc).1 = true
    · by_cases h8 : (parseFENRow rowIdx 0 r acc).2.1 = 8
      · have heq : parseFENRows (r :: rest) rowIdx acc =
            parseFENRows rest (rowIdx + 1) (parseFENRow rowIdx 0 r acc).2.2 := by
          conv_lhs => unfold parseFENRows
          simp only [h1, h8, Bool.not_true, Bool.false_eq_true, if_false, bne_self_eq_false]
        rw [heq] at hs ⊢
        have hrow2 : ∀ q ∈ (parseFENRow rowIdx 0 r acc).2.2, q.pos.row < rowIdx + 1 := by
          intro q hq
          rcases hrWF.2.2 q hq with h | h
          · have := hrow q h; omega
          · omega
        have hcol2 : ∀ q ∈ (parseFENRow rowIdx 0 r acc).2.2,
            0 ≤ q.pos.col ∧ q.pos.col < 8 := by
          intro q hq
          rcases hrWF.2.2 q hq with h | h
          · exact hcol q h
          · rw [h8] at h
            exact ⟨h.2.1, h.2.2⟩
        have hrec := ih (rowIdx + 1) _ hs hrWF.2.1 hrow2 hcol2
        refine ⟨hrec.1, ?_, ?_, hrec.2.2.2⟩
        · intro q hq
          have := hrec.2.1 q hq
          simp only [List.length_cons] at *
          omega
        · intro q hq
          rcases hrec.2.2.1 q hq with h | h
          · exact Or.inl (by omega)
          · rcases hrWF.2.2 q h with h2 | h2
            · exact Or.inr h2
            · exact Or.inl (by omega)
      · exfalso
        have heq : (parseFENRows (r :: rest) rowIdx acc).1 = false := by
          conv_lhs => unfold parseFENRows
          simp only [h1, Bool.not_true, Bool.false_eq_true, if_false]
          rw [if_pos (by simpa using h8)]
        rw [heq] at hs
        cases hs
    · exfalso
      have heq : (parseFENRows (r :: rest) rowIdx acc).1 = false := by
        conv_lhs => unfold parseFENRows
        simp only [Bool.eq_false_iff.2 h1, Bool.not_false, if_true]
      rw [heq] at hs
      cases hs

/-- A successful Board.loadFEN produces a board whose pieces sit on distinct
valid squares and whose en passant target is cleared. -/
theorem loadFEN_WF (b : Board) (fen : List Char)
    (h : (b.loadFEN fen).1 = true) :
    (((b.loadFEN fen).2.pieces.map Piece.pos).Nodup) ∧
    (∀ p ∈ (b.loadFEN fen).2.pieces, p.pos.isValid = true) ∧
    (b.loadFEN fen).2.enPassantTarget = none := by
  unfold Board.loadFEN at h ⊢
  by_cases hlen : (splitOnChar '/' fen).length = 8
  · rw [if_neg (by simpa using hlen)] at h ⊢
    have hrec := parseFENRows_WF (splitOnChar '/' fen) 0 [] h (by simp) (by simp) (by simp)
    refine ⟨hrec.1, ?_, rfl⟩
    intro p hp
    have h1 := hrec.2.1 p hp
    have h2 := hrec.2.2.1 p hp
    have h3 := hrec.2.2.2 p hp
    rw [hlen] at h1
    unfold Pos.isValid
    simp only [decide_eq_true_eq]
    rcases h2 with h2 | h2
    · exact ⟨by omega, by omega, h3.1, h3.2⟩
    · simp at h2
  · rw [if_pos (by simpa using hlen)] at h
    cases h

/-- C9: no two live pieces ever share a coordinate — the invariant holds on
the initial setup, is preserved by every successful movePiece call (captures,
en passant, promotion and the castling rook relocation included), and holds
for the piece set produced by every successful loadFEN. -/
theorem no_two_pieces_share_a_square :
    ((Board.new.pieces.map Piece.pos).Nodup) ∧
    (∀ (b : Board) (fromPos toPos : Pos) (pc : Option (List Char)),
      (b.pieces.map Piece.pos).Nodup →
      (b.movePiece fromPos toPos pc).1.success = true →
      ((b.movePiece fromPos toPos pc).2.pieces.map Piece.pos).Nodup) ∧
    (∀ (b : Board) (fen : List Char),
      (b.loadFEN fen).1 = true →
      ((b.loadFEN fen).2.pieces.map Piece.pos).Nodup) := by
  refine ⟨by decide, ?_, ?_⟩
  · intro b f t pc hN hs
    exact (movePiece_preserves_WF b f t pc hN hs).1
  · intro b fen h
    exact (loadFEN_WF b fen h).1

/-- Witness for the theorem of C9: the pawn move e2-e4 from the initial
position and a bare-kings FEN load both yield duplicate-free positions. -/
theorem no_two_pieces_share_a_square_witness :
    (((Board.new.movePiece (⟨6, 4⟩ : Pos) ⟨4, 4⟩ (some ['Q'])).2.pieces.map Piece.pos).Nodup) ∧
    (((Board.new.loadFEN
        ['8', '/', '8', '/', '8', '/', '8', '/', '8', '/', '8', '/', '8', '/',
         'K', '6', 'k']).2.pieces.map Piece.pos).Nodup) :=
  ⟨no_two_pieces_share_a_square.2.1 Board.new ⟨6, 4⟩ ⟨4, 4⟩ (some ['Q'])
      (by decide) (by decide),
   no_two_pieces_share_a_square.2.2 Board.new
      ['8', '/', '8', '/', '8', '/', '8', '/', '8', '/', '8', '/', '8', '/', 'K', '6', 'k']
      (by decide)⟩

/-- Erasing an index keeps the getD access to a different index, through the
index adjustment. -/
theorem eraseIdx_getD_shift (ps : List Piece) (j k : Nat)
    (hjlen : j < ps.length) (hk : k < ps.length) (hne : j ≠ k) :
    (if j < k then k - 1 else k) < (ps.eraseIdx j).length ∧
    (ps.eraseIdx j).getD (if j < k then k - 1 else k) default = ps.getD k default := by
  have hlen : (ps.eraseIdx j).length = ps.length - 1 := by
    rw [List.length_eraseIdx]
    simp [hjlen]
  by_cases hlt : j < k
  · rw [if_pos hlt]
    have hb : k - 1 < (ps.eraseIdx j).length := by omega
    refine ⟨hb, ?_⟩
    rw [List.getD_eq_getElem _ _ hb, List.getD_eq_getElem _ _ hk, List.getElem_eraseIdx]
    rw [dif_neg (by omega)]
    congr 1
    omega
  · rw [if_neg hlt]
    have hb : k < (ps.eraseIdx j).length := by omega
    refine ⟨hb, ?_⟩
    rw [List.getD_eq_getElem _ _ hb, List.getD_eq_getElem _ _ hk, List.getElem_eraseIdx]
    rw [dif_pos (by omega)]

/-- The capture step preserves the mover tracking invariant. -/
theorem captureAt_moverInv (square : Pos) (st : MoveMid) (mover : Piece) (fromPos : Pos)
    (hN : (st.pieces.map Piece.pos).Nodup)
    (hmp : mover.pos = fromPos)
    (hInv : moverInv mover fromPos st) :
    moverInv mover fromPos (captureAt square st).2 := by
  unfold captureAt
  cases hI : idxAtSquare st.pieces square with
  | none => exact hInv
  | some j =>
    obtain ⟨hj, hjpos⟩ := idxAtSquare_spec _ _ _ hI
    cases hm : st.moverIdx with
    | none =>
      constructor
      · intro k hk
        simp only [hm] at hk
        simp [shiftAfterErase] at hk
      · intro _ q hq
        exact hInv.2 hm q ((List.eraseIdx_sublist _ _).mem hq)
    | some k =>
      obtain ⟨hklen, hkval⟩ := hInv.1 k hm
      by_cases hjk : k = j
      · constructor
        · intro k2 hk2
          simp only [hm, shiftAfterErase] at hk2
          rw [if_pos (by simpa using hjk)] at hk2
          cases hk2
        · intro _ q hq hqe
          subst hjk
          rw [hkval] at hjpos
          have := erase_unique_square st.pieces fromPos hN k hklen (by rw [hkval, hmp])
          exact this q hq hqe
      · constructor
        · intro k2 hk2
          simp only [hm, shiftAfterErase] at hk2
          rw [if_neg (by simpa using hjk)] at hk2
          obtain ⟨hb, hval⟩ := eraseIdx_getD_shift st.pieces j k hj hklen (fun h => hjk h.symm)
          have : k2 = if j < k then k - 1 else k := by
            by_cases hlt : j < k
            · rw [if_pos hlt] at hk2 ⊢
              simpa using hk2.symm
            · rw [if_neg hlt] at hk2 ⊢
              simpa using hk2.symm
          rw [this]
          exact ⟨hb, by rw [hval]; exact hkval⟩
        · intro hk2
          simp only [hm, shiftAfterErase] at hk2
          rw [if_neg (by simpa using hjk)] at hk2
          split_ifs at hk2 <;> cases hk2

/-- pieceConstructors lookup: every promotion argument other than R, B and N
falls through to the Queen constructor. -/
theorem promoKindOf_queen (pc : Option (List Char))
    (h1 : pc ≠ some ['R']) (h2 : pc ≠ some ['B']) (h3 : pc ≠ some ['N']) :
    promoKindOf pc = .queen := by
  unfold promoKindOf
  split <;> simp_all

/-- find? of the square predicate over a list whose only piece on the square
is the appended last element. -/
theorem find?_sq_append_last (ps : List Piece) (a : Piece) (pos : Pos)
    (hfresh : ∀ q ∈ ps, q.pos ≠ pos) (ha : a.pos = pos) :
    (ps ++ [a]).find?
      (fun q => q.pos.row == pos.row && q.pos.col == pos.col) = some a := by
  induction ps with
  | nil =>
    rw [List.nil_append]
    exact List.find?_cons_of_pos _ ((squarePred_iff a pos).2 ha)
  | cons x xs ih =>
    have hx : ¬((x.pos.row == pos.row && x.pos.col == pos.col) = true) :=
      fun hb => hfresh x (List.mem_cons_self x xs) ((squarePred_iff x pos).1 hb)
    rw [List.cons_append, List.find?_cons_of_neg (xs ++ [a]) hx]
    exact ih (fun q hq => hfresh q (List.mem_cons_of_mem _ hq))

/-- The en passant step preserves the mover tracking invariant. -/
theorem enPassantStep_moverInv (piece : Piece) (b : Board) (toPos : Pos)
    (cp : Option Piece) (st : MoveMid) (mover : Piece) (fromPos : Pos)
    (hN : (st.pieces.map Piece.pos).Nodup)
    (hmp : mover.pos = fromPos)
    (hInv : moverInv mover fromPos st) :
    moverInv mover fromPos (enPassantStep piece b toPos cp st).2.2 := by
  unfold enPassantStep
  by_cases hEp : (piece.kind == .pawn &&
      (match b.enPassantTarget with
       | some enPassantTarget => toPos.equals enPassantTarget
       | none => false)) = true
  · rw [if_pos hEp]
    have hcap := captureAt_moverInv
      ⟨if piece.color == .white then toPos.row + 1 else toPos.row - 1, toPos.col⟩ st
      mover fromPos hN hmp hInv
    cases hc : (captureAt
        ⟨if piece.color == .white then toPos.row + 1 else toPos.row - 1, toPos.col⟩ st).1 with
    | some cp2 =>
      simp only [hc]
      exact hcap
    | none =>
      simp only [hc]
      exact hInv
  · rw [if_neg hEp]
    exact hInv

/-- Promotion behavior of the body of a successful Board.movePiece: a pawn
reaching the opposite back rank with a promotion argument other than R, B, N
is replaced by a queen of its color at the destination, and the source square
is left empty. -/
theorem movePieceRun_promotion (b : Board) (piece : Piece) (i0 : Nat) (fromPos toPos : Pos)
    (pc : Option (List Char))
    (hN : (b.pieces.map Piece.pos).Nodup)
    (hpieceEq : b.pieces.getD i0 default = piece)
    (hI : idxAtSquare b.pieces fromPos = some i0)
    (hV : piece.isValidMove b toPos = true)
    (hpawn : piece.kind = .pawn)
    (hrank : (piece.color = .white ∧ toPos.row = 0) ∨ (piece.color = .black ∧ toPos.row = 7))
    (h1 : pc ≠ some ['R']) (h2 : pc ≠ some ['B']) (h3 : pc ≠ some ['N']) :
    (movePieceRun b piece i0 fromPos toPos pc).1.isPromotion = true ∧
    (movePieceRun b piece i0 fromPos toPos pc).1.promotedTo =
      some ⟨.queen, piece.color, toPos, true⟩ ∧
    (movePieceRun b piece i0 fromPos toPos pc).2.getPieceAt toPos =
      some ⟨.queen, piece.color, toPos, true⟩ ∧
    (movePieceRun b piece i0 fromPos toPos pc).2.getPieceAt fromPos = none := by
  obtain ⟨hvalidT, hneq, hcan, hcolorT⟩ := isValidMove_facts piece b toPos hV
  have hppos : piece.pos = fromPos := by
    rw [← hpieceEq]
    exact (idxAtSquare_spec _ _ _ hI).2
  have hft : fromPos ≠ toPos := by
    rw [← hppos]
    exact hneq
  have hInv0 : moverInv piece fromPos ⟨b.pieces, b.capturedPieces, some i0⟩ := by
    constructor
    · intro k hk
      obtain rfl : i0 = k := by simpa using hk
      exact ⟨(idxAtSquare_spec _ _ _ hI).1, hpieceEq⟩
    · intro hnone
      simp at hnone
  have h1f := captureAt_facts toPos ⟨b.pieces, b.capturedPieces, some i0⟩ hN
  have hInv1 := captureAt_moverInv toPos ⟨b.pieces, b.capturedPieces, some i0⟩
    piece fromPos hN hppos hInv0
  have h2f := enPassantStep_facts piece b toPos
    (captureAt toPos ⟨b.pieces, b.capturedPieces, some i0⟩).1
    (captureAt toPos ⟨b.pieces, b.capturedPieces, some i0⟩).2 h1f.1
  have hInv2 := enPassantStep_moverInv piece b toPos
    (captureAt toPos ⟨b.pieces, b.capturedPieces, some i0⟩).1
    (captureAt toPos ⟨b.pieces, b.capturedPieces, some i0⟩).2 piece fromPos h1f.1 hppos hInv1
  set st2 := (enPassantStep piece b toPos
    (captureAt toPos ⟨b.pieces, b.capturedPieces, some i0⟩).1
    (captureAt toPos ⟨b.pieces, b.capturedPieces, some i0⟩).2).2.2 with hst2
  have h2fresh : ∀ q ∈ st2.pieces, q.pos ≠ toPos := fun q hq => h1f.2.2 q (h2f.2 q hq)
  have hcond : (piece.kind == .pawn &&
      ((piece.color == .white && toPos.row == 0) ||
       (piece.color == .black && toPos.row == 7))) = true := by
    rw [hpawn]
    rcases hrank with ⟨hw, hr⟩ | ⟨hbk, hr⟩
    · rw [hw, hr]
      decide
    · rw [hbk, hr]
      decide
  have hQ : promoKindOf pc = .queen := promoKindOf_queen pc h1 h2 h3
  have hpromo : promoteOrRelocate piece toPos pc st2 =
      (true, some (⟨.queen, piece.color, toPos, true⟩ : Piece),
       { pieces := (match st2.moverIdx with
          | some k => st2.pieces.eraseIdx k
          | none => st2.pieces) ++ [(⟨.queen, piece.color, toPos, true⟩ : Piece)],
         capturedPieces := st2.capturedPieces, moverIdx := none }) := by
    unfold promoteOrRelocate
    rw [if_pos hcond, hQ]
  have hch : ¬((piece.kind == .king && (toPos.col - fromPos.col).natAbs == 2) = true) := by
    simp [hpawn]
  have hprefix_sub : ∀ q ∈ (match st2.moverIdx with
      | some k => st2.pieces.eraseIdx k
      | none => st2.pieces), q ∈ st2.pieces := by
    cases hm2 : st2.moverIdx with
    | none => exact fun q hq => hq
    | some k => exact fun q hq => (List.eraseIdx_sublist _ _).mem hq
  have hprefix_fresh : ∀ q ∈ (match st2.moverIdx with
      | some k => st2.pieces.eraseIdx k
      | none => st2.pieces), q.pos ≠ fromPos := by
    cases hm2 : st2.moverIdx with
    | none => exact hInv2.2 hm2
    | some k =>
      obtain ⟨hklen, hkval⟩ := hInv2.1 k hm2
      exact erase_unique_square st2.pieces fromPos h2f.1 k hklen (by rw [hkval]; exact hppos)
  have hprom1 : (movePieceRun b piece i0 fromPos toPos pc).1.isPromotion =
      (promoteOrRelocate piece toPos pc st2).1 := by
    rw [hst2]
    unfold movePieceRun
    rfl
  have hprom2 : (movePieceRun b piece i0 fromPos toPos pc).1.promotedTo =
      (promoteOrRelocate piece toPos pc st2).2.1 := by
    rw [hst2]
    unfold movePieceRun
    rfl
  have hpieces4 : (movePieceRun b piece i0 fromPos toPos pc).2.pieces =
      (promoteOrRelocate piece toPos pc st2).2.2.pieces := by
    rw [hst2]
    unfold movePieceRun
    simp only [Bool.eq_false_iff.2 hch, Bool.false_eq_true, if_false]
  have hp3 : (promoteOrRelocate piece toPos pc st2).2.2.pieces =
      (match st2.moverIdx with
        | some k => st2.pieces.eraseIdx k
        | none => st2.pieces) ++ [(⟨.queen, piece.color, toPos, true⟩ : Piece)] := by
    rw [hpromo]
  refine ⟨?_, ?_, ?_, ?_⟩
  · rw [hprom1, hpromo]
  · rw [hprom2, hpromo]
  · show (movePieceRun b piece i0 fromPos toPos pc).2.pieces.find? _ = _
    rw [hpieces4, hp3]
    exact find?_sq_append_last _ _ toPos
      (fun q hq => h2fresh q (hprefix_sub q hq)) rfl
  · show (movePieceRun b piece i0 fromPos toPos pc).2.pieces.find? _ = _
    rw [hpieces4, hp3, List.find?_eq_none]
    intro q hq hb
    rcases List.mem_append.1 hq with hq1 | hq2
    · exact hprefix_fresh q hq1 ((squarePred_iff q fromPos).1 hb)
    · obtain rfl : q = ⟨.queen, piece.color, toPos, true⟩ := by simpa using hq2
      exact hft ((squarePred_iff _ fromPos).1 hb).symm

/-- C10: When movePiece promotes a pawn (a pawn reaching the opposite back
rank) and the promotionPiece argument is anything other than "R", "B" or "N"
— including an unrecognized value or the omitted default — the piece created
at the destination is a Queen of the pawn's color with hasMoved = true, and
the pawn is removed from the board (the source square is empty and the mover
is no longer tracked in the array). -/
theorem promotion_defaults_to_queen (b : Board) (fromPos toPos : Pos)
    (pc : Option (List Char)) (piece : Piece)
    (hN : (b.pieces.map Piece.pos).Nodup)
    (hP : b.getPieceAt fromPos = some piece)
    (hpawn : piece.kind = .pawn)
    (hrank : (piece.color = .white ∧ toPos.row = 0) ∨ (piece.color = .black ∧ toPos.row = 7))
    (hs : (b.movePiece fromPos toPos pc).1.success = true)
    (h1 : pc ≠ some ['R']) (h2 : pc ≠ some ['B']) (h3 : pc ≠ some ['N']) :
    (b.movePiece fromPos toPos pc).1.isPromotion = true ∧
    (b.movePiece fromPos toPos pc).1.promotedTo = some ⟨.queen, piece.color, toPos, true⟩ ∧
    (b.movePiece fromPos toPos pc).2.getPieceAt toPos = some ⟨.queen, piece.color, toPos, true⟩ ∧
    (b.movePiece fromPos toPos pc).2.getPieceAt fromPos = none := by
  unfold Board.movePiece at hs ⊢
  cases hI : idxAtSquare b.pieces fromPos with
  | none =>
    rw [getPieceAt_eq_idx, hI] at hP
    simp at hP
  | some i0 =>
    simp only [hI] at hs ⊢
    have hgd : b.pieces.getD i0 default = piece := by
      rw [getPieceAt_eq_idx, hI] at hP
      simpa using hP
    by_cases hV : (b.pieces.getD i0 default).isValidMove b toPos = true
    · simp only [hV, Bool.not_true, Bool.false_eq_true, if_false] at hs ⊢
      subst hgd
      exact movePieceRun_promotion b _ i0 fromPos toPos pc hN rfl hI hV hpawn hrank h1 h2 h3
    · rw [Bool.eq_false_iff.2 hV] at hs
      simp [MoveResult.fail] at hs

/-- Witness: a lone white pawn on a2-file coordinates (1,0) promoting on
(0,0) with the unrecognized argument "K" becomes a white queen. -/
theorem promotion_defaults_to_queen_witness :
    ((Board.mk [⟨.pawn, .white, ⟨1, 0⟩, true⟩] none []).movePiece ⟨1, 0⟩ ⟨0, 0⟩
        (some ['K'])).1.isPromotion = true ∧
    ((Board.mk [⟨.pawn, .white, ⟨1, 0⟩, true⟩] none []).movePiece ⟨1, 0⟩ ⟨0, 0⟩
        (some ['K'])).1.promotedTo = some ⟨.queen, .white, ⟨0, 0⟩, true⟩ ∧
    ((Board.mk [⟨.pawn, .white, ⟨1, 0⟩, true⟩] none []).movePiece ⟨1, 0⟩ ⟨0, 0⟩
        (some ['K'])).2.getPieceAt ⟨0, 0⟩ = some ⟨.queen, .white, ⟨0, 0⟩, true⟩ ∧
    ((Board.mk [⟨.pawn, .white, ⟨1, 0⟩, true⟩] none []).movePiece ⟨1, 0⟩ ⟨0, 0⟩
        (some ['K'])).2.getPieceAt ⟨1, 0⟩ = none :=
  promotion_defaults_to_queen (Board.mk [⟨.pawn, .white, ⟨1, 0⟩, true⟩] none [])
    ⟨1, 0⟩ ⟨0, 0⟩ (some ['K']) ⟨.pawn, .white, ⟨1, 0⟩, true⟩
    (by decide) (by decide) rfl (Or.inl ⟨rfl, rfl⟩) (by decide)
    (by decide) (by decide) (by decide)

/-- The FEN symbol of a piece decodes back to its kind and color. -/
theorem symbol_charToPieceKC (p : Piece) : charToPieceKC p.symbol = some (p.kind, p.color) := by
  rcases p with ⟨k, c, pos, hm⟩
  cases k <;> cases c <;> rfl

/-- The FEN symbol is a letter: not a FEN digit, not a separator, not
whitespace. -/
theorem symbol_class (p : Piece) :
    (¬('1' ≤ p.symbol ∧ p.symbol ≤ '8')) ∧ p.symbol ≠ '/' ∧ p.symbol ≠ ' ' ∧
    p.symbol.isWhitespace = false := by
  rcases p with ⟨k, c, pos, hm⟩
  cases k <;> cases c <;> simp only [Piece.symbol] <;>
    exact ⟨by decide, by decide, by decide, by decide⟩

/-- The signature sort key ignores the hasMoved flag (it reads only the
symbol, which is a function of kind and color, and the coordinates). -/
theorem sigKey_mk (k : PieceKind) (c : Color) (pos : Pos) (h1 h2 : Bool) :
    Piece.sigKey ⟨k, c, pos, h1⟩ = Piece.sigKey ⟨k, c, pos, h2⟩ := by
  cases k <;> cases c <;> rfl

/-- splitOnChar always returns at least one fragment. -/
theorem splitOnChar_ne_nil (sep : Char) (s : List Char) : splitOnChar sep s ≠ [] := by
  induction s with
  | nil => simp [splitOnChar]
  | cons c rest ih =>
    unfold splitOnChar
    cases h : splitOnChar sep rest with
    | nil => exact absurd h ih
    | cons cur others => split <;> split_ifs <;> simp

/-- A fragment free of the separator splits to itself. -/
theorem splitOnChar_of_no_sep (sep : Char) (s : List Char) (h : ∀ c ∈ s, c ≠ sep) :
    splitOnChar sep s = [s] := by
  induction s with
  | nil => rfl
  | cons c rest ih =>
    unfold splitOnChar
    simp only [ih (fun d hd => h d (List.mem_cons_of_mem _ hd))]
    rw [if_neg (by simpa using h c (List.mem_cons_self c rest))]

/-- Splitting peels a separator-free fragment before a separator. -/
theorem splitOnChar_cons_sep (sep : Char) (s t : List Char) (h : ∀ c ∈ s, c ≠ sep) :
    splitOnChar sep (s ++ sep :: t) = s :: splitOnChar sep t := by
  induction s with
  | nil =>
    rw [List.nil_append]
    conv_lhs => unfold splitOnChar
    cases ht : splitOnChar sep t with
    | nil => exact absurd ht (splitOnChar_ne_nil sep t)
    | cons cur others => simp
  | cons c rest ih =>
    rw [List.cons_append]
    conv_lhs => unfold splitOnChar
    simp only [ih (fun d hd => h d (List.mem_cons_of_mem _ hd))]
    rw [if_neg (by simpa using h c (List.mem_cons_self c rest))]

/-- intercalate over at least two fragments, one step. -/
theorem intercalate_cons_cons (s a b : List Char) (l : List (List Char)) :
    List.intercalate s (a :: b :: l) = a ++ s ++ List.intercalate s (b :: l) := by
  unfold List.intercalate
  rw [List.intersperse_cons_cons]
  simp

/-- intercalate of a single fragment. -/
theorem intercalate_singleton (s a : List Char) : List.intercalate s [a] = a := by
  simp [List.intercalate]

/-- Splitting is a left inverse of joining fragments that avoid the
separator. -/
theorem splitOnChar_intercalate (sep : Char) (parts : List (List Char)) (hne : parts ≠ [])
    (h : ∀ pt ∈ parts, ∀ c ∈ pt, c ≠ sep) :
    splitOnChar sep (List.intercalate [sep] parts) = parts := by
  induction parts with
  | nil => exact absurd rfl hne
  | cons a rest ih =>
    cases rest with
    | nil =>
      rw [intercalate_singleton]
      exact splitOnChar_of_no_sep sep a (h a (List.mem_cons_self a []))
    | cons b l =>
      rw [intercalate_cons_cons, List.append_assoc, List.singleton_append]
      rw [splitOnChar_cons_sep sep a _ (h a (List.mem_cons_self a _))]
      rw [ih (by simp) (fun pt hpt c hc => h pt (List.mem_cons_of_mem _ hpt) c hc)]

/-- Every character of an intercalation is the separator or from a
fragment. -/
theorem mem_intercalate (s0 : Char) (parts : List (List Char)) (c : Char)
    (hc : c ∈ List.intercalate [s0] parts) : c = s0 ∨ ∃ pt ∈ parts, c ∈ pt := by
  induction parts with
  | nil => simp [List.intercalate] at hc
  | cons a rest ih =>
    cases rest with
    | nil =>
      rw [intercalate_singleton] at hc
      exact Or.inr ⟨a, List.mem_cons_self a [], hc⟩
    | cons b l =>
      rw [intercalate_cons_cons] at hc
      rcases List.mem_append.1 hc with hc1 | hc2
      · rcases List.mem_append.1 hc1 with hc3 | hc4
        · exact Or.inr ⟨a, List.mem_cons_self a _, hc3⟩
        · left
          simpa using hc4
      · rcases ih hc2 with hc3 | ⟨pt, hpt, hcpt⟩
        · exact Or.inl hc3
        · exact Or.inr ⟨pt, List.mem_cons_of_mem _ hpt, hcpt⟩

/-- Code point of an emitted digit character. -/
theorem digitChar_toNat (k : Nat) (h : k ≤ 9) : (digitChar k).toNat = 48 + k := by
  interval_cases k <;> decide

/-- An emitted empty-count digit lies in the FEN digit range. -/
theorem digitChar_range (k : Nat) (h0 : 1 ≤ k) (h8 : k ≤ 8) :
    '1' ≤ digitChar k ∧ digitChar k ≤ '8' := by
  interval_cases k <;> exact ⟨by decide, by decide⟩

/-- A digit character for base-10 output lies in the decimal digit range. -/
theorem digitChar_decimal (k : Nat) (h : k ≤ 9) :
    '0' ≤ digitChar k ∧ digitChar k ≤ '9' := by
  interval_cases k <;> exact ⟨by decide, by decide⟩

/-- The run-length encoding of a rank is never empty unless both inputs
are. -/
theorem rleEncode_ne_nil (syms : List (Option Char)) : ∀ (k : Nat),
    (syms ≠ [] ∨ 0 < k) → rleEncode syms k ≠ [] := by
  induction syms with
  | nil =>
    intro k h
    rcases h with h | h
    · exact absurd rfl h
    · unfold rleEncode
      rw [if_pos (by simpa using h)]
      simp
  | cons s rest ih =>
    intro k h
    cases s with
    | none => exact ih (k + 1) (Or.inr (by omega))
    | some c =>
      unfold rleEncode
      simp

/-- Every character of a rank encoding is a FEN digit or one of the encoded
symbols. -/
theorem rleEncode_chars (syms : List (Option Char)) : ∀ (k : Nat),
    k + syms.length ≤ 8 →
    ∀ c ∈ rleEncode syms k, ('1' ≤ c ∧ c ≤ '8') ∨ some c ∈ syms := by
  induction syms with
  | nil =>
    intro k hk c hc
    unfold rleEncode at hc
    by_cases h0 : 0 < k
    · rw [if_pos (by simpa using h0)] at hc
      obtain rfl : c = digitChar k := by simpa using hc
      exact Or.inl (digitChar_range k (by omega) (by simpa using hk))
    · rw [if_neg (by simpa using h0)] at hc
      cases hc
  | cons s rest ih =>
    intro k hk c hc
    cases s with
    | none =>
      have := ih (k + 1) (by simp at hk ⊢; omega) c hc
      rcases this with h | h
      · exact Or.inl h
      · exact Or.inr (List.mem_cons_of_mem _ h)
    | some a =>
      unfold rleEncode at hc
      rcases List.mem_append.1 hc with hc1 | hc2
      · by_cases h0 : 0 < k
        · rw [if_pos (by simpa using h0)] at hc1
          obtain rfl : c = digitChar k := by simpa using hc1
          exact Or.inl (digitChar_range k (by omega) (by simp at hk; omega))
        · rw [if_neg (by simpa using h0)] at hc1
          cases hc1
      · rcases List.mem_cons.1 hc2 with rfl | hc3
        · exact Or.inr (List.mem_cons_self _ _)
        · rcases ih 0 (by simp at hk ⊢; omega) c hc3 with h | h
          · exact Or.inl h
          · exact Or.inr (List.mem_cons_of_mem _ h)

/-- Digit step of the row parser. -/
theorem parseFENRow_digit (row col : Int) (c : Char) (rest : List Char) (acc : List Piece)
    (h : decide ('1' ≤ c ∧ c ≤ '8') = true) :
    parseFENRow row col (c :: rest) acc =
      parseFENRow row (col + ((c.toNat : Int) - 48)) rest acc := by
  conv_lhs => unfold parseFENRow
  rw [if_pos h]

/-- Piece step of the row parser. -/
theorem parseFENRow_piece (row col : Int) (c : Char) (rest : List Char) (acc : List Piece)
    (hnd : decide ('1' ≤ c ∧ c ≤ '8') = false) (kc : PieceKind × Color)
    (hkc : charToPieceKC c = some kc) :
    parseFENRow row col (c :: rest) acc =
      parseFENRow row (col + 1) rest
        (acc ++ [(⟨kc.1, kc.2, ⟨row, col⟩, false⟩ : Piece)]) := by
  conv_lhs => unfold parseFENRow
  rw [if_neg (by simp [hnd]), hkc]

/-- End of the row parser input. -/
theorem parseFENRow_nil (row col : Int) (acc : List Piece) :
    parseFENRow row col [] acc = (true, col, acc) := rfl

/-- The row parser inverts the run-length encoding of a rank of symbols. -/
theorem parseFENRow_rleEncode (row : Int) (syms : List (Option Char)) :
    ∀ (k : Nat) (col : Int) (acc : List Piece),
    (∀ c, some c ∈ syms → charToPieceKC c ≠ none ∧ ¬('1' ≤ c ∧ c ≤ '8')) →
    k + syms.length ≤ 8 →
    parseFENRow row col (rleEncode syms k) acc =
      (true, col + (k : Int) + (syms.length : Int),
       acc ++ mkRowPieces row syms (col + (k : Int))) := by
  induction syms with
  | nil =>
    intro k col acc hsym hk
    by_cases h0 : 0 < k
    · conv_lhs => unfold rleEncode
      rw [if_pos (by simpa using h0)]
      rw [parseFENRow_digit row col _ [] acc
        (by simpa using digitChar_range k (by omega) (by simpa using hk))]
      rw [digitChar_toNat k (by simp at hk; omega), parseFENRow_nil]
      rw [Prod.mk.injEq, Prod.mk.injEq]
      refine ⟨rfl, by simp only [List.length_nil, List.length_cons]; push_cast; omega, by simp [mkRowPieces]⟩
    · conv_lhs => unfold rleEncode
      rw [if_neg (by simpa using h0)]
      obtain rfl : k = 0 := by omega
      rw [parseFENRow_nil, Prod.mk.injEq, Prod.mk.injEq]
      refine ⟨rfl, by simp only [List.length_nil, List.length_cons]; push_cast; omega, by simp [mkRowPieces]⟩
  | cons s rest ih =>
    intro k col acc hsym hk
    have hsym' : ∀ c, some c ∈ rest → charToPieceKC c ≠ none ∧ ¬('1' ≤ c ∧ c ≤ '8') :=
      fun c hc => hsym c (List.mem_cons_of_mem _ hc)
    cases s with
    | none =>
      show parseFENRow row col (rleEncode rest (k + 1)) acc = _
      rw [ih (k + 1) col acc hsym' (by simp at hk ⊢; omega)]
      rw [Prod.mk.injEq, Prod.mk.injEq]
      refine ⟨rfl, by simp only [List.length_nil, List.length_cons]; push_cast; omega, ?_⟩
      rw [show (col + ((k + 1 : Nat) : Int) : Int) = col + (k : Int) + 1 by push_cast; ring]
      rfl
    | some a =>
      obtain ⟨hkc0, hnd⟩ := hsym a (List.mem_cons_self _ _)
      obtain ⟨kc, hkc⟩ := Option.ne_none_iff_exists'.1 hkc0
      by_cases h0 : 0 < k
      · conv_lhs => unfold rleEncode
        rw [if_pos (by simpa using h0), List.singleton_append]
        rw [parseFENRow_digit row col _ _ acc
          (by simpa using digitChar_range k (by omega) (by simp at hk; omega))]
        rw [digitChar_toNat k (by simp at hk; omega)]
        rw [show (col + (((48 + k : Nat) : Int) - 48) : Int) = col + (k : Int) by push_cast; ring]
        rw [parseFENRow_piece row _ a _ acc (decide_eq_false hnd) kc hkc]
        rw [ih 0 (col + (k : Int) + 1) _ hsym' (by simp at hk ⊢; omega)]
        rw [Prod.mk.injEq, Prod.mk.injEq]
        refine ⟨rfl, by simp only [List.length_nil, List.length_cons]; push_cast; omega, ?_⟩
        simp only [mkRowPieces, hkc, Nat.cast_zero, add_zero, List.append_assoc,
          List.singleton_append]
      · obtain rfl : k = 0 := by omega
        conv_lhs => unfold rleEncode
        rw [if_neg (by simp), List.nil_append]
        rw [show (col + ((0 : Nat) : Int) : Int) = col from by push_cast; ring]
        rw [parseFENRow_piece row col a _ acc (decide_eq_false hnd) kc hkc]
        rw [ih 0 (col + 1) _ hsym' (by simp at hk ⊢; omega)]
        rw [Prod.mk.injEq, Prod.mk.injEq]
        refine ⟨rfl, by simp only [List.length_nil, List.length_cons]; push_cast; omega, ?_⟩
        simp only [mkRowPieces, hkc, Nat.cast_zero, add_zero, List.append_assoc,
          List.singleton_append]

/-- Characters at code point 33 or above are not JavaScript whitespace. -/
theorem notWS_of_toNat (c : Char) (h : 33 ≤ c.toNat) : c.isWhitespace = false := by
  have h1 : (c = ' ') = False := eq_false (fun he => absurd (he ▸ h) (by decide))
  have h2 : (c = '\t') = False := eq_false (fun he => absurd (he ▸ h) (by decide))
  have h3 : (c = '\r') = False := eq_false (fun he => absurd (he ▸ h) (by decide))
  have h4 : (c = '\n') = False := eq_false (fun he => absurd (he ▸ h) (by decide))
  show (c = ' ' || c = '\t' || c = '\r' || c = '\n') = false
  simp [h1, h2, h3, h4]

/-- A FEN empty-count digit is not a separator and not whitespace. -/
theorem fenDigit_class (c : Char) (h : '1' ≤ c ∧ c ≤ '8') :
    c ≠ '/' ∧ c ≠ ' ' ∧ c.isWhitespace = false := by
  have hle : 49 ≤ c.toNat ∧ c.toNat ≤ 56 := by
    obtain ⟨h1, h2⟩ := h
    rw [Char.le_def] at h1 h2
    exact ⟨h1, h2⟩
  refine ⟨?_, ?_, notWS_of_toNat c (by omega)⟩
  · intro he
    rw [he] at hle
    simp at hle
  · intro he
    rw [he] at hle
    simp at hle

/-- A symbol appearing in a rank of symbols is the symbol of some piece. -/
theorem rowSyms_some (b : Board) (row : Int) (c : Char) (h : some c ∈ b.rowSyms row) :
    ∃ p : Piece, p.symbol = c := by
  unfold Board.rowSyms at h
  obtain ⟨col, hcol, hc⟩ := List.mem_map.1 h
  cases hq : b.getPieceAt ⟨row, (col : Int)⟩ with
  | none =>
    rw [hq] at hc
    cases hc
  | some p =>
    rw [hq] at hc
    exact ⟨p, by simpa using hc⟩

/-- Rank symbols are decodable piece letters, not digits. -/
theorem rowSyms_hsym (b : Board) (row : Int) :
    ∀ c, some c ∈ b.rowSyms row → charToPieceKC c ≠ none ∧ ¬('1' ≤ c ∧ c ≤ '8') := by
  intro c hc
  obtain ⟨p, rfl⟩ := rowSyms_some b row c hc
  exact ⟨by rw [symbol_charToPieceKC]; simp, (symbol_class p).1⟩

/-- A rank has eight symbol slots. -/
theorem rowSyms_length (b : Board) (row : Int) : (b.rowSyms row).length = 8 := by
  unfold Board.rowSyms
  rw [List.length_map]
  rfl

/-- One full row of the row loop of Board.loadFEN on an encoded rank. -/
theorem parseFENRows_step (b : Board) (row : Int) (rest : List (List Char)) (acc : List Piece) :
    parseFENRows (rleEncode (b.rowSyms row) 0 :: rest) row acc =
      parseFENRows rest (row + 1) (acc ++ mkRowPieces row (b.rowSyms row) 0) := by
  conv_lhs => unfold parseFENRows
  rw [parseFENRow_rleEncode row (b.rowSyms row) 0 0 acc (rowSyms_hsym b row)
    (by rw [rowSyms_length])]
  rw [rowSyms_length]
  simp

/-- Board.loadFEN inverts Board.toFEN up to the piece list it accumulates:
the load succeeds and rebuilds the occupied squares row by row. -/
theorem board_loadFEN_toFEN (b : Board) :
    b.loadFEN b.toFEN =
      (true, { pieces := loadedPieces b, enPassantTarget := none, capturedPieces := [] }) := by
  have hsplit : splitOnChar '/' b.toFEN =
      (List.range 8).map (fun row => rleEncode (b.rowSyms (row : Int)) 0) := by
    unfold Board.toFEN
    refine splitOnChar_intercalate '/' _
      (List.length_pos.1 (by rw [List.length_map]; decide)) ?_
    intro pt hpt c hc
    obtain ⟨r, hr, rfl⟩ := List.mem_map.1 hpt
    rcases rleEncode_chars (b.rowSyms (r : Int)) 0 (by rw [rowSyms_length]) c hc with hd | hs
    · exact (fenDigit_class c hd).1
    · obtain ⟨p, rfl⟩ := rowSyms_some b _ c hs
      exact (symbol_class p).2.1
  unfold Board.loadFEN
  rw [hsplit]
  rw [if_neg (by rw [List.length_map]; decide)]
  have hlit : (List.range 8).map (fun row => rleEncode (b.rowSyms (row : Int)) 0) =
      [rleEncode (b.rowSyms 0) 0, rleEncode (b.rowSyms 1) 0, rleEncode (b.rowSyms 2) 0,
       rleEncode (b.rowSyms 3) 0, rleEncode (b.rowSyms 4) 0, rleEncode (b.rowSyms 5) 0,
       rleEncode (b.rowSyms 6) 0, rleEncode (b.rowSyms 7) 0] := rfl
  rw [hlit]
  rw [parseFENRows_step b 0]
  rw [show ((0 : Int) + 1) = 1 from by norm_num]
  rw [parseFENRows_step b 1]
  rw [show ((1 : Int) + 1) = 2 from by norm_num]
  rw [parseFENRows_step b 2]
  rw [show ((2 : Int) + 1) = 3 from by norm_num]
  rw [parseFENRows_step b 3]
  rw [show ((3 : Int) + 1) = 4 from by norm_num]
  rw [parseFENRows_step b 4]
  rw [show ((4 : Int) + 1) = 5 from by norm_num]
  rw [parseFENRows_step b 5]
  rw [show ((5 : Int) + 1) = 6 from by norm_num]
  rw [parseFENRows_step b 6]
  rw [show ((6 : Int) + 1) = 7 from by norm_num]
  rw [parseFENRows_step b 7]
  show (true, _) = _
  simp [loadedPieces, parseFENRows, List.append_assoc]

/-- When no two pieces share a square, find? at a member's square returns that
member. -/
theorem find?_sq_of_nodup (ps : List Piece) (hN : (ps.map Piece.pos).Nodup)
    (p : Piece) (hp : p ∈ ps) :
    ps.find? (fun q => q.pos.row == p.pos.row && q.pos.col == p.pos.col) = some p := by
  induction ps with
  | nil => cases hp
  | cons x rest ih =>
    rcases List.mem_cons.1 hp with rfl | hp2
    · rw [List.find?_cons_of_pos rest ((squarePred_iff p p.pos).2 rfl)]
    · have hN2 : (∀ y ∈ rest, ¬ y.pos = x.pos) ∧ (rest.map Piece.pos).Nodup := by
        simpa using hN
      have hxne : x.pos ≠ p.pos := fun he => hN2.1 p hp2 he.symm
      rw [List.find?_cons_of_neg rest (fun hb => hxne ((squarePred_iff x p.pos).1 hb))]
      exact ih hN2.2 hp2

/-- getPieceAt finds every piece of a board without shared squares. -/
theorem getPieceAt_of_nodup (b : Board) (hN : (b.pieces.map Piece.pos).Nodup)
    (p : Piece) (hp : p ∈ b.pieces) : b.getPieceAt p.pos = some p := by
  unfold Board.getPieceAt
  exact find?_sq_of_nodup b.pieces hN p hp

/-- Membership in the pieces one row of the loader builds, for a symbol list
that reflects the occupancy of consecutive squares. -/
theorem mkRowPieces_spec (b : Board) (row : Int) : ∀ (syms : List (Option Char)) (col : Int),
    (∀ j : Nat, j < syms.length →
      syms.getD j none = (b.getPieceAt ⟨row, col + (j : Int)⟩).map Piece.symbol) →
    ∀ q, (q ∈ mkRowPieces row syms col ↔
      ∃ j : Nat, j < syms.length ∧ ∃ p, b.getPieceAt ⟨row, col + (j : Int)⟩ = some p ∧
        q = ⟨p.kind, p.color, ⟨row, col + (j : Int)⟩, false⟩) := by
  intro syms
  induction syms with
  | nil =>
    intro col hsy q
    simp [mkRowPieces]
  | cons s rest ih =>
    intro col hsy q
    have hs0 : s = (b.getPieceAt ⟨row, col⟩).map Piece.symbol := by
      have h := hsy 0 (by simp)
      simpa using h
    have hrest : ∀ j : Nat, j < rest.length →
        rest.getD j none = (b.getPieceAt ⟨row, (col + 1) + (j : Int)⟩).map Piece.symbol := by
      intro j hj
      have h := hsy (j + 1) (by simp; omega)
      rw [show (col + ((j + 1 : Nat) : Int) : Int) = (col + 1) + (j : Int) by push_cast; ring] at h
      simpa using h
    have hrec := ih (col + 1) hrest
    cases hgp : b.getPieceAt ⟨row, col⟩ with
    | none =>
      have hs : s = none := by
        rw [hgp] at hs0
        simpa using hs0
      subst hs
      show q ∈ mkRowPieces row rest (col + 1) ↔ _
      rw [hrec q]
      constructor
      · rintro ⟨j, hj, p, hp, hq⟩
        refine ⟨j + 1, by simp; omega, p, ?_, ?_⟩
        · rw [show (col + ((j + 1 : Nat) : Int) : Int) = (col + 1) + (j : Int) by
            push_cast; ring]
          exact hp
        · rw [show (col + ((j + 1 : Nat) : Int) : Int) = (col + 1) + (j : Int) by
            push_cast; ring]
          exact hq
      · rintro ⟨j, hj, p, hp, hq⟩
        cases j with
        | zero =>
          rw [show (col + ((0 : Nat) : Int) : Int) = col by simp] at hp
          rw [hgp] at hp
          cases hp
        | succ j =>
          refine ⟨j, by simp at hj; omega, p, ?_, ?_⟩
          · rw [show ((col + 1) + (j : Int) : Int) = col + ((j + 1 : Nat) : Int) by
              push_cast; ring]
            exact hp
          · rw [show ((col + 1) + (j : Int) : Int) = col + ((j + 1 : Nat) : Int) by
              push_cast; ring]
            exact hq
    | some p0 =>
      have hs : s = some p0.symbol := by
        rw [hgp] at hs0
        simpa using hs0
      subst hs
      have hexp : mkRowPieces row (some p0.symbol :: rest) col =
          (⟨p0.kind, p0.color, ⟨row, col⟩, false⟩ : Piece) :: mkRowPieces row rest (col + 1) := by
        conv_lhs => unfold mkRowPieces
        rw [symbol_charToPieceKC]
        rfl
      rw [hexp, List.mem_cons, hrec q]
      constructor
      · rintro (rfl | ⟨j, hj, p, hp, hq⟩)
        · refine ⟨0, by simp, p0, ?_, ?_⟩
          · rw [show (col + ((0 : Nat) : Int) : Int) = col by simp]
            exact hgp
          · rw [show (col + ((0 : Nat) : Int) : Int) = col by simp]
        · refine ⟨j + 1, by simp; omega, p, ?_, ?_⟩
          · rw [show (col + ((j + 1 : Nat) : Int) : Int) = (col + 1) + (j : Int) by
              push_cast; ring]
            exact hp
          · rw [show (col + ((j + 1 : Nat) : Int) : Int) = (col + 1) + (j : Int) by
              push_cast; ring]
            exact hq
      · rintro ⟨j, hj, p, hp, hq⟩
        cases j with
        | zero =>
          rw [show (col + ((0 : Nat) : Int) : Int) = col by simp] at hp hq
          rw [hgp] at hp
          obtain rfl : p0 = p := by simpa using hp
          exact Or.inl hq
        | succ j =>
          refine Or.inr ⟨j, by simp at hj; omega, p, ?_, ?_⟩
          · rw [show ((col + 1) + (j : Int) : Int) = col + ((j + 1 : Nat) : Int) by
              push_cast; ring]
            exact hp
          · rw [show ((col + 1) + (j : Int) : Int) = col + ((j + 1 : Nat) : Int) by
              push_cast; ring]
            exact hq

/-- Membership in the loaded piece list: exactly one piece per occupied
square, with the decoded kind and color, the square as position and a cleared
hasMoved flag. -/
theorem mem_loadedPieces_iff (b : Board) (q : Piece) :
    q ∈ loadedPieces b ↔ ∃ (r c : Nat), r < 8 ∧ c < 8 ∧
      ∃ p, b.getPieceAt ⟨(r : Int), (c : Int)⟩ = some p ∧
        q = ⟨p.kind, p.color, ⟨(r : Int), (c : Int)⟩, false⟩ := by
  have hrowSpec : ∀ (row : Int), q ∈ mkRowPieces row (b.rowSyms row) 0 ↔
      ∃ j : Nat, j < 8 ∧ ∃ p, b.getPieceAt ⟨row, (j : Int)⟩ = some p ∧
        q = ⟨p.kind, p.color, ⟨row, (j : Int)⟩, false⟩ := by
    intro row
    have hsy : ∀ j : Nat, j < (b.rowSyms row).length →
        (b.rowSyms row).getD j none =
          (b.getPieceAt ⟨row, (0 : Int) + (j : Int)⟩).map Piece.symbol := by
      intro j hj
      rw [rowSyms_length] at hj
      interval_cases j <;> rfl
    have h := mkRowPieces_spec b row (b.rowSyms row) 0 hsy q
    rw [rowSyms_length] at h
    simpa using h
  constructor
  · intro h
    simp only [loadedPieces, List.mem_append] at h
    rcases h with h | h | h | h | h | h | h | h
    · obtain ⟨j, hj, p, hp, hq⟩ := (hrowSpec 0).1 h
      exact ⟨0, j, by norm_num, hj, p, hp, hq⟩
    · obtain ⟨j, hj, p, hp, hq⟩ := (hrowSpec 1).1 h
      exact ⟨1, j, by norm_num, hj, p, hp, hq⟩
    · obtain ⟨j, hj, p, hp, hq⟩ := (hrowSpec 2).1 h
      exact ⟨2, j, by norm_num, hj, p, hp, hq⟩
    · obtain ⟨j, hj, p, hp, hq⟩ := (hrowSpec 3).1 h
      exact ⟨3, j, by norm_num, hj, p, hp, hq⟩
    · obtain ⟨j, hj, p, hp, hq⟩ := (hrowSpec 4).1 h
      exact ⟨4, j, by norm_num, hj, p, hp, hq⟩
    · obtain ⟨j, hj, p, hp, hq⟩ := (hrowSpec 5).1 h
      exact ⟨5, j, by norm_num, hj, p, hp, hq⟩
    · obtain ⟨j, hj, p, hp, hq⟩ := (hrowSpec 6).1 h
      exact ⟨6, j, by norm_num, hj, p, hp, hq⟩
    · obtain ⟨j, hj, p, hp, hq⟩ := (hrowSpec 7).1 h
      exact ⟨7, j, by norm_num, hj, p, hp, hq⟩
  · rintro ⟨r, c, hr, hc, p, hp, hq⟩
    simp only [loadedPieces, List.mem_append]
    interval_cases r
    · exact Or.inl ((hrowSpec 0).2 ⟨c, hc, p, hp, hq⟩)
    · exact Or.inr (Or.inl ((hrowSpec 1).2 ⟨c, hc, p, hp, hq⟩))
    · exact Or.inr (Or.inr (Or.inl ((hrowSpec 2).2 ⟨c, hc, p, hp, hq⟩)))
    · exact Or.inr (Or.inr (Or.inr (Or.inl ((hrowSpec 3).2 ⟨c, hc, p, hp, hq⟩))))
    · exact Or.inr (Or.inr (Or.inr (Or.inr (Or.inl ((hrowSpec 4).2 ⟨c, hc, p, hp, hq⟩)))))
    · exact Or.inr (Or.inr (Or.inr (Or.inr (Or.inr (Or.inl
        ((hrowSpec 5).2 ⟨c, hc, p, hp, hq⟩))))))
    · exact Or.inr (Or.inr (Or.inr (Or.inr (Or.inr (Or.inr (Or.inl
        ((hrowSpec 6).2 ⟨c, hc, p, hp, hq⟩)))))))
    · exact Or.inr (Or.inr (Or.inr (Or.inr (Or.inr (Or.inr (Or.inr
        ((hrowSpec 7).2 ⟨c, hc, p, hp, hq⟩)))))))

/-- The loaded piece list is a permutation of the original pieces with the
hasMoved flags cleared, on a well-placed board. -/
theorem loadedPieces_perm (b : Board)
    (hN : (b.pieces.map Piece.pos).Nodup)
    (hval : ∀ p ∈ b.pieces, p.pos.isValid = true) :
    (loadedPieces b).Perm
      (b.pieces.map (fun p => (⟨p.kind, p.color, p.pos, false⟩ : Piece))) := by
  have hLN : ((loadedPieces b).map Piece.pos).Nodup := by
    have h := (loadFEN_WF b b.toFEN (by rw [board_loadFEN_toFEN])).1
    rw [board_loadFEN_toFEN] at h
    exact h
  have hRN : ((b.pieces.map (fun p => (⟨p.kind, p.color, p.pos, false⟩ : Piece))).map
      Piece.pos).Nodup := by
    rw [List.map_map]
    have he : b.pieces.map
        (Piece.pos ∘ (fun p => (⟨p.kind, p.color, p.pos, false⟩ : Piece))) =
        b.pieces.map Piece.pos := List.map_congr_left (fun a ha => rfl)
    rw [he]
    exact hN
  rw [List.perm_ext_iff_of_nodup hLN.of_map hRN.of_map]
  intro q
  rw [mem_loadedPieces_iff]
  constructor
  · rintro ⟨r, c, hr, hc, p, hp, hq⟩
    obtain ⟨hmem, hpos⟩ := getPieceAt_mem b _ p hp
    rw [List.mem_map]
    refine ⟨p, hmem, ?_⟩
    rw [hq, ← hpos]
  · intro hq
    rw [List.mem_map] at hq
    obtain ⟨p, hmem, rfl⟩ := hq
    have hv := hval p hmem
    unfold Pos.isValid at hv
    simp only [decide_eq_true_eq] at hv
    have h1 : (p.pos.row.toNat : Int) = p.pos.row := Int.toNat_of_nonneg (by omega)
    have h2 : (p.pos.col.toNat : Int) = p.pos.col := Int.toNat_of_nonneg (by omega)
    have hposeq : (⟨(p.pos.row.toNat : Int), (p.pos.col.toNat : Int)⟩ : Pos) = p.pos := by
      rw [h1, h2]
    refine ⟨p.pos.row.toNat, p.pos.col.toNat, by omega, by omega, p, ?_, ?_⟩
    · rw [hposeq]
      exact getPieceAt_of_nodup b hN p hmem
    · rw [hposeq]

/-- The loaded piece list has the same multiset of signature keys as the
original pieces. -/
theorem loadedPieces_sigKeys (b : Board)
    (hN : (b.pieces.map Piece.pos).Nodup)
    (hval : ∀ p ∈ b.pieces, p.pos.isValid = true) :
    ((loadedPieces b).map Piece.sigKey).Perm (b.pieces.map Piece.sigKey) := by
  have h := (loadedPieces_perm b hN hval).map Piece.sigKey
  rw [List.map_map] at h
  have he : b.pieces.map
      (Piece.sigKey ∘ (fun p => (⟨p.kind, p.color, p.pos, false⟩ : Piece))) =
      b.pieces.map Piece.sigKey :=
    List.map_congr_left (fun p hp => by
      rcases p with ⟨k, c, pos, hm⟩
      exact sigKey_mk k c pos false hm)
  rwa [he] at h

/-- The signature sort-key order is total. -/
theorem sigKeyLE_total (a b : Char × Int × Int) : sigKeyLE a b ∨ sigKeyLE b a := by
  unfold sigKeyLE
  rcases lt_trichotomy a.1 b.1 with h | h | h
  · exact Or.inl (Or.inl h)
  · rcases lt_trichotomy a.2.1 b.2.1 with h2 | h2 | h2
    · exact Or.inl (Or.inr ⟨h, Or.inl h2⟩)
    · rcases le_total a.2.2 b.2.2 with h3 | h3
      · exact Or.inl (Or.inr ⟨h, Or.inr ⟨h2, h3⟩⟩)
      · exact Or.inr (Or.inr ⟨h.symm, Or.inr ⟨h2.symm, h3⟩⟩)
    · exact Or.inr (Or.inr ⟨h.symm, Or.inl h2⟩)
  · exact Or.inr (Or.inl h)

/-- The signature sort-key order is transitive. -/
theorem sigKeyLE_trans (a b c : Char × Int × Int)
    (hab : sigKeyLE a b) (hbc : sigKeyLE b c) : sigKeyLE a c := by
  unfold sigKeyLE at hab hbc ⊢
  rcases hab with h1 | ⟨he1, h1⟩
  · rcases hbc with h2 | ⟨he2, h2⟩
    · exact Or.inl (h1.trans h2)
    · exact Or.inl (he2 ▸ h1)
  · rcases hbc with h2 | ⟨he2, h2⟩
    · exact Or.inl (he1 ▸ h2)
    · refine Or.inr ⟨he1.trans he2, ?_⟩
      rcases h1 with h3 | ⟨hr1, h3⟩
      · rcases h2 with h4 | ⟨hr2, h4⟩
        · exact Or.inl (h3.trans h4)
        · exact Or.inl (hr2 ▸ h3)
      · rcases h2 with h4 | ⟨hr2, h4⟩
        · exact Or.inl (hr1 ▸ h4)
        · exact Or.inr ⟨hr1.trans hr2, h3.trans h4⟩

/-- The signature sort-key order is antisymmetric. -/
theorem sigKeyLE_antisymm (a b : Char × Int × Int)
    (hab : sigKeyLE a b) (hba : sigKeyLE b a) : a = b := by
  unfold sigKeyLE at hab hba
  rcases hab with h1 | ⟨he1, h1⟩
  · rcases hba with h2 | ⟨he2, h2⟩
    · exact absurd h2 (lt_asymm h1)
    · exact absurd he2 (ne_of_lt h1).symm
  · rcases hba with h2 | ⟨he2, h2⟩
    · exact absurd h2 (by rw [he1]; exact lt_irrefl _)
    · rcases h1 with h3 | ⟨hr1, h3⟩
      · rcases h2 with h4 | ⟨hr2, h4⟩
        · exact absurd h4 (lt_asymm h3)
        · exact absurd hr2 (ne_of_lt h3).symm
      · rcases h2 with h4 | ⟨hr2, h4⟩
        · exact absurd h4 (by rw [hr1]; exact lt_irrefl _)
        · refine Prod.ext he1 (Prod.ext hr1 (le_antisymm h3 h4))

instance : IsAntisymm (Char × Int × Int) sigKeyLE := ⟨sigKeyLE_antisymm⟩

/-- The comparator of the position signature agrees with the lexicographic
order on sort keys. -/
theorem pieceLE_iff (a b : Piece) : pieceLE a b ↔ sigKeyLE a.sigKey b.sigKey := by
  unfold pieceLE pieceSortLE sigKeyLE Piece.sigKey
  by_cases hs : a.symbol = b.symbol
  · rw [hs]
    simp only [bne_self_eq_false, Bool.false_eq_true, if_false, lt_irrefl, false_or]
    by_cases hr : a.pos.row = b.pos.row
    · rw [hr]
      simp [lt_irrefl]
    · rw [if_pos (by simpa using hr)]
      simp only [decide_eq_true_eq]
      constructor
      · intro h
        exact ⟨by trivial, Or.inl (lt_of_le_of_ne h hr)⟩
      · rintro ⟨-, h | ⟨he, -⟩⟩
        · exact le_of_lt h
        · exact absurd he hr
  · rw [if_pos (by simpa using hs)]
    simp only [decide_eq_true_eq]
    constructor
    · intro h
      exact Or.inl (lt_of_le_of_ne h hs)
    · rintro (h | ⟨he, -⟩)
      · exact le_of_lt h
      · exact absurd he hs

instance : IsTotal Piece pieceLE :=
  ⟨fun a b => by
    rw [pieceLE_iff, pieceLE_iff]
    exact sigKeyLE_total a.sigKey b.sigKey⟩

instance : IsTrans Piece pieceLE :=
  ⟨fun a b c hab hbc => by
    rw [pieceLE_iff] at hab hbc ⊢
    exact sigKeyLE_trans _ _ _ hab hbc⟩

/-- Sorting pieces with equal key multisets yields equal key sequences. -/
theorem sortedKeys_eq (l1 l2 : List Piece)
    (hperm : (l1.map Piece.sigKey).Perm (l2.map Piece.sigKey)) :
    (List.insertionSort pieceLE l1).map Piece.sigKey =
      (List.insertionSort pieceLE l2).map Piece.sigKey := by
  refine List.eq_of_perm_of_sorted (r := sigKeyLE) ?_ ?_ ?_
  · have h1 := (List.perm_insertionSort pieceLE l1).map Piece.sigKey
    have h2 := (List.perm_insertionSort pieceLE l2).map Piece.sigKey
    exact h1.trans (hperm.trans h2.symm)
  · exact List.Pairwise.map _ (fun a b h => (pieceLE_iff a b).1 h)
      (List.sorted_insertionSort pieceLE l1)
  · exact List.Pairwise.map _ (fun a b h => (pieceLE_iff a b).1 h)
      (List.sorted_insertionSort pieceLE l2)

/-- Boards with the same key multiset and en passant target have the same
position signature. -/
theorem getPositionSignature_congr (b1 b2 : Board)
    (hperm : (b1.pieces.map Piece.sigKey).Perm (b2.pieces.map Piece.sigKey))
    (hep : b1.enPassantTarget = b2.enPassantTarget) :
    b1.getPositionSignature = b2.getPositionSignature := by
  unfold Board.getPositionSignature
  rw [hep]
  have hc : ∀ (l : List Piece),
      l.map (fun piece => piece.symbol :: piece.pos.toAlgebraic) =
        (l.map Piece.sigKey).map sigKeyStr := by
    intro l
    rw [List.map_map]
    exact List.map_congr_left (fun p hp => rfl)
  show ((List.insertionSort pieceLE b1.pieces).map
      (fun piece => piece.symbol :: piece.pos.toAlgebraic)).flatten ++ [';', 'e', 'p', ':'] ++
      (match b2.enPassantTarget with
       | some enPassantTarget => enPassantTarget.toAlgebraic
       | none => ['-']) =
    ((List.insertionSort pieceLE b2.pieces).map
      (fun piece => piece.symbol :: piece.pos.toAlgebraic)).flatten ++ [';', 'e', 'p', ':'] ++
      (match b2.enPassantTarget with
       | some enPassantTarget => enPassantTarget.toAlgebraic
       | none => ['-'])
  rw [hc, hc, sortedKeys_eq _ _ hperm]

/-- Toggling the hasMoved flag keeps the signature sort key. -/
theorem sigKey_set_hasMoved (p : Piece) (h : Bool) :
    Piece.sigKey { p with hasMoved := h } = p.sigKey := by
  rcases p with ⟨k, c, pos, hm⟩
  exact sigKey_mk k c pos h hm

/-- Replacing the first matching piece by a key-preserving update keeps the
key sequence. -/
theorem updateFirst_sigKeys (pred : Piece → Bool) (f : Piece → Piece)
    (hf : ∀ p, (f p).sigKey = p.sigKey) :
    ∀ (l : List Piece), (updateFirst pred f l).map Piece.sigKey = l.map Piece.sigKey := by
  intro l
  induction l with
  | nil => rfl
  | cons x rest ih =>
    unfold updateFirst
    split_ifs with h
    · simp only [List.map_cons, hf]
    · simp only [List.map_cons, ih]

/-- Clearing a king's hasMoved flag keeps the key sequence. -/
theorem clearKingFlag_sigKeys (color : Color) (ps : List Piece) :
    (clearKingFlag color ps).map Piece.sigKey = ps.map Piece.sigKey :=
  updateFirst_sigKeys _ _ (fun p => sigKey_set_hasMoved p false) ps

/-- Setting an index to a key-equal piece keeps the key sequence. -/
theorem map_set_sigKeys (l : List Piece) : ∀ (j : Nat) (q : Piece),
    j < l.length → q.sigKey = (l.getD j default).sigKey →
    (l.set j q).map Piece.sigKey = l.map Piece.sigKey := by
  induction l with
  | nil =>
    intro j q hj _
    simp at hj
  | cons x rest ih =>
    intro j q hj hq
    cases j with
    | zero =>
      rw [List.set_cons_zero, List.map_cons, List.map_cons, hq]
      rfl
    | succ j =>
      rw [List.set_cons_succ, List.map_cons, List.map_cons,
        ih j q (by simpa using hj) hq]

/-- Clearing a rook's hasMoved flag keeps the key sequence. -/
theorem clearRookFlagAt_sigKeys (color : Color) (col : Int) (ps : List Piece) :
    (clearRookFlagAt color col ps).map Piece.sigKey = ps.map Piece.sigKey := by
  simp only [clearRookFlagAt]
  cases hI : idxAtSquare ps ⟨if color == .white then 7 else 0, col⟩ with
  | none => rfl
  | some j =>
    obtain ⟨hj, hpos⟩ := idxAtSquare_spec _ _ _ hI
    show (if ((ps.getD j default).kind == PieceKind.rook &&
          (ps.getD j default).color == color) = true then
        ps.set j (⟨(ps.getD j default).kind, (ps.getD j default).color,
          (ps.getD j default).pos, false⟩ : Piece) else ps).map Piece.sigKey =
      ps.map Piece.sigKey
    split_ifs with h
    · exact map_set_sigKeys ps j _ hj (sigKey_set_hasMoved _ false)
    · rfl

/-- Marking kings and rooks as moved keeps the key sequence. -/
theorem mungeKR_sigKeys (ps : List Piece) :
    ((ps.map (fun p => if p.kind == .king || p.kind == .rook then
      { p with hasMoved := true } else p)).map Piece.sigKey) = ps.map Piece.sigKey := by
  rw [List.map_map]
  refine List.map_congr_left (fun p hp => ?_)
  show Piece.sigKey (if p.kind == .king || p.kind == .rook then
    { p with hasMoved := true } else p) = p.sigKey
  split_ifs with h
  · exact sigKey_set_hasMoved p true
  · rfl

/-- The whole hasMoved munging of Game.loadFEN keeps the key sequence. -/
theorem loadMunge_sigKeys (castling : List Char) (L : List Piece) :
    ((if castling != ['-'] then
        (let a1 := if castling.contains 'K' || castling.contains 'Q' then
            clearKingFlag .white (L.map (fun p =>
              if p.kind == .king || p.kind == .rook then { p with hasMoved := true } else p))
          else (L.map (fun p =>
              if p.kind == .king || p.kind == .rook then { p with hasMoved := true } else p))
         let a2 := if castling.contains 'k' || castling.contains 'q' then
            clearKingFlag .black a1 else a1
         let a3 := if castling.contains 'K' then clearRookFlagAt .white 7 a2 else a2
         let a4 := if castling.contains 'Q' then clearRookFlagAt .white 0 a3 else a3
         let a5 := if castling.contains 'k' then clearRookFlagAt .black 7 a4 else a4
         if castling.contains 'q' then clearRookFlagAt .black 0 a5 else a5)
      else (L.map (fun p =>
          if p.kind == .king || p.kind == .rook then { p with hasMoved := true } else p))).map
      Piece.sigKey) = L.map Piece.sigKey := by
  have step : ∀ (c : Bool) (f : List Piece → List Piece) (l : List Piece),
      (∀ l2, (f l2).map Piece.sigKey = l2.map Piece.sigKey) →
      ((if c then f l else l).map Piece.sigKey) = l.map Piece.sigKey := by
    intro c f l hf
    cases c
    · rfl
    · exact hf l
  have comp : ∀ (l : List Piece), l.map Piece.sigKey = L.map Piece.sigKey →
      ∀ (c : Bool) (f : List Piece → List Piece),
      (∀ l2, (f l2).map Piece.sigKey = l2.map Piece.sigKey) →
      ((if c then f l else l).map Piece.sigKey) = L.map Piece.sigKey :=
    fun l hl c f hf => (step c f l hf).trans hl
  by_cases h : (castling != ['-']) = true
  · rw [if_pos h]
    exact
      comp _
        (comp _
          (comp _
            (comp _
              (comp _
                (comp _ (mungeKR_sigKeys L)
                  (castling.contains 'K' || castling.contains 'Q') (clearKingFlag .white)
                  (fun l2 => clearKingFlag_sigKeys .white l2))
                (castling.contains 'k' || castling.contains 'q') (clearKingFlag .black)
                (fun l2 => clearKingFlag_sigKeys .black l2))
              (castling.contains 'K') (clearRookFlagAt .white 7)
              (fun l2 => clearRookFlagAt_sigKeys .white 7 l2))
            (castling.contains 'Q') (clearRookFlagAt .white 0)
            (fun l2 => clearRookFlagAt_sigKeys .white 0 l2))
          (castling.contains 'k') (clearRookFlagAt .black 7)
          (fun l2 => clearRookFlagAt_sigKeys .black 7 l2))
        (castling.contains 'q') (clearRookFlagAt .black 0)
        (fun l2 => clearRookFlagAt_sigKeys .black 0 l2)
  · rw [if_neg h]
    exact mungeKR_sigKeys L

/-- The fuelled digit emitter: digit characters only, and folding the digits
back recovers the number. -/
theorem natToDecimalAux_spec : ∀ (fuel n : Nat), n < fuel →
    (∀ c ∈ natToDecimalAux fuel n, '0' ≤ c ∧ c ≤ '9') ∧
    ∀ (v0 : Nat), (natToDecimalAux fuel n).foldl (fun v c => v * 10 + (c.toNat - 48)) v0 =
      v0 * 10 ^ (natToDecimalAux fuel n).length + n := by
  intro fuel
  induction fuel with
  | zero =>
    intro n h
    exact absurd h (Nat.not_lt_zero n)
  | succ fuel ih =>
    intro n h
    by_cases h0 : n = 0
    · subst h0
      exact ⟨by simp [natToDecimalAux], fun v0 => by simp [natToDecimalAux]⟩
    · have hlt : n / 10 < fuel := by
        have := Nat.div_lt_self (Nat.pos_of_ne_zero h0) (by norm_num : (1 : Nat) < 10)
        omega
      obtain ⟨ihc, ihf⟩ := ih (n / 10) hlt
      have hexp : natToDecimalAux (fuel + 1) n =
          natToDecimalAux fuel (n / 10) ++ [digitChar (n % 10)] := by
        conv_lhs => unfold natToDecimalAux
        rw [if_neg (by simpa using h0)]
      rw [hexp]
      constructor
      · intro c hc
        rcases List.mem_append.1 hc with hc1 | hc2
        · exact ihc c hc1
        · obtain rfl : c = digitChar (n % 10) := by simpa using hc2
          exact digitChar_decimal _ (by omega)
      · intro v0
        rw [List.foldl_append, ihf v0]
        simp only [List.foldl_cons, List.foldl_nil, List.length_append, List.length_cons,
          List.length_nil]
        rw [digitChar_toNat _ (by omega)]
        rw [show ((natToDecimalAux fuel (n / 10)).length + 0 + 1 : Nat) =
          (natToDecimalAux fuel (n / 10)).length + 1 by omega]
        rw [pow_succ]
        ring_nf
        omega

/-- Decimal output: nonempty, decimal digits only, folds back to the
number. -/
theorem natToDecimal_facts (n : Nat) :
    natToDecimal n ≠ [] ∧ (∀ c ∈ natToDecimal n, '0' ≤ c ∧ c ≤ '9') ∧
    (natToDecimal n).foldl (fun v c => v * 10 + (c.toNat - 48)) 0 = n := by
  unfold natToDecimal
  by_cases h0 : n = 0
  · subst h0
    refine ⟨by simp, ?_, by decide⟩
    intro c hc
    obtain rfl : c = '0' := by simpa using hc
    exact ⟨by decide, by decide⟩
  · rw [if_neg (by simpa using h0)]
    obtain ⟨hc, hf⟩ := natToDecimalAux_spec (n + 1) n (by omega)
    refine ⟨?_, hc, by simpa using hf 0⟩
    have hexp : natToDecimalAux (n + 1) n =
        natToDecimalAux n (n / 10) ++ [digitChar (n % 10)] := by
      conv_lhs => unfold natToDecimalAux
      rw [if_neg (by simpa using h0)]
    rw [hexp]
    simp

/-- A decimal digit is not a space and not whitespace. -/
theorem decDigit_class (c : Char) (h : '0' ≤ c ∧ c ≤ '9') :
    c ≠ ' ' ∧ c.isWhitespace = false := by
  have hb : 48 ≤ c.toNat ∧ c.toNat ≤ 57 := by
    obtain ⟨h1, h2⟩ := h
    rw [Char.le_def] at h1 h2
    exact ⟨h1, h2⟩
  refine ⟨?_, notWS_of_toNat c (by omega)⟩
  intro he
  rw [he] at hb
  exact absurd hb.1 (by decide)

/-- parseInt on an all-digit string returns the folded value. -/
theorem parseIntJS_digits (s : List Char) (hne : s ≠ [])
    (hd : ∀ c ∈ s, '0' ≤ c ∧ c ≤ '9') :
    parseIntJS s = some ((s.foldl (fun v c => v * 10 + (c.toNat - 48)) 0 : Nat) : Int) := by
  cases s with
  | nil => exact absurd rfl hne
  | cons c rest =>
    have hc := hd c (List.mem_cons_self c rest)
    have hcb : 48 ≤ c.toNat ∧ c.toNat ≤ 57 := by
      obtain ⟨h1, h2⟩ := hc
      rw [Char.le_def] at h1 h2
      exact ⟨h1, h2⟩
    have hsigned : (match c :: rest with
        | '-' :: r => (true, r)
        | '+' :: r => (false, r)
        | r => (false, r)) = ((false : Bool), c :: rest) := by
      split
      · rename_i heq
        rw [List.cons.injEq] at heq
        rw [heq.1] at hcb
        exact absurd hcb.1 (by decide)
      · rename_i heq
        rw [List.cons.injEq] at heq
        rw [heq.1] at hcb
        exact absurd hcb.1 (by decide)
      · rfl
    have htake : (c :: rest).takeWhile (fun x => decide ('0' ≤ x ∧ x ≤ '9')) = c :: rest :=
      List.takeWhile_eq_self_iff.2 (fun x hx => decide_eq_true (hd x hx))
    unfold parseIntJS
    simp only [hsigned, htake]
    rw [if_neg (by simp)]
    simp

/-- parseInt inverts the decimal output on non-negative integers. -/
theorem parseIntJS_intToDecimal (n : Int) (h : 0 ≤ n) :
    parseIntJS (intToDecimal n) = some n := by
  unfold intToDecimal
  rw [if_neg (by omega)]
  obtain ⟨hne, hch, hf⟩ := natToDecimal_facts n.natAbs
  rw [parseIntJS_digits _ hne hch, hf, Int.natAbs_of_nonneg h]

/-- Game.getFEN assembles the six fields with single space separators. -/
theorem getFEN_shape (g : Game) : g.getFEN = g.board.toFEN ++
    (' ' :: (if g.currentTurn == .white then ['w'] else ['b'])) ++
    (' ' :: castlingStr g) ++ (' ' :: epStr g.board) ++
    (' ' :: intToDecimal g.halfMoveClock) ++
    (' ' :: intToDecimal g.fullMoveNumber) := by
  unfold Game.getFEN castlingStr epStr unmovedOpt
  rfl

/-- dropWhile leaves a list whose head fails the predicate unchanged. -/
theorem dropWhile_eq_self_of_head (p : Char → Bool) (s : List Char)
    (h : ∀ c, s.head? = some c → p c = false) : s.dropWhile p = s := by
  cases s with
  | nil => rfl
  | cons c rest =>
    rw [List.dropWhile_cons, if_neg (by rw [h c rfl]; simp)]

/-- trim is the identity when both ends are not whitespace. -/
theorem trimWS_eq_self (s : List Char)
    (hh : ∀ c, s.head? = some c → c.isWhitespace = false)
    (hl : ∀ c, s.getLast? = some c → c.isWhitespace = false) : trimWS s = s := by
  unfold trimWS
  rw [dropWhile_eq_self_of_head _ s hh]
  rw [dropWhile_eq_self_of_head _ s.reverse
    (fun c hc => hl c (by rwa [List.head?_reverse] at hc))]
  exact List.reverse_reverse s

/-- getLast? looks into the non-empty right part of an append. -/
theorem getLast?_append_ne (l1 l2 : List Char) (h : l2 ≠ []) :
    (l1 ++ l2).getLast? = l2.getLast? := by
  rw [← List.head?_reverse, ← List.head?_reverse, List.reverse_append]
  cases hr : l2.reverse with
  | nil =>
    exact absurd (by simpa using congrArg List.reverse hr) h
  | cons a t => simp

/-- A head? witness is a member. -/
theorem mem_of_head?_eq (l : List Char) (c : Char) (h : l.head? = some c) : c ∈ l := by
  cases l with
  | nil => cases h
  | cons a t =>
    obtain rfl : a = c := by simpa using h
    exact List.mem_cons_self a t

/-- Algebraic square names of on-board squares: parsed back exactly, two
characters, no dash, no spaces. -/
theorem toAlgebraic_fin_pack : ∀ (r c : Fin 8),
    Pos.fromAlgebraic (Pos.toAlgebraic ⟨((r : Nat) : Int), ((c : Nat) : Int)⟩) =
      some ⟨((r : Nat) : Int), ((c : Nat) : Int)⟩ ∧
    Pos.toAlgebraic ⟨((r : Nat) : Int), ((c : Nat) : Int)⟩ ≠ ['-'] ∧
    ∀ ch ∈ Pos.toAlgebraic ⟨((r : Nat) : Int), ((c : Nat) : Int)⟩,
      ch ≠ ' ' ∧ ch.isWhitespace = false := by decide

/-- Algebraic round trip and character class for any valid position. -/
theorem toAlgebraic_valid (t : Pos) (hv : t.isValid = true) :
    Pos.fromAlgebraic t.toAlgebraic = some t ∧ t.toAlgebraic ≠ ['-'] ∧
    ∀ ch ∈ t.toAlgebraic, ch ≠ ' ' ∧ ch.isWhitespace = false := by
  unfold Pos.isValid at hv
  simp only [decide_eq_true_eq] at hv
  rcases t with ⟨row, col⟩
  simp only at hv
  obtain ⟨h1, h2, h3, h4⟩ := hv
  have hr : ((row.toNat : Nat) : Int) = row := Int.toNat_of_nonneg h1
  have hc : ((col.toNat : Nat) : Int) = col := Int.toNat_of_nonneg h3
  rw [← hr, ← hc]
  exact toAlgebraic_fin_pack ⟨row.toNat, by omega⟩ ⟨col.toNat, by omega⟩

/-- Decimal integer output is nonempty. -/
theorem intToDecimal_ne_nil (n : Int) : intToDecimal n ≠ [] := by
  unfold intToDecimal
  split_ifs
  · simp
  · exact (natToDecimal_facts n.natAbs).1

/-- Decimal integer output has no spaces or whitespace. -/
theorem intToDecimal_chars (n : Int) : ∀ c ∈ intToDecimal n,
    c ≠ ' ' ∧ c.isWhitespace = false := by
  intro c hc
  unfold intToDecimal at hc
  split_ifs at hc
  · rcases List.mem_cons.1 hc with rfl | hc2
    · exact ⟨by decide, by decide⟩
    · exact decDigit_class c ((natToDecimal_facts _).2.1 c hc2)
  · exact decDigit_class c ((natToDecimal_facts _).2.1 c hc)

/-- The placement field has no spaces or whitespace. -/
theorem toFEN_chars (b : Board) : ∀ c ∈ b.toFEN, c ≠ ' ' ∧ c.isWhitespace = false := by
  intro c hc
  unfold Board.toFEN at hc
  rcases mem_intercalate '/' _ c hc with rfl | ⟨pt, hpt, hcpt⟩
  · exact ⟨by decide, by decide⟩
  · obtain ⟨r, hr, rfl⟩ := List.mem_map.1 hpt
    rcases rleEncode_chars _ 0 (by rw [rowSyms_length]) c hcpt with hd | hs
    · exact ⟨(fenDigit_class c hd).2.1, (fenDigit_class c hd).2.2⟩
    · obtain ⟨p, rfl⟩ := rowSyms_some b _ c hs
      exact ⟨(symbol_class p).2.2.1, (symbol_class p).2.2.2⟩

/-- The placement field is nonempty. -/
theorem toFEN_ne_nil (b : Board) : b.toFEN ≠ [] := by
  intro he
  unfold Board.toFEN at he
  rw [show (List.range 8).map (fun row => rleEncode (b.rowSyms (row : Int)) 0) =
      [rleEncode (b.rowSyms 0) 0, rleEncode (b.rowSyms 1) 0, rleEncode (b.rowSyms 2) 0,
       rleEncode (b.rowSyms 3) 0, rleEncode (b.rowSyms 4) 0, rleEncode (b.rowSyms 5) 0,
       rleEncode (b.rowSyms 6) 0, rleEncode (b.rowSyms 7) 0] from rfl] at he
  rw [intercalate_cons_cons] at he
  have := congrArg List.length he
  simp at this

/-- Membership through an if on lists. -/
theorem mem_ite_lists (P : Prop) [Decidable P] (l1 l2 : List Char) (d : Char)
    (hd : d ∈ (if P then l1 else l2)) : d ∈ l1 ∨ d ∈ l2 := by
  split_ifs at hd
  · exact Or.inl hd
  · exact Or.inr hd

/-- The castling field uses only right letters and the dash. -/
theorem castlingStr_chars (g : Game) : ∀ c ∈ castlingStr g,
    c ≠ ' ' ∧ c.isWhitespace = false := by
  have hsub : ∀ (bb : Bool) (x c : Char), c ∈ (if bb = true then [x] else ([] : List Char)) →
      c = x := by
    intro bb x c hc
    cases bb
    · simp at hc
    · simpa using hc
  intro c hc
  simp only [castlingStr] at hc
  rcases mem_ite_lists _ _ _ _ hc with hc1 | hc2
  · obtain rfl : c = '-' := by simpa using hc1
    exact ⟨by decide, by decide⟩
  · rcases List.mem_append.1 hc2 with hc3 | hc4
    · rcases List.mem_append.1 hc3 with hc5 | hc6
      · rcases List.mem_append.1 hc5 with hc7 | hc8
        · obtain rfl := hsub _ _ _ hc7
          exact ⟨by decide, by decide⟩
        · obtain rfl := hsub _ _ _ hc8
          exact ⟨by decide, by decide⟩
      · obtain rfl := hsub _ _ _ hc6
        exact ⟨by decide, by decide⟩
    · obtain rfl := hsub _ _ _ hc4
      exact ⟨by decide, by decide⟩

/-- The en passant field: dash or an algebraic square of a valid target. -/
theorem epStr_chars (b : Board) (hep : ∀ t, b.enPassantTarget = some t → t.isValid = true) :
    ∀ c ∈ epStr b, c ≠ ' ' ∧ c.isWhitespace = false := by
  intro c hc
  unfold epStr Board.getEnPassantTarget at hc
  cases ht : b.enPassantTarget with
  | none =>
    simp only [ht] at hc
    obtain rfl : c = '-' := by simpa using hc
    exact ⟨by decide, by decide⟩
  | some t =>
    simp only [ht] at hc
    exact (toAlgebraic_valid t (hep t ht)).2.2 c hc

/-- A generated FEN needs no trimming. -/
theorem getFEN_trim (g : Game) : trimWS g.getFEN = g.getFEN := by
  apply trimWS_eq_self
  · intro c hc
    obtain ⟨c0, r0, h0⟩ : ∃ c0 r0, g.board.toFEN = c0 :: r0 := by
      cases h : g.board.toFEN with
      | nil => exact absurd h (toFEN_ne_nil g.board)
      | cons a b2 => exact ⟨a, b2, rfl⟩
    rw [getFEN_shape, List.append_assoc, List.append_assoc, List.append_assoc,
      List.append_assoc, h0, List.cons_append] at hc
    obtain rfl : c0 = c := by simpa using hc
    exact (toFEN_chars g.board c0 (by rw [h0]; exact List.mem_cons_self _ _)).2
  · intro c hc
    rw [getFEN_shape, getLast?_append_ne _ _ (by simp)] at hc
    rw [show (' ' :: intToDecimal g.fullMoveNumber) =
      [' '] ++ intToDecimal g.fullMoveNumber from rfl,
      getLast?_append_ne _ _ (intToDecimal_ne_nil _)] at hc
    have hmem : c ∈ intToDecimal g.fullMoveNumber := by
      rw [← List.head?_reverse] at hc
      exact List.mem_reverse.1 (mem_of_head?_eq _ _ hc)
    exact (intToDecimal_chars _ c hmem).2

/-- Splitting a generated FEN on spaces recovers the six fields. -/
theorem getFEN_splitOn (g : Game)
    (hep : ∀ t, g.board.enPassantTarget = some t → t.isValid = true) :
    splitOnChar ' ' g.getFEN =
      [g.board.toFEN, (if g.currentTurn == .white then ['w'] else ['b']),
       castlingStr g, epStr g.board, intToDecimal g.halfMoveClock,
       intToDecimal g.fullMoveNumber] := by
  rw [getFEN_shape]
  simp only [List.append_assoc, List.cons_append]
  rw [splitOnChar_cons_sep ' ' _ _ (fun c hc => (toFEN_chars g.board c hc).1)]
  rw [splitOnChar_cons_sep ' ' _ _ (by
    intro c hc
    split_ifs at hc
    · obtain rfl : c = 'w' := by simpa using hc
      decide
    · obtain rfl : c = 'b' := by simpa using hc
      decide)]
  rw [splitOnChar_cons_sep ' ' _ _ (fun c hc => (castlingStr_chars g c hc).1)]
  rw [splitOnChar_cons_sep ' ' _ _ (fun c hc => (epStr_chars _ hep c hc).1)]
  rw [splitOnChar_cons_sep ' ' _ _ (fun c hc => (intToDecimal_chars _ c hc).1)]
  rw [splitOnChar_of_no_sep ' ' _ (fun c hc => (intToDecimal_chars _ c hc).1)]

/-- A successful makeMove commits the board movePiece produced and adjusts the
clocks by the source bookkeeping. -/
theorem makeMove_success_shape (g : Game) (fromPos toPos : Pos) (pc : Option (List Char))
    (hs : (g.makeMove fromPos toPos pc).1.success = true) :
    (g.board.movePiece fromPos toPos pc).1.success = true ∧
    (g.makeMove fromPos toPos pc).2.board = (g.board.movePiece fromPos toPos pc).2 ∧
    ((g.makeMove fromPos toPos pc).2.halfMoveClock = 0 ∨
      (g.makeMove fromPos toPos pc).2.halfMoveClock = g.halfMoveClock + 1) ∧
    ((g.makeMove fromPos toPos pc).2.fullMoveNumber = g.fullMoveNumber ∨
      (g.makeMove fromPos toPos pc).2.fullMoveNumber = g.fullMoveNumber + 1) := by
  unfold Game.makeMove at hs
  cases hgp : g.board.getPieceAt fromPos with
  | none =>
    simp only [hgp] at hs
    simp at hs
  | some piece =>
    simp only [hgp, Board.clone] at hs
    by_cases hturn : (piece.color != g.currentTurn) = true
    · rw [if_pos hturn] at hs
      simp at hs
    · rw [if_neg hturn] at hs
      by_cases hsim : (g.board.movePiece fromPos toPos pc).1.success = true
      · simp only [hsim, Bool.not_true, Bool.false_eq_true, if_false] at hs
        by_cases hchk : (g.board.movePiece fromPos toPos pc).2.isKingInCheck g.currentTurn = true
        · rw [if_pos hchk] at hs
          simp at hs
        · refine ⟨hsim, ?_, ?_, ?_⟩
          · unfold Game.makeMove
            simp only [hgp, Board.clone]
            rw [if_neg hturn]
            simp only [hsim, Bool.not_true, Bool.false_eq_true, if_false]
            rw [if_neg hchk]
          · unfold Game.makeMove
            simp only [hgp, Board.clone]
            rw [if_neg hturn]
            simp only [hsim, Bool.not_true, Bool.false_eq_true, if_false]
            rw [if_neg hchk]
            by_cases hcond : (piece.kind == .pawn ||
                (g.board.movePiece fromPos toPos pc).1.capturedPiece.isSome) = true
            · refine Or.inl ?_
              show (if (piece.kind == .pawn ||
                  (g.board.movePiece fromPos toPos pc).1.capturedPiece.isSome) = true then
                  (0 : Int) else g.halfMoveClock + 1) = 0
              rw [if_pos hcond]
            · refine Or.inr ?_
              show (if (piece.kind == .pawn ||
                  (g.board.movePiece fromPos toPos pc).1.capturedPiece.isSome) = true then
                  (0 : Int) else g.halfMoveClock + 1) = g.halfMoveClock + 1
              rw [if_neg hcond]
          · unfold Game.makeMove
            simp only [hgp, Board.clone]
            rw [if_neg hturn]
            simp only [hsim, Bool.not_true, Bool.false_eq_true, if_false]
            rw [if_neg hchk]
            by_cases hcond : (g.currentTurn == Color.black) = true
            · refine Or.inr ?_
              show (if (g.currentTurn == Color.black) = true then g.fullMoveNumber + 1
                  else g.fullMoveNumber) = g.fullMoveNumber + 1
              rw [if_pos hcond]
            · refine Or.inl ?_
              show (if (g.currentTurn == Color.black) = true then g.fullMoveNumber + 1
                  else g.fullMoveNumber) = g.fullMoveNumber
              rw [if_neg hcond]
      · rw [Bool.eq_false_iff.2 hsim] at hs
        simp at hs

/-- Every reachable game has a well-placed board, a non-negative half-move
clock and a full-move number of at least one. -/
theorem reachable_invariant (g : Game) (hR : Reachable g) :
    Board.WF g.board ∧ 0 ≤ g.halfMoveClock ∧ 1 ≤ g.fullMoveNumber := by
  induction hR with
  | base =>
    refine ⟨⟨by decide, by decide, ?_⟩, by decide, by decide⟩
    intro t ht
    rw [show Game.new.board.enPassantTarget = none from rfl] at ht
    exact Option.noConfusion ht
  | step g f t pc hR hsucc ih =>
    obtain ⟨⟨hN, hval, hep⟩, hclk, hfull⟩ := ih
    obtain ⟨hmp, hboard, hhm, hfm⟩ := makeMove_success_shape g f t pc hsucc
    have hWF := movePiece_preserves_WF g.board f t pc hN hmp
    refine ⟨⟨?_, ?_, ?_⟩, ?_, ?_⟩
    · rw [hboard]
      exact hWF.1
    · rw [hboard]
      exact (hWF.2 hval).1
    · rw [hboard]
      exact (hWF.2 hval).2
    · rcases hhm with h | h <;> rw [h] <;> omega
    · rcases hfm with h | h <;> rw [h] <;> omega

/-- C7: For every Game state reachable from the standard initial position by
successful makeMove calls, loadFEN applied to the string getFEN produces
succeeds, and the resulting board's position signature equals the board's
position signature before the round trip. -/
theorem fen_round_trip (g : Game) (hR : Reachable g) :
    (g.loadFEN g.getFEN).1 = true ∧
    (g.loadFEN g.getFEN).2.board.getPositionSignature = g.board.getPositionSignature := by
  obtain ⟨⟨hN, hval, hepv⟩, hclk, hfull⟩ := reachable_invariant g hR
  have hsplit := getFEN_splitOn g hepv
  have hload := board_loadFEN_toFEN g.board
  unfold Game.loadFEN
  rw [getFEN_trim, hsplit]
  rw [if_neg (by simp)]
  simp only [List.getD_cons_zero, List.getD_cons_succ]
  rw [hload]
  simp only [Bool.not_true, Bool.false_eq_true, if_false]
  cases hept : g.board.enPassantTarget with
  | none =>
    have heps : epStr g.board = ['-'] := by
      simp only [epStr, Board.getEnPassantTarget, hept]
    rw [heps]
    rw [if_neg (by decide)]
    rw [parseIntJS_intToDecimal _ hclk]
    rw [parseIntJS_intToDecimal _ (by omega : (0 : Int) ≤ g.fullMoveNumber)]
    refine ⟨rfl, ?_⟩
    refine getPositionSignature_congr _ _ ?_ ?_
    · exact (loadMunge_sigKeys (castlingStr g) (loadedPieces g.board)).symm ▸
        loadedPieces_sigKeys g.board hN hval
    · rw [hept]
  | some t =>
    obtain ⟨hfa, hdash, hchars⟩ := toAlgebraic_valid t (hepv t hept)
    have heps : epStr g.board = t.toAlgebraic := by
      simp only [epStr, Board.getEnPassantTarget, hept]
    rw [heps]
    rw [if_pos (by simpa using hdash)]
    rw [hfa]
    rw [parseIntJS_intToDecimal _ hclk]
    rw [parseIntJS_intToDecimal _ (by omega : (0 : Int) ≤ g.fullMoveNumber)]
    refine ⟨rfl, ?_⟩
    refine getPositionSignature_congr _ _ ?_ ?_
    · exact (loadMunge_sigKeys (castlingStr g) (loadedPieces g.board)).symm ▸
        loadedPieces_sigKeys g.board hN hval
    · rw [hept]
      rfl

/-- Witness: the FEN round trip at the initial position itself. -/
theorem fen_round_trip_witness :
    (Game.new.loadFEN Game.new.getFEN).1 = true ∧
    (Game.new.loadFEN Game.new.getFEN).2.board.getPositionSignature =
      Game.new.board.getPositionSignature :=
  fen_round_trip Game.new Reachable.base

/-- Splitting a request sequence at its last element. -/
theorem playSeq_append (g0 : Game) : ∀ (ms : List (Pos × Pos × Option (List Char)))
    (mv : Pos × Pos × Option (List Char)) (g : Game),
    playSeq g0 (ms ++ [mv]) = some g →
    ∃ gp, playSeq g0 ms = some gp ∧ (gp.makeMove mv.1 mv.2.1 mv.2.2).1.success = true ∧
      g = (gp.makeMove mv.1 mv.2.1 mv.2.2).2 := by
  intro ms
  induction ms generalizing g0 with
  | nil =>
    intro mv g h
    rw [List.nil_append] at h
    simp only [playSeq] at h
    split_ifs at h with hsucc
    · exact ⟨g0, rfl, hsucc, by simpa using h.symm⟩
  | cons m rest ih =>
    intro mv g h
    rw [List.cons_append] at h
    simp only [playSeq] at h
    split_ifs at h with hsucc
    · obtain ⟨gp, h1, h2, h3⟩ := ih _ mv g h
      refine ⟨gp, ?_, h2, h3⟩
      simp only [playSeq]
      rw [if_pos hsucc]
      exact h1

/-- Replay of a history ending in one more move. -/
theorem replayAll_append : ∀ (l : List MoveRec) (m : MoveRec) (st : Board × Color × Int × Int),
    replayAll (l ++ [m]) st =
      (match replayAll l st with
       | some st2 => replayStep st2 m
       | none => none) := by
  intro l
  induction l with
  | nil =>
    intro m st
    show (match replayStep st m with
      | some st1 => replayAll [] st1
      | none => none) = replayStep st m
    cases h : replayStep st m with
    | some st1 => rfl
    | none => rfl
  | cons x rest ih =>
    intro m st
    rw [List.cons_append]
    show (match replayStep st x with
      | some st1 => replayAll (rest ++ [m]) st1
      | none => none) =
      (match (match replayStep st x with
        | some st1 => replayAll rest st1
        | none => none) with
       | some st2 => replayStep st2 m
       | none => none)
    cases h : replayStep st x with
    | some st1 => exact ih m st1
    | none => rfl

/-- The promotion argument enters movePiece only through the constructor
lookup. -/
theorem movePieceRun_promoKind_congr (b : Board) (piece : Piece) (i0 : Nat)
    (fromPos toPos : Pos) (pc1 pc2 : Option (List Char))
    (h : promoKindOf pc1 = promoKindOf pc2) :
    movePieceRun b piece i0 fromPos toPos pc1 = movePieceRun b piece i0 fromPos toPos pc2 := by
  unfold movePieceRun promoteOrRelocate
  rw [h]

/-- A non-promoting move ignores the promotion argument entirely. -/
theorem movePieceRun_promoArg_free (b : Board) (piece : Piece) (i0 : Nat)
    (fromPos toPos : Pos) (pc1 pc2 : Option (List Char))
    (hcond : (piece.kind == .pawn &&
      ((piece.color == .white && toPos.row == 0) ||
       (piece.color == .black && toPos.row == 7))) = false) :
    movePieceRun b piece i0 fromPos toPos pc1 = movePieceRun b piece i0 fromPos toPos pc2 := by
  have hstep : ∀ st, promoteOrRelocate piece toPos pc1 st = promoteOrRelocate piece toPos pc2 st := by
    intro st
    unfold promoteOrRelocate
    rw [hcond]
    simp
  unfold movePieceRun
  simp only [hstep]

/-- The constructor lookup yields one of the four promotable kinds. -/
theorem promoKindOf_cases (pc : Option (List Char)) :
    promoKindOf pc = .queen ∨ promoKindOf pc = .rook ∨
    promoKindOf pc = .bishop ∨ promoKindOf pc = .knight := by
  unfold promoKindOf
  split <;> simp

/-- Re-parsing the abbreviation of a promoted piece recovers its kind. -/
theorem promoKindOf_abbrev (pc : Option (List Char)) (color : Color) (pos : Pos) (hm : Bool) :
    promoKindOf (some (Piece.abbreviation ⟨promoKindOf pc, color, pos, hm⟩)) =
      promoKindOf pc := by
  rcases promoKindOf_cases pc with h | h | h | h <;> rw [h] <;> rfl

/-- A successful movePiece found a valid mover at the source index. -/
theorem movePiece_success_src (b : Board) (f t : Pos) (pc : Option (List Char))
    (hs : (b.movePiece f t pc).1.success = true) :
    ∃ i0, idxAtSquare b.pieces f = some i0 ∧
      (b.pieces.getD i0 default).isValidMove b t = true ∧
      b.movePiece f t pc = movePieceRun b (b.pieces.getD i0 default) i0 f t pc := by
  unfold Board.movePiece at hs
  cases hidx : idxAtSquare b.pieces f with
  | none =>
    simp only [hidx] at hs
    simp [MoveResult.fail] at hs
  | some i0 =>
    simp only [hidx] at hs
    by_cases hv : (b.pieces.getD i0 default).isValidMove b t = true
    · refine ⟨i0, rfl, hv, ?_⟩
      unfold Board.movePiece
      simp only [hidx, hv, Bool.not_true, Bool.false_eq_true, if_false]
    · rw [Bool.eq_false_iff.2 hv] at hs
      simp [MoveResult.fail] at hs

/-- The promotion flag of promoteOrRelocate is exactly the back-rank pawn
condition. -/
theorem promoteOrRelocate_isPromotion (piece : Piece) (toPos : Pos)
    (pc : Option (List Char)) (st : MoveMid) :
    (promoteOrRelocate piece toPos pc st).1 =
      (piece.kind == PieceKind.pawn &&
       ((piece.color == Color.white && toPos.row == 0) ||
        (piece.color == Color.black && toPos.row == 7))) := by
  unfold promoteOrRelocate
  split_ifs with h
  · exact h.symm
  · exact (Bool.eq_false_iff.2 h).symm

/-- The promotion flag of movePieceRun is exactly the back-rank pawn
condition. -/
theorem movePieceRun_isPromotion (b : Board) (piece : Piece) (i0 : Nat)
    (fromPos toPos : Pos) (pc : Option (List Char)) :
    (movePieceRun b piece i0 fromPos toPos pc).1.isPromotion =
      (piece.kind == PieceKind.pawn &&
       ((piece.color == Color.white && toPos.row == 0) ||
        (piece.color == Color.black && toPos.row == 7))) := by
  unfold movePieceRun
  exact promoteOrRelocate_isPromotion piece toPos pc _

/-- On the promoting branch, the new piece recorded by promoteOrRelocate. -/
theorem promoteOrRelocate_promotedTo (piece : Piece) (toPos : Pos)
    (pc : Option (List Char)) (st : MoveMid)
    (h : (piece.kind == PieceKind.pawn &&
       ((piece.color == Color.white && toPos.row == 0) ||
        (piece.color == Color.black && toPos.row == 7))) = true) :
    (promoteOrRelocate piece toPos pc st).2.1 =
      some ⟨promoKindOf pc, piece.color, toPos, true⟩ := by
  unfold promoteOrRelocate
  rw [if_pos h]

/-- On the promoting branch, the promoted piece recorded by movePieceRun. -/
theorem movePieceRun_promotedTo (b : Board) (piece : Piece) (i0 : Nat)
    (fromPos toPos : Pos) (pc : Option (List Char))
    (h : (piece.kind == PieceKind.pawn &&
       ((piece.color == Color.white && toPos.row == 0) ||
        (piece.color == Color.black && toPos.row == 7))) = true) :
    (movePieceRun b piece i0 fromPos toPos pc).1.promotedTo =
      some ⟨promoKindOf pc, piece.color, toPos, true⟩ := by
  unfold movePieceRun
  exact promoteOrRelocate_promotedTo piece toPos pc _ h

/-- Replaying with the promotion argument reconstructed from the move record
gives the same movePiece result as the original promotion argument. -/
theorem replayPromoArg_eq (mrec : MoveRec) (b : Board) (f t : Pos)
    (pc : Option (List Char))
    (hs : (b.movePiece f t pc).1.success = true)
    (hrip : mrec.isPromotion = (b.movePiece f t pc).1.isPromotion)
    (hrpt : mrec.promotedTo = (b.movePiece f t pc).1.promotedTo) :
    b.movePiece f t (replayPromoArg mrec) = b.movePiece f t pc := by
  obtain ⟨i0, hidx, hv, heq⟩ := movePiece_success_src b f t pc hs
  rw [heq] at hrip hrpt ⊢
  unfold replayPromoArg
  rw [hrip, hrpt, movePieceRun_isPromotion]
  conv_lhs => rw [Board.movePiece]
  simp only [hidx, hv, Bool.not_true, Bool.false_eq_true, if_false]
  by_cases hc : ((b.pieces.getD i0 default).kind == PieceKind.pawn &&
      (((b.pieces.getD i0 default).color == Color.white && t.row == 0) ||
       ((b.pieces.getD i0 default).color == Color.black && t.row == 7))) = true
  · rw [if_pos hc, movePieceRun_promotedTo b (b.pieces.getD i0 default) i0 f t pc hc]
    exact movePieceRun_promoKind_congr b (b.pieces.getD i0 default) i0 f t _ pc
      (promoKindOf_abbrev pc (b.pieces.getD i0 default).color t true)
  · rw [if_neg hc]
    exact movePieceRun_promoArg_free b (b.pieces.getD i0 default) i0 f t none pc
      (Bool.eq_false_iff.2 hc)

/-- One replay step, evaluated on parsed squares. -/
theorem replayStep_eq (b0 : Board) (c0 : Color) (h0 f0 : Int) (mrec : MoveRec)
    (f t : Pos) (hf : Pos.fromAlgebraic mrec.fromAlg = some f)
    (ht : Pos.fromAlgebraic mrec.toAlg = some t) :
    replayStep (b0, c0, h0, f0) mrec =
      some ((b0.movePiece f t (replayPromoArg mrec)).2,
        (if c0 == Color.white then Color.black else Color.white),
        (if (mrec.piece.kind == PieceKind.pawn || mrec.capturedPiece.isSome) = true
          then 0 else h0 + 1),
        (if ((if c0 == Color.white then Color.black else Color.white) == Color.white) = true
          then f0 + 1 else f0)) := by
  unfold replayStep
  rw [hf, ht]

/-- Exact description of a successful Game.makeMove: the branch conditions
that were passed, the committed board, and every bookkeeping field including
the appended move record. -/
theorem makeMove_success_exact (g : Game) (fromPos toPos : Pos) (pc : Option (List Char))
    (hs : (g.makeMove fromPos toPos pc).1.success = true) :
    ∃ piece, g.board.getPieceAt fromPos = some piece ∧ piece.color = g.currentTurn ∧
      (g.board.movePiece fromPos toPos pc).1.success = true ∧
      (g.board.movePiece fromPos toPos pc).2.isKingInCheck g.currentTurn = false ∧
      (g.makeMove fromPos toPos pc).2.board = (g.board.movePiece fromPos toPos pc).2 ∧
      (g.makeMove fromPos toPos pc).2.currentTurn =
        (if g.currentTurn == Color.white then Color.black else Color.white) ∧
      (g.makeMove fromPos toPos pc).2.halfMoveClock =
        (if (piece.kind == PieceKind.pawn ||
            (g.board.movePiece fromPos toPos pc).1.capturedPiece.isSome) = true then 0
         else g.halfMoveClock + 1) ∧
      (g.makeMove fromPos toPos pc).2.fullMoveNumber =
        (if (g.currentTurn == Color.black) = true then g.fullMoveNumber + 1
         else g.fullMoveNumber) ∧
      (g.makeMove fromPos toPos pc).2.positionHistory =
        g.positionHistory ++ [(g.board.movePiece fromPos toPos pc).2.getPositionSignature] ∧
      ∃ mrec, (g.makeMove fromPos toPos pc).2.moveHistory = g.moveHistory ++ [mrec] ∧
        mrec.piece = piece ∧ mrec.fromAlg = fromPos.toAlgebraic ∧
        mrec.toAlg = toPos.toAlgebraic ∧
        mrec.capturedPiece = (g.board.movePiece fromPos toPos pc).1.capturedPiece ∧
        mrec.isPromotion = (g.board.movePiece fromPos toPos pc).1.isPromotion ∧
        mrec.promotedTo = (g.board.movePiece fromPos toPos pc).1.promotedTo := by
  unfold Game.makeMove at hs
  cases hgp : g.board.getPieceAt fromPos with
  | none =>
    simp only [hgp] at hs
    simp at hs
  | some piece =>
    simp only [hgp, Board.clone] at hs
    by_cases hturn : (piece.color != g.currentTurn) = true
    · rw [if_pos hturn] at hs
      simp at hs
    · rw [if_neg hturn] at hs
      by_cases hsim : (g.board.movePiece fromPos toPos pc).1.success = true
      · simp only [hsim, Bool.not_true, Bool.false_eq_true, if_false] at hs
        by_cases hchk : (g.board.movePiece fromPos toPos pc).2.isKingInCheck g.currentTurn = true
        · rw [if_pos hchk] at hs
          simp at hs
        · refine ⟨piece, rfl, by simpa using hturn, hsim, Bool.eq_false_iff.2 hchk,
            ?_, ?_, ?_, ?_, ?_, ?_⟩
          all_goals
            unfold Game.makeMove
            simp only [hgp, Board.clone]
            rw [if_neg hturn]
            simp only [hsim, Bool.not_true, Bool.false_eq_true, if_false]
            rw [if_neg hchk]
          exact ⟨_, rfl, rfl, rfl, rfl, rfl, rfl, rfl⟩
      · rw [Bool.eq_false_iff.2 hsim] at hs
        simp at hs

/-- Converse: a makeMove with the right color at the source, a successful
committed movePiece and a safe own king succeeds. -/
theorem makeMove_success_of (g : Game) (fromPos toPos : Pos) (pc : Option (List Char))
    (piece : Piece) (hgp : g.board.getPieceAt fromPos = some piece)
    (hcolor : piece.color = g.currentTurn)
    (hsim : (g.board.movePiece fromPos toPos pc).1.success = true)
    (hchk : (g.board.movePiece fromPos toPos pc).2.isKingInCheck g.currentTurn = false) :
    (g.makeMove fromPos toPos pc).1.success = true := by
  unfold Game.makeMove
  simp only [hgp, Board.clone]
  rw [if_neg (by simp [hcolor])]
  simp only [hsim, Bool.not_true, Bool.false_eq_true, if_false]
  rw [if_neg (by simp [hchk])]

/-- Replaying the recorded move of a successful makeMove from the pre-move
state reproduces exactly the post-move board, turn and counters. -/
theorem replayStep_of_exact (g : Game) (f t : Pos) (pc : Option (List Char))
    (piece : Piece) (mrec : MoveRec)
    (hval : ∀ p ∈ g.board.pieces, p.pos.isValid = true)
    (hmp : (g.board.movePiece f t pc).1.success = true)
    (hgp : g.board.getPieceAt f = some piece)
    (hrp : mrec.piece = piece)
    (hrfa : mrec.fromAlg = f.toAlgebraic) (hrta : mrec.toAlg = t.toAlgebraic)
    (hrcap : mrec.capturedPiece = (g.board.movePiece f t pc).1.capturedPiece)
    (hrip : mrec.isPromotion = (g.board.movePiece f t pc).1.isPromotion)
    (hrpt : mrec.promotedTo = (g.board.movePiece f t pc).1.promotedTo) :
    replayStep (g.board, g.currentTurn, g.halfMoveClock, g.fullMoveNumber) mrec =
      some ((g.board.movePiece f t pc).2,
        (if g.currentTurn == Color.white then Color.black else Color.white),
        (if (piece.kind == PieceKind.pawn ||
             (g.board.movePiece f t pc).1.capturedPiece.isSome) = true then 0
          else g.halfMoveClock + 1),
        (if (g.currentTurn == Color.black) = true then g.fullMoveNumber + 1
          else g.fullMoveNumber)) := by
  obtain ⟨hmem, hposf⟩ := getPieceAt_mem g.board f piece hgp
  have hfv : f.isValid = true := by rw [← hposf]; exact hval piece hmem
  obtain ⟨i0, hidx, hv, heq⟩ := movePiece_success_src g.board f t pc hmp
  have htv : t.isValid = true := (isValidMove_facts _ g.board t hv).1
  rw [replayStep_eq g.board g.currentTurn g.halfMoveClock g.fullMoveNumber mrec f t
    (by rw [hrfa]; exact (toAlgebraic_valid f hfv).1)
    (by rw [hrta]; exact (toAlgebraic_valid t htv).1)]
  rw [replayPromoArg_eq mrec g.board f t pc hmp hrip hrpt]
  rw [hrp, hrcap]
  cases hct : g.currentTurn <;> rfl

/-- Reachability is preserved along playSeq. -/
theorem playSeq_reachable : ∀ (ms : List (Pos × Pos × Option (List Char))) (g0 g : Game),
    Reachable g0 → playSeq g0 ms = some g → Reachable g := by
  intro ms
  induction ms with
  | nil =>
    intro g0 g h0 h
    simp only [playSeq, Option.some.injEq] at h
    subst h
    exact h0
  | cons m rest ih =>
    intro g0 g h0 h
    simp only [playSeq] at h
    split_ifs at h with hsucc
    · exact ih _ g (Reachable.step g0 m.1 m.2.1 m.2.2 h0 hsucc) h

/-- For every reachable game, replaying the whole recorded history from the
initial position rebuilds exactly the board, turn and counters (the rebuild
loop of Game.undoLastMove is faithful). -/
theorem reachable_replay (g : Game) (hR : Reachable g) :
    replayAll g.moveHistory (Board.new, Color.white, 0, 1) =
      some (g.board, g.currentTurn, g.halfMoveClock, g.fullMoveNumber) := by
  induction hR with
  | base => rfl
  | step g f t pc hR hsucc ih =>
    obtain ⟨⟨hN, hval, hep⟩, hclk, hfull⟩ := reachable_invariant g hR
    obtain ⟨piece, hgp, hcolor, hmp, hchk, hboard, hturnEq, hclock, hfullEq, hph,
      mrec, hmh, hrp, hrfa, hrta, hrcap, hrip, hrpt⟩ := makeMove_success_exact g f t pc hsucc
    rw [hmh, replayAll_append, ih]
    show replayStep (g.board, g.currentTurn, g.halfMoveClock, g.fullMoveNumber) mrec =
      some ((g.makeMove f t pc).2.board, (g.makeMove f t pc).2.currentTurn,
        (g.makeMove f t pc).2.halfMoveClock, (g.makeMove f t pc).2.fullMoveNumber)
    rw [replayStep_of_exact g f t pc piece mrec hval hmp hgp hrp hrfa hrta hrcap hrip hrpt]
    rw [hboard, hturnEq, hclock, hfullEq]

/-- Evaluation of undoLastMove on a nonempty history whose remainder
replays. -/
theorem undoLastMove_eq (g : Game) (l : List MoveRec) (mrec : MoveRec)
    (b0 : Board) (c0 : Color) (h0 f0 : Int)
    (hmh : g.moveHistory = l ++ [mrec])
    (hrep : replayAll l (Board.new, Color.white, 0, 1) = some (b0, c0, h0, f0)) :
    ∃ g2, g.undoLastMove = some (true, g2) ∧ g2.board = b0 ∧ g2.currentTurn = c0 ∧
      g2.halfMoveClock = h0 ∧ g2.fullMoveNumber = f0 := by
  unfold Game.undoLastMove
  rw [hmh]
  rw [if_neg (by simp)]
  simp only [List.dropLast_concat]
  rw [hrep]
  exact ⟨_, rfl, rfl, rfl, rfl, rfl⟩

/-- The castling-rights field depends only on the board. -/
theorem castlingStr_congr (ga gb : Game) (hb : ga.board = gb.board) :
    castlingStr ga = castlingStr gb := by
  unfold castlingStr Game.findRookAt
  rw [hb]

/-- The FEN output depends only on board, turn and the two counters. -/
theorem getFEN_congr (ga gb : Game) (hb : ga.board = gb.board)
    (ht : ga.currentTurn = gb.currentTurn) (hh : ga.halfMoveClock = gb.halfMoveClock)
    (hf : ga.fullMoveNumber = gb.fullMoveNumber) : ga.getFEN = gb.getFEN := by
  rw [getFEN_shape, getFEN_shape, castlingStr_congr ga gb hb, hb, ht, hh, hf]

/-- C8: for any Game reached by a sequence of successful makeMove calls from
the standard start, undoLastMove succeeds, and replaying the same
(from, to, promotion) request through makeMove on the resulting Game succeeds
and yields a Game whose full six-field FEN string equals the FEN string of
the Game before the undo. -/
theorem undo_then_replay_restores_fen (ms : List (Pos × Pos × Option (List Char)))
    (mv : Pos × Pos × Option (List Char)) (g : Game)
    (h : playSeq Game.new (ms ++ [mv]) = some g) :
    ∃ g2, g.undoLastMove = some (true, g2) ∧
      (g2.makeMove mv.1 mv.2.1 mv.2.2).1.success = true ∧
      (g2.makeMove mv.1 mv.2.1 mv.2.2).2.getFEN = g.getFEN := by
  obtain ⟨gp, hseq, hsucc, hg⟩ := playSeq_append Game.new ms mv g h
  have hRp : Reachable gp := playSeq_reachable ms Game.new gp Reachable.base hseq
  have hrep := reachable_replay gp hRp
  obtain ⟨piece, hgp2, hcolor, hmp, hchk, hboard, hturnEq, hclock, hfullEq, hph,
    mrec, hmh, hrp, hrfa, hrta, hrcap, hrip, hrpt⟩ :=
    makeMove_success_exact gp mv.1 mv.2.1 mv.2.2 hsucc
  subst hg
  obtain ⟨g2, hundo, hb2, ht2, hc2, hf2⟩ :=
    undoLastMove_eq (gp.makeMove mv.1 mv.2.1 mv.2.2).2 gp.moveHistory mrec
      gp.board gp.currentTurn gp.halfMoveClock gp.fullMoveNumber hmh hrep
  have hs2 : (g2.makeMove mv.1 mv.2.1 mv.2.2).1.success = true := by
    apply makeMove_success_of g2 mv.1 mv.2.1 mv.2.2 piece
    · rw [hb2]; exact hgp2
    · rw [ht2]; exact hcolor
    · rw [hb2]; exact hmp
    · rw [hb2, ht2]; exact hchk
  obtain ⟨piece2, hgp22, hcolor2, hmp2, hchk2, hboard2, hturnEq2, hclock2, hfullEq2, hph2,
    mrec2, hmh2, hrp2, hrfa2, hrta2, hrcap2, hrip2, hrpt2⟩ :=
    makeMove_success_exact g2 mv.1 mv.2.1 mv.2.2 hs2
  have hpe : piece2 = piece := by
    rw [hb2] at hgp22
    exact Option.some.inj (hgp22.symm.trans hgp2)
  refine ⟨g2, hundo, hs2, getFEN_congr _ _ ?_ ?_ ?_ ?_⟩
  · rw [hboard2, hb2, hboard]
  · rw [hturnEq2, ht2, hturnEq]
  · rw [hclock2, hpe, hb2, hc2, hclock]
  · rw [hfullEq2, ht2, hf2, hfullEq]

/-- Witness for C8: after the single opening move e2-e4, undoing and
replaying it restores the FEN. -/
theorem undo_then_replay_restores_fen_witness :
    ∃ g2, (Game.new.makeMove ⟨6, 4⟩ ⟨4, 4⟩ (some ['Q'])).2.undoLastMove = some (true, g2) ∧
      (g2.makeMove ⟨6, 4⟩ ⟨4, 4⟩ (some ['Q'])).1.success = true ∧
      (g2.makeMove ⟨6, 4⟩ ⟨4, 4⟩ (some ['Q'])).2.getFEN =
        (Game.new.makeMove ⟨6, 4⟩ ⟨4, 4⟩ (some ['Q'])).2.getFEN :=
  undo_then_replay_restores_fen [] (⟨6, 4⟩, ⟨4, 4⟩, some ['Q'])
    (Game.new.makeMove ⟨6, 4⟩ ⟨4, 4⟩ (some ['Q'])).2 (by
      show playSeq Game.new [(⟨6, 4⟩, ⟨4, 4⟩, some ['Q'])] =
        some (Game.new.makeMove ⟨6, 4⟩ ⟨4, 4⟩ (some ['Q'])).2
      simp only [playSeq]
      rw [if_pos (by decide)])
